import Mathlib

/-!
Verification of the dependency-graph engine `packages/core/core/src/AssetGraph.js`.

The node payload types, the resolvers, the deferral propagator, the symbol-usage
propagator and the hash cache are translated from `AssetGraph.js`.  The generic
graph store (`Graph.js`) that `AssetGraph` extends is not part of the sources at
hand, so its primitives (`addNode`, `removeNode`, `replaceNodesConnectedTo`, the
traversal engine) are modelled from the specification, as marked on each
definition.

JavaScript objects are mutated through live references, and `AssetGraph` leans
on that: `replaceNodesConnectedTo` keeps the already-stored record when a child
with the same id is offered again, so later writes through the freshly created
duplicate object are invisible to the graph.  To keep that behaviour, nodes live
in an explicit heap (`Addr`-indexed store) and the node map binds each id to an
address; writes through an address that the map does not reference are exactly
the writes JavaScript loses.
-/

/-- The six node kinds of the asset graph. -/
inductive NType where
  | root
  | entry_specifier
  | entry_file
  | dependency
  | asset_group
  | asset
deriving DecidableEq, Repr

/-- A build target, as carried by entry dependencies.  `descriptor` stands for
the serialized form of the remaining target fields. -/
structure Target where
  name : String
  isLibrary : Bool
  descriptor : String
deriving DecidableEq, Repr

/-- The dependency descriptor (`dep.value`): specifier, optional target, the
per-edge symbol table (exported name to local binding) and the weak set. -/
structure DepValue where
  id : String
  moduleSpecifier : String
  pipeline : Option String
  target : Option Target
  symbols : List (String × String)
  weakSymbols : List String
  isEntry : Bool
deriving DecidableEq, Repr

/-- The asset record (`asset`): exported-symbol table (exported name to local
binding, absent when the asset has no symbol data), declared dependencies and
the output content hash. -/
structure AssetValue where
  id : String
  uniqueKey : Option String
  symbols : Option (List (String × String))
  dependencies : List DepValue
  outputHash : Option String
deriving DecidableEq, Repr

/-- The asset-group descriptor: source path and the side-effects flag
(tri-state: absent, true or false). -/
structure AssetGroupValue where
  filePath : String
  sideEffects : Option Bool
deriving DecidableEq, Repr

/-- One graph node.  JavaScript stores nodes as open records whose optional
fields (`deferred`, `hasDeferred`, `complete`, `correspondingRequest`) may be
absent, so every variant-specific field is optional here and `none` stands for
`undefined`. -/
structure NodeRec where
  id : String
  ntype : NType
  entryValue : Option String := none
  depValue : Option DepValue := none
  assetValue : Option AssetValue := none
  groupValue : Option AssetGroupValue := none
  usedSymbols : List String := []
  deferred : Option Bool := none
  hasDeferred : Option Bool := none
  complete : Option Bool := none
  correspondingRequest : Option String := none
deriving DecidableEq, Repr

/-- Lookup in an association list, first match (JavaScript `Map.get`). -/
def lookupStr {α : Type} (l : List (String × α)) (k : String) : Option α :=
  (l.find? (fun p => p.1 == k)).map (·.2)

/-- `Map.set`: overwrite the existing binding or append a new one. -/
def assocSet {α : Type} (l : List (String × α)) (k : String) (v : α) :
    List (String × α) :=
  if l.any (fun p => p.1 == k) then
    l.map (fun p => if p.1 == k then (k, v) else p)
  else
    l ++ [(k, v)]

/-- `Map.delete` / dropping a key. -/
def assocDelete {α : Type} (l : List (String × α)) (k : String) :
    List (String × α) :=
  l.filter (fun p => !(p.1 == k))

/-- JavaScript `Set.add` on an insertion-ordered set. -/
def setAdd (l : List String) (s : String) : List String :=
  if s ∈ l then l else l ++ [s]

/-- JavaScript `Set.delete`. -/
def setDelete (l : List String) (s : String) : List String :=
  l.erase s

/-- Heap addresses standing for JavaScript object identities. -/
abbrev Addr := Nat

/-- The asset graph state: the id-keyed node map (binding ids to heap
addresses), the heap of node records, forward and reverse adjacency lists in
insertion order, the root id and the cached hash. -/
structure AGraph where
  nodes : List (String × Addr)
  heap : List (Addr × NodeRec)
  nextAddr : Addr
  fromEdges : List (String × List String)
  toEdges : List (String × List String)
  rootNodeId : Option String
  hash : Option String
deriving DecidableEq, Repr

/-- Read a node record through an object reference. -/
def heapGet (g : AGraph) (a : Addr) : Option NodeRec :=
  (g.heap.find? (fun p => p.1 == a)).map (·.2)

/-- Overwrite the record behind an object reference (a JavaScript field
assignment). -/
def heapSet (g : AGraph) (a : Addr) (r : NodeRec) : AGraph :=
  { g with heap := g.heap.map (fun p => if p.1 == a then (a, r) else p) }

/-- Create a fresh object holding `r` (a JavaScript object literal). -/
def alloc (g : AGraph) (r : NodeRec) : Addr × AGraph :=
  (g.nextAddr,
   { g with heap := g.heap ++ [(g.nextAddr, r)], nextAddr := g.nextAddr + 1 })

/-- The address bound to an id in the node map (`this.nodes.get(id)` seen as a
reference). -/
def getNodeAddr (g : AGraph) (i : String) : Option Addr :=
  (g.nodes.find? (fun p => p.1 == i)).map (·.2)

/-- `this.getNode(id)`: the record currently bound to an id. -/
def getNode (g : AGraph) (i : String) : Option NodeRec :=
  (getNodeAddr g i).bind (heapGet g)

/-- `this.hasNode(id)`. -/
def hasNode (g : AGraph) (i : String) : Bool :=
  (getNodeAddr g i).isSome

/-- Ordered child ids of a node (`getNodesConnectedFrom`, by id). -/
def childrenOf (g : AGraph) (i : String) : List String :=
  ((g.fromEdges.find? (fun p => p.1 == i)).map (·.2)).getD []

/-- Ordered parent ids of a node (`getNodesConnectedTo`, by id). -/
def parentsOf (g : AGraph) (i : String) : List String :=
  ((g.toEdges.find? (fun p => p.1 == i)).map (·.2)).getD []

/-- Does the edge `p → c` exist? -/
def hasEdge (g : AGraph) (p c : String) : Bool :=
  (childrenOf g p).contains c

/-- Append `v` to the adjacency list of `k`, creating the entry if needed. -/
def adjAppend (l : List (String × List String)) (k v : String) :
    List (String × List String) :=
  if l.any (fun p => p.1 == k) then
    l.map (fun p => if p.1 == k then (p.1, p.2 ++ [v]) else p)
  else
    l ++ [(k, [v])]

/-- Remove `v` from the adjacency list of `k`. -/
def adjErase (l : List (String × List String)) (k v : String) :
    List (String × List String) :=
  l.map (fun p => if p.1 == k then (p.1, p.2.erase v) else p)

/-- Modelled from the spec: `Graph.addEdge` maintains the forward and reverse
adjacency indices atomically (design note on bidirectional bookkeeping). -/
def addEdge (g : AGraph) (p c : String) : AGraph :=
  { g with
    fromEdges := adjAppend g.fromEdges p c,
    toEdges := adjAppend g.toEdges c p }

/-- Modelled from the spec: removing one directed edge from both indices. -/
def removeEdgePair (g : AGraph) (p c : String) : AGraph :=
  { g with
    fromEdges := adjErase g.fromEdges p c,
    toEdges := adjErase g.toEdges c p }

/-- `AssetGraph.addNode`: clear the cached hash, then `Graph.addNode` binds the
id to the object (the node-map part is modelled from the spec).  The heap
lookup names the record whose id is bound; allocation always precedes this
call, so the `none` branch is unreachable. -/
def addNode (g : AGraph) (a : Addr) : AGraph :=
  let g0 : AGraph := { g with hash := none }
  match heapGet g0 a with
  | none => g0
  | some r => { g0 with nodes := assocSet g0.nodes r.id a }

/-- Modelled from the spec: node removal deletes the node and all of its
edges and cascades to any child left with no remaining parent; every removal
goes through `AssetGraph.removeNode`, which clears the cached hash (the
external removal observer carries no graph state and is elided).  The fuel
argument bounds the cascade depth; callers pass `nodes.length + 1`, which is
an upper bound on the length of any chain of cascading removals. -/
def removeNodeFueled : Nat → AGraph → String → AGraph
  | 0, g, _ => g
  | Nat.succ n, g, i =>
      if hasNode g i then
        let ps := parentsOf g i
        let cs := childrenOf g i
        let g1 : AGraph :=
          { g with nodes := assocDelete g.nodes i, hash := none }
        let g2 := ps.foldl (fun h p => removeEdgePair h p i) g1
        let g3 := cs.foldl (fun h c => removeEdgePair h i c) g2
        cs.foldl
          (fun h c =>
            if (parentsOf h c).isEmpty && hasNode h c then
              removeNodeFueled n h c
            else h)
          g3
      else g

/-- `AssetGraph.removeNode`: clear the cached hash, then remove with cascade. -/
def removeNode (g : AGraph) (i : String) : AGraph :=
  let g0 : AGraph := { g with hash := none }
  removeNodeFueled (g0.nodes.length + 1) g0 i

/-- Modelled from the spec: `replaceNodesConnectedTo` diffs the parent's
current children against the desired list.  Children present in both are left
untouched, preserving their mutable state; desired children are added
(inserting the node when its id is new) with a fresh edge; stale children have
their edge removed and are cascade-removed when left parentless. -/
def replaceNodesConnectedTo (g : AGraph) (parentId : String)
    (children : List Addr) : AGraph :=
  let current := childrenOf g parentId
  let desired := children.filterMap (fun a => (heapGet g a).map (·.id))
  let g1 := children.foldl
    (fun h a =>
      match heapGet h a with
      | none => h
      | some r =>
          let h1 := if hasNode h r.id then h else addNode h a
          if hasEdge h1 parentId r.id then h1 else addEdge h1 parentId r.id)
    g
  let stale := current.filter (fun c => !(desired.contains c))
  stale.foldl
    (fun h c =>
      let h1 := removeEdgePair h parentId c
      if (parentsOf h1 c).isEmpty && hasNode h1 c then
        removeNodeFueled (h1.nodes.length + 1) h1 c
      else h1)
    g1

/-- The shape of a graph visitor: it sees the current graph, its accumulator,
the visited node's object reference and record, and the context its parent
produced; it returns the updated graph and accumulator, the context for the
children, and the `skipChildren` / `stop` signals. -/
abbrev Visitor (α κ : Type) :=
  AGraph → α → Addr → NodeRec → Option κ → AGraph × α × Option κ × Bool × Bool

/-- Modelled from the spec: the cycle-safe depth-first walk shared by
`traverse` and `traverseAncestors` — pre-order, guarded by a visited set so
each node is visited at most once, with per-visit `skipChildren` and `stop`
signals and parent-to-child context passing.  `nbrs` yields a node's
successors in the direction walked.  The walk is written against fuel so that
it is executable; `travFuel` below always suffices (proved later), so the
`none` result is unreachable from the wrappers.  The result carries the visit
order (most callers discard it; the theorems use it). -/
def travGo {α κ : Type} (nbrs : AGraph → String → List String)
    (visit : Visitor α κ) :
    Nat → AGraph → α → List (String × Option κ) → List String →
    Option (AGraph × α × List String)
  | 0, _, _, _, _ => none
  | Nat.succ n, h, acc, stack, visited =>
    match stack with
    | [] => some (h, acc, visited.reverse)
    | (i, ctx) :: rest =>
      if visited.contains i then travGo nbrs visit n h acc rest visited
      else
        match getNodeAddr h i with
        | none => travGo nbrs visit n h acc rest visited
        | some a =>
          match heapGet h a with
          | none => travGo nbrs visit n h acc rest visited
          | some r =>
            let visited1 := i :: visited
            match visit h acc a r ctx with
            | (h1, acc1, ctx1, skipChildren, stop) =>
              if stop then some (h1, acc1, visited1.reverse)
              else if skipChildren then
                travGo nbrs visit n h1 acc1 rest visited1
              else
                travGo nbrs visit n h1 acc1
                  ((nbrs h1 i).map (fun c => (c, ctx1)) ++ rest) visited1

/-- The largest forward adjacency list length. -/
def maxOutDegree (g : AGraph) : Nat :=
  g.fromEdges.foldl (fun n p => max n p.2.length) 0

/-- The largest reverse adjacency list length. -/
def maxInDegree (g : AGraph) : Nat :=
  g.toEdges.foldl (fun n p => max n p.2.length) 0

/-- Fuel that always completes a walk over `g` whose per-node successor count
is bounded by `d` (adequacy is proved with the cycle-safety theorem). -/
def travFuel (g : AGraph) (d : Nat) : Nat :=
  (1 + d) * (1 + g.nodes.length) + 2

/-- `traverse(visitor, startNode)`: descendant walk from `startNode`, default
the root (modelled from the spec; a graph without a root traverses nothing). -/
def traverse {α κ : Type} (g : AGraph) (visit : Visitor α κ) (acc0 : α)
    (start : Option String) : Option (AGraph × α × List String) :=
  match start.orElse (fun _ => g.rootNodeId) with
  | none => some (g, acc0, [])
  | some s => travGo childrenOf visit (travFuel g (maxOutDegree g)) g acc0
      [(s, none)] []

/-- `traverseAncestors(node, visitor)`: the same walk over reverse edges
(modelled from the spec). -/
def traverseAncestors {α κ : Type} (g : AGraph) (visit : Visitor α κ)
    (acc0 : α) (startId : String) : Option (AGraph × α × List String) :=
  travGo parentsOf visit (travFuel g (maxInDegree g)) g acc0 [(startId, none)] []

/-- `filteredTraverse(map, visitor, startNode)` (modelled from the spec):
each node is passed through `mapFn`; nodes mapping to nothing are excluded
from the visitor call but their descendants are still walked, and their
children start with an empty context. -/
def filteredTraverse {α β κ : Type} (g : AGraph) (mapFn : NodeRec → Option β)
    (visit : AGraph → α → β → Option κ → AGraph × α × Option κ × Bool × Bool)
    (acc0 : α) (start : Option String) : Option (AGraph × α × List String) :=
  traverse g
    (fun h acc _ r ctx =>
      match mapFn r with
      | none => (h, acc, none, false, false)
      | some b => visit h acc b ctx)
    acc0 start

/-- Modelled from the spec: `findAncestors(node, predicate)` walks all
ancestors collecting the matching ones, continuing past a match (the design
notes fix the unbounded behaviour as current). -/
def findAncestors (g : AGraph) (startId : String) (pred : NodeRec → Bool) :
    List String :=
  match traverseAncestors g
      (fun h acc _ r _ =>
        (h, if pred r then acc ++ [r.id] else acc, (none : Option Unit),
         false, false))
      ([] : List String) startId with
  | some (_, acc, _) => acc
  | none => []

/-- `getIncomingDependencies(asset)`: empty when the asset node is gone,
otherwise every ancestor node of dependency type, as dependency descriptors. -/
def getIncomingDependencies (g : AGraph) (asset : AssetValue) :
    List DepValue :=
  match getNodeAddr g asset.id with
  | none => []
  | some _ =>
      (findAncestors g asset.id (fun r => r.ntype == NType.dependency)).filterMap
        (fun i => (getNode g i).bind (·.depValue))

/-- `traverseAssets(visit, startNode)`: filtered traversal that shows the
visitor only asset payloads. -/
def traverseAssets {α κ : Type} (g : AGraph)
    (visit : AGraph → α → AssetValue → Option κ → AGraph × α × Option κ × Bool × Bool)
    (acc0 : α) (start : Option String) : Option (AGraph × α × List String) :=
  filteredTraverse g
    (fun r => if r.ntype == NType.asset then r.assetValue else none)
    visit acc0 start

/-- The order in which `traverse` visits nodes, with a trivial visitor. -/
def visitOrder (g : AGraph) (start : Option String) : List String :=
  match traverse g
      (fun h acc _ _ _ => (h, acc, (none : Option Unit), false, false))
      () start with
  | some (_, _, ord) => ord
  | none => []

/-- The order in which `traverseAncestors` visits nodes. -/
def ancestorOrder (g : AGraph) (startId : String) : List String :=
  match traverseAncestors g
      (fun h acc _ _ _ => (h, acc, (none : Option Unit), false, false))
      () startId with
  | some (_, _, ord) => ord
  | none => []

/-- Modelled from the spec: `md5FromObject` (parcel utils) — a deterministic
content digest of a serialized object, here an injective tagging of the
serialized form. -/
def md5FromObject (s : String) : String :=
  "md5(" ++ s ++ ")"

/-- Serialization of an asset-group descriptor, input to its content id. -/
def serializeAssetGroup (v : AssetGroupValue) : String :=
  v.filePath ++ ";" ++
    (match v.sideEffects with
     | none => "u"
     | some true => "t"
     | some false => "f")

/-- `nodeFromDep`. -/
def nodeFromDep (dep : DepValue) : NodeRec :=
  { id := dep.id, ntype := NType.dependency, depValue := some dep,
    usedSymbols := [] }

/-- `nodeFromAssetGroup`: id is the content hash of the group descriptor. -/
def nodeFromAssetGroup (v : AssetGroupValue) : NodeRec :=
  { id := md5FromObject (serializeAssetGroup v), ntype := NType.asset_group,
    groupValue := some v }

/-- `nodeFromAsset`. -/
def nodeFromAsset (a : AssetValue) : NodeRec :=
  { id := a.id, ntype := NType.asset, assetValue := some a, usedSymbols := [] }

/-- `nodeFromEntrySpecifier`. -/
def nodeFromEntrySpecifier (e : String) : NodeRec :=
  { id := "entry_specifier:" ++ e, ntype := NType.entry_specifier,
    entryValue := some e }

/-- `nodeFromEntryFile`. -/
def nodeFromEntryFile (e : String) : NodeRec :=
  { id := "entry_file:" ++ md5FromObject e, ntype := NType.entry_file,
    entryValue := some e }

/-- `shouldDeferDependency`: defer exactly when the side-effects flag is
explicitly false and the dependency's used-symbol set is empty. -/
def shouldDeferDependency (dependency : NodeRec) (sideEffects : Option Bool) :
    Bool :=
  sideEffects == some false && dependency.usedSymbols.isEmpty

/-- `markParentsWithHasDeferred(node)`: walk the ancestors of the dependency
node; set `hasDeferred` on asset ancestors and keep climbing, set it on
asset-group ancestors and stop that branch, and stop at any other node that is
not the origin (`node !== _node` is the object-identity test, here equality of
addresses). -/
def markParentsWithHasDeferred (g : AGraph) (nodeAddr : Addr) : AGraph :=
  match heapGet g nodeAddr with
  | none => g
  | some nrec =>
    match traverseAncestors g
        (fun h _ a r _ =>
          if r.ntype == NType.asset then
            (heapSet h a { r with hasDeferred := some true }, (),
             (none : Option Unit), false, false)
          else if r.ntype == NType.asset_group then
            (heapSet h a { r with hasDeferred := some true }, (), none,
             true, false)
          else if a != nodeAddr then (h, (), none, true, false)
          else (h, (), none, false, false))
        () nrec.id with
    | some (g1, _, _) => g1
    | none => g

/-- `unmarkParentsWithHasDeferred(node)`: walk the ancestors; an asset
ancestor recomputes its flag from its direct children only, deletes it when
none remains set, and passes the recomputed boolean down the walk's context;
an asset-group ancestor deletes its flag unless the context still requires
deferral, and stops its branch; other non-origin nodes stop their branch. -/
def unmarkParentsWithHasDeferred (g : AGraph) (nodeAddr : Addr) : AGraph :=
  match heapGet g nodeAddr with
  | none => g
  | some nrec =>
    match traverseAncestors g
        (fun h _ a r ctx =>
          if r.ntype == NType.asset then
            let hd := (childrenOf h r.id).any (fun cid =>
              match getNode h cid with
              | some c => c.hasDeferred.getD false
              | none => false)
            let h1 :=
              if hd then h else heapSet h a { r with hasDeferred := none }
            (h1, (), some hd, false, false)
          else if r.ntype == NType.asset_group then
            let h1 :=
              if ctx.getD false then h
              else heapSet h a { r with hasDeferred := none }
            (h1, (), none, true, false)
          else if a != nodeAddr then (h, (), none, true, false)
          else (h, (), none, false, false))
        (() : Unit) nrec.id with
    | some (g1, _, _) => g1
    | none => g

/-- `shouldVisitChild(node, childNode)`: pass through unless a dependency is
about to descend into an asset group whose `deferred` is not already `false`;
otherwise recompute the deferral, record it on both nodes, and propagate the
transition to the ancestors.  Returns the visit decision and the new state. -/
def shouldVisitChild (g : AGraph) (nodeAddr childAddr : Addr) :
    Bool × AGraph :=
  match heapGet g nodeAddr, heapGet g childAddr with
  | some node, some childNode =>
    if node.ntype != NType.dependency || childNode.ntype != NType.asset_group
        || childNode.deferred == some false then
      (true, g)
    else
      let sideEffects := childNode.groupValue.bind (·.sideEffects)
      let previouslyDeferred := childNode.deferred
      let defer := shouldDeferDependency node sideEffects
      let g1 := heapSet g nodeAddr { node with hasDeferred := some defer }
      let g2 := heapSet g1 childAddr { childNode with deferred := some defer }
      let g3 :=
        if !(previouslyDeferred.getD false) && defer then
          markParentsWithHasDeferred g2 nodeAddr
        else if previouslyDeferred.getD false && !defer then
          unmarkParentsWithHasDeferred g2 nodeAddr
        else g2
      (!defer, g3)
  | _, _ => (true, g)

/-- `assetSymbols?.has(exportSymbol)`. -/
def symbolsHas (tbl : Option (List (String × String))) (k : String) : Bool :=
  match tbl with
  | some t => (lookupStr t k).isSome
  | none => false

/-- The first loop of `setUsedSymbolsAsset` for a single incoming dependency:
a demanded wildcard puts the wildcard in both sets and stops this
dependency's scan; a name the asset exports goes into the used set; any other
name flows into the re-exported-namespace set. -/
def processIncomingDep (assetSymbols : Option (List (String × String))) :
    List String → List String × List String → List String × List String
  | [], acc => acc
  | s :: rest, (au, re) =>
    if s == "*" then (setAdd au "*", setAdd re "*")
    else if symbolsHas assetSymbols s then
      processIncomingDep assetSymbols rest (setAdd au s, re)
    else
      processIncomingDep assetSymbols rest (au, setAdd re s)

/-- The first loop of `setUsedSymbolsAsset` over all incoming dependencies,
producing the asset's tentative used set and the re-exported-namespace set. -/
def computeIncomingSets (assetSymbols : Option (List (String × String)))
    (incomingUsed : List (List String)) : List String × List String :=
  incomingUsed.foldl
    (fun acc used => processIncomingDep assetSymbols used acc) ([], [])

/-- `assetSymbolsInverse`: the inverse table, local binding to exported name,
later entries overriding earlier ones as in a JavaScript `Map` constructor. -/
def assetSymbolsInverse (tbl : List (String × String)) :
    List (String × String) :=
  tbl.foldl (fun acc p => assocSet acc p.2 p.1) []

/-- One `(exportedName, localBinding)` pair of an outgoing dependency inside
`setUsedSymbolsAsset`: a non-weak binding (or an asset without an inverse
table) is always marked used; a weak one is marked used exactly when the
inverse table does not map the local binding, or the asset's used set holds
the wildcard or the mapped name, and a satisfied mapped name is removed from
the asset's used set.  The state is the pair (asset used set, dependency used
set). -/
def processDepSymbol (inverse : Option (List (String × String)))
    (weakSymbols : List String) (acc : List String × List String)
    (pair : String × String) : List String × List String :=
  let assetUsed := acc.1
  let depUsed := acc.2
  let symbol := pair.1
  let localName := pair.2
  if inverse.isNone || !(weakSymbols.contains symbol) then
    (assetUsed, setAdd depUsed symbol)
  else
    match lookupStr (inverse.getD []) localName with
    | none => (assetUsed, setAdd depUsed symbol)
    | some reexport =>
      if assetUsed.contains "*" || assetUsed.contains reexport then
        (setDelete assetUsed reexport, setAdd depUsed symbol)
      else (assetUsed, depUsed)

/-- The second loop of `setUsedSymbolsAsset` for one outgoing dependency: a
wildcard-to-wildcard binding receives the whole re-exported-namespace set;
otherwise each declared pair is processed by `processDepSymbol`. -/
def runOutgoingDep (inverse : Option (List (String × String)))
    (reexported : List String) (dep : DepValue)
    (assetUsed depUsed : List String) : List String × List String :=
  if lookupStr dep.symbols "*" == some "*" then
    (assetUsed, reexported.foldl setAdd depUsed)
  else
    dep.symbols.foldl (processDepSymbol inverse dep.weakSymbols)
      (assetUsed, depUsed)

/-- The incoming-dependency re-fetch at the top of `setUsedSymbolsAsset`:
each incoming descriptor is looked up again in the graph under an invariant
that it is a dependency node. -/
def fetchIncoming (g : AGraph) : List DepValue → Except String (List NodeRec)
  | [] => Except.ok []
  | d :: rest =>
    match getNode g d.id with
    | none => Except.error "invariant"
    | some n =>
      if n.ntype == NType.dependency then
        (fetchIncoming g rest).map (n :: ·)
      else Except.error "invariant"

/-- One outgoing dependency inside `setUsedSymbolsAsset`'s second loop: read
the dependency object, run its symbol pairs, write its grown used set back
through its reference, and thread the asset's used set. -/
def outgoingStep (inverse : Option (List (String × String)))
    (reexported : List String) (acc : List String × AGraph) (da : Addr) :
    List String × AGraph :=
  match heapGet acc.2 da with
  | none => acc
  | some drec =>
    match drec.depValue with
    | none => acc
    | some dv =>
      let out := runOutgoingDep inverse reexported dv acc.1 drec.usedSymbols
      (out.1, heapSet acc.2 da { drec with usedSymbols := out.2 })

/-- `setUsedSymbolsAsset(assetNode, outgoingDeps)`: recompute the asset's
used-export set from the incoming dependencies and forward demand onto the
outgoing dependency objects (which, being passed by reference, may or may not
be the ones the graph holds). -/
def setUsedSymbolsAsset (g : AGraph) (assetAddr : Addr)
    (outgoingDeps : List Addr) : Except String AGraph :=
  match heapGet g assetAddr with
  | none => Except.error "nullthrows"
  | some assetNode =>
    match assetNode.assetValue with
    | none => Except.error "invariant"
    | some av =>
      match fetchIncoming g (getIncomingDependencies g av) with
      | Except.error e => Except.error e
      | Except.ok incomingDeps =>
        let inverse := av.symbols.map assetSymbolsInverse
        let sets := computeIncomingSets av.symbols
          (incomingDeps.map (·.usedSymbols))
        let fin := outgoingDeps.foldl (outgoingStep inverse sets.2)
          (sets.1, g)
        match heapGet fin.2 assetAddr with
        | none => Except.error "nullthrows"
        | some arec =>
          Except.ok (heapSet fin.2 assetAddr { arec with usedSymbols := fin.1 })

/-- The allocation loop shared by the resolvers that build a batch of fresh
node objects: allocate one record per descriptor, collecting the fresh
references in order. -/
def allocFold {β : Type} (F : β → NodeRec) (ns : List β)
    (acc : List Addr × AGraph) : List Addr × AGraph :=
  ns.foldl (fun acc x =>
    let out := alloc acc.2 (F x)
    (acc.1 ++ [out.1], out.2)) acc

/-- Modelled from the spec: `createDependency` (./Dependency, outside the
sources at hand) builds a dependency descriptor whose id is a caller-stable,
content-derived identifier for the import declaration. -/
def createDependency (moduleSpecifier : String) (pipeline : Option String)
    (target : Option Target) (isEntry : Bool) : DepValue :=
  { id := md5FromObject
      ("dep:" ++ moduleSpecifier ++ ":" ++ pipeline.getD "" ++ ":" ++
        (match target with
         | some t => t.name
         | none => "")),
    moduleSpecifier := moduleSpecifier,
    pipeline := pipeline,
    target := target,
    symbols := [],
    weakSymbols := [],
    isEntry := isEntry }

/-- `resolveEntry(entry, resolved, correspondingRequest)`: the entry-specifier
node must exist (`nullthrows` + `invariant`, modelled as errors); it is
stamped with the request and rewired to one entry-file child per resolved
entry. -/
def resolveEntry (g : AGraph) (entry : String) (resolved : List String)
    (correspondingRequest : String) : Except String AGraph :=
  let specId := "entry_specifier:" ++ entry
  match getNodeAddr g specId with
  | none => Except.error "nullthrows"
  | some a =>
    match heapGet g a with
    | none => Except.error "nullthrows"
    | some r =>
      if r.ntype == NType.entry_specifier then
        let g1 := heapSet g a
          { r with correspondingRequest := some correspondingRequest }
        let built := allocFold nodeFromEntryFile resolved ([], g1)
        Except.ok (replaceNodesConnectedTo built.2 specId built.1)
      else Except.error "invariant"

/-- `resolveTargets(entry, targets, correspondingRequest)`: build one
dependency node per target (a library target preloads the wildcard into its
used symbols); the entry-file node must exist; stamp it and rewire its
children to the dependency nodes (the `hasNode` re-check mirrors the
source). -/
def resolveTargets (g : AGraph) (entry : String) (targets : List Target)
    (correspondingRequest : String) : Except String AGraph :=
  let built := allocFold
    (fun t =>
      let dep := createDependency entry (some t.name) (some t) true
      let node0 := nodeFromDep dep
      if t.isLibrary then
        { node0 with usedSymbols := setAdd node0.usedSymbols "*" }
      else node0)
    targets ([], g)
  let entryId := (nodeFromEntryFile entry).id
  match getNodeAddr built.2 entryId with
  | none => Except.error "nullthrows"
  | some a =>
    match heapGet built.2 a with
    | none => Except.error "nullthrows"
    | some r =>
      if r.ntype == NType.entry_file then
        let g1 := heapSet built.2 a
          { r with correspondingRequest := some correspondingRequest }
        Except.ok
          (if hasNode g1 entryId then
            replaceNodesConnectedTo g1 entryId built.1
          else g1)
      else Except.error "invariant"

/-- `resolveDependency(dependency, assetGroup, correspondingRequest)`: the
source fetches the dependency node through `nullthrows`, so a missing node
throws (the `if (!depNode) return` on the next source line is unreachable);
with no asset group the call stops after stamping the request; otherwise the
dependency is rewired to the single asset-group child. -/
def resolveDependency (g : AGraph) (dependency : DepValue)
    (assetGroup : Option AssetGroupValue) (correspondingRequest : String) :
    Except String AGraph :=
  match getNodeAddr g dependency.id with
  | none => Except.error "nullthrows"
  | some a =>
    match heapGet g a with
    | none => Except.error "nullthrows"
    | some r =>
      if r.ntype == NType.dependency then
        let g1 := heapSet g a
          { r with correspondingRequest := some correspondingRequest }
        match assetGroup with
        | none => Except.ok g1
        | some grp =>
          let out := alloc g1 (nodeFromAssetGroup grp)
          Except.ok (replaceNodesConnectedTo out.2 dependency.id [out.1])
      else Except.error "invariant"

/-- One dependency of the batch inside `resolveAsset`'s build loop: allocate
a fresh dependency node object; when the specifier matches a batch member's
unique key, mark the fresh object complete and pair the dependency id with a
fresh object for that asset. -/
def resolveAssetDepStep (dependentAssets : List AssetValue)
    (acc : AGraph × List Addr × List (String × Addr)) (dep : DepValue) :
    AGraph × List Addr × List (String × Addr) :=
  let out := alloc acc.1 (nodeFromDep dep)
  match dependentAssets.find?
      (fun b => b.uniqueKey == some dep.moduleSpecifier) with
  | some dependentAsset =>
    let h2 :=
      match heapGet out.2 out.1 with
      | some drec => heapSet out.2 out.1 { drec with complete := some true }
      | none => out.2
    let out2 := alloc h2 (nodeFromAsset dependentAsset)
    (out2.2, acc.2.1 ++ [out.1], acc.2.2 ++ [(dep.id, out2.1)])
  | none => (out.2, acc.2.1 ++ [out.1], acc.2.2)

/-- `resolveAsset(assetNode, dependentAssets)`: build a fresh dependency node
per declared dependency; a dependency whose specifier matches a batch
member's unique key is marked complete and paired with a fresh node for that
asset; wire the asset's children, recompute used symbols against the fresh
dependency objects, then wire each completed dependency to its asset node. -/
def resolveAsset (g : AGraph) (assetAddr : Addr)
    (dependentAssets : List AssetValue) : Except String AGraph :=
  match heapGet g assetAddr with
  | none => Except.error "nullthrows"
  | some assetNode =>
    match assetNode.assetValue with
    | none => Except.error "invariant"
    | some av =>
      let built := av.dependencies.foldl
        (resolveAssetDepStep dependentAssets) (g, [], [])
      let g2 := replaceNodesConnectedTo built.1 av.id built.2.1
      match setUsedSymbolsAsset g2 assetAddr built.2.1 with
      | Except.error e => Except.error e
      | Except.ok g3 =>
        Except.ok (built.2.2.foldl
          (fun h p => replaceNodesConnectedTo h p.1 [p.2]) g3)

/-- One batch member inside `resolveAssetGroup`: it is direct unless its
unique key was already claimed as an earlier member's import target; its
dependency list is scanned against the batch to claim keys and collect the
member's dependent assets; a fresh asset node object is allocated. -/
def groupScanStep (assets : List AssetValue)
    (acc2 : List String × List AssetValue) (dep : DepValue) :
    List String × List AssetValue :=
  match assets.find?
      (fun b => b.uniqueKey == some dep.moduleSpecifier) with
  | some dependentAsset =>
    (acc2.1 ++ [dependentAsset.uniqueKey.getD ""],
     acc2.2 ++ [dependentAsset])
  | none => acc2

/-- Is a member direct?  Yes unless its unique key is already claimed. -/
def memberIsDirect (keys : List String) (asset : AssetValue) : Bool :=
  !(match asset.uniqueKey with
    | some k => keys.contains k
    | none => false)

def groupMemberStep (assets : List AssetValue)
    (acc : AGraph × List String × List (Addr × List AssetValue × Bool))
    (asset : AssetValue) :
    AGraph × List String × List (Addr × List AssetValue × Bool) :=
  let isDirect := memberIsDirect acc.2.1 asset
  let scan := asset.dependencies.foldl (groupScanStep assets) (acc.2.1, [])
  let out := alloc acc.1 (nodeFromAsset asset)
  (out.2, scan.1, acc.2.2 ++ [(out.1, scan.2, isDirect)])

/-- The graph-free part of `groupMemberStep`: which members come out direct,
which claimed keys accumulate, and each member's dependent-asset batch —
a pure function of the asset batch alone. -/
def groupPlanStep (assets : List AssetValue)
    (acc : List String × List (AssetValue × List AssetValue × Bool))
    (asset : AssetValue) :
    List String × List (AssetValue × List AssetValue × Bool) :=
  let isDirect := memberIsDirect acc.1 asset
  let scan := asset.dependencies.foldl (groupScanStep assets) (acc.1, [])
  (scan.1, acc.2 ++ [(asset, scan.2, isDirect)])

/-- The plan of a whole batch: one triple per member. -/
def groupPlan (assets : List AssetValue) :
    List (AssetValue × List AssetValue × Bool) :=
  (assets.foldl (groupPlanStep assets) ([], [])).2

/-- One member of the run loop at the end of `resolveAssetGroup`: thread the
graph through `resolveAsset`, aborting on the first error. -/
def groupRunStep (acc : Except String AGraph)
    (ob : Addr × List AssetValue × Bool) : Except String AGraph :=
  match acc with
  | Except.error e => Except.error e
  | Except.ok h => resolveAsset h ob.1 ob.2.1

/-- `resolveAssetGroup(assetGroup, assets, correspondingRequest)`: a missing
group node is silently tolerated; otherwise the batch is partitioned into
direct assets (unique key not already claimed as some earlier member's import
target, first match winning) and nested ones, the direct assets become the
group's children, and `resolveAsset` runs for every batch member. -/
def resolveAssetGroup (g : AGraph) (assetGroup : AssetGroupValue)
    (assets : List AssetValue) (correspondingRequest : String) :
    Except String AGraph :=
  let groupId := (nodeFromAssetGroup assetGroup).id
  match getNodeAddr g groupId with
  | none => Except.ok g
  | some a =>
    match heapGet g a with
    | none => Except.ok g
    | some r =>
      if r.ntype == NType.asset_group then
        let g1 := heapSet g a
          { r with correspondingRequest := some correspondingRequest }
        let parts := assets.foldl (groupMemberStep assets) (g1, [], [])
        let g3 := replaceNodesConnectedTo parts.1 groupId
          ((parts.2.2.filter (fun ob => ob.2.2)).map (fun ob => ob.1))
        parts.2.2.foldl groupRunStep (Except.ok g3)
      else Except.error "invariant"

/-- `JSON.stringify` of a target descriptor, as an injective tagging. -/
def jsonOfTarget (t : Target) : String :=
  "json(" ++ t.name ++ "," ++ (if t.isLibrary then "true" else "false") ++
    "," ++ t.descriptor ++ ")"

/-- The rolling md5 digest, as an injective encoding of the update
sequence. -/
def mdigest (updates : List String) : String :=
  "md5hex(" ++ String.intercalate "|" updates ++ ")"

/-- One visited node's contribution inside `getHash`'s traversal: an asset
folds in its output content hash (`nullthrows` when absent), a dependency
carrying a target folds in the serialized target, every other kind is
ignored. -/
def hashUpdateStep (acc : Except String (List String)) (r : NodeRec) :
    Except String (List String) :=
  match acc with
  | Except.error e => Except.error e
  | Except.ok us =>
    if r.ntype == NType.asset then
      match r.assetValue.bind (·.outputHash) with
      | some oh => Except.ok (us ++ [oh])
      | none => Except.error "nullthrows"
    else if r.ntype == NType.dependency then
      match r.depValue.bind (·.target) with
      | some t => Except.ok (us ++ [jsonOfTarget t])
      | none => Except.ok us
    else Except.ok us

/-- `getHash()`: return the memoized digest when present; otherwise fold the
per-node contributions over a root-down traversal, cache the digest and
return it.  A thrown `nullthrows` inside the visitor surfaces as the error;
the accumulator carries it so the observable result agrees with the abort. -/
def getHash (g : AGraph) : Except String (String × AGraph) :=
  match g.hash with
  | some h => Except.ok (h, g)
  | none =>
    match traverse g
        (fun h acc _ r _ =>
          (h, hashUpdateStep acc r, (none : Option Unit), false, false))
        (Except.ok ([] : List String)) none with
    | none => Except.error "fuel"
    | some (g1, acc, _) =>
      match acc with
      | Except.error e => Except.error e
      | Except.ok updates =>
        let d := mdigest updates
        Except.ok (d, { g1 with hash := some d })

/-- Specification-side reading of the hash (for the claim about `getHash`):
walk the nodes in traversal order and collect, per node, exactly the asset's
output content hash for an asset and the serialized target descriptor for a
target-bearing dependency, ignoring every other kind; a visited asset with no
output hash is the error case. -/
def specHashUpdates (g : AGraph) : Except String (List String) :=
  (visitOrder g none).foldl
    (fun acc i =>
      match acc with
      | Except.error e => Except.error e
      | Except.ok us =>
        match getNode g i with
        | none => Except.ok us
        | some r =>
          match r.ntype with
          | NType.asset =>
            match r.assetValue.bind (·.outputHash) with
            | some oh => Except.ok (us ++ [oh])
            | none => Except.error "nullthrows"
          | NType.dependency =>
            match r.depValue.bind (·.target) with
            | some t => Except.ok (us ++ [jsonOfTarget t])
            | none => Except.ok us
          | _ => Except.ok us)
    (Except.ok [])

/-- Build a graph state from records and edges: records are allocated at
consecutive addresses and bound through `addNode`, then the edges are added.
Used by the concrete scenarios in the theorems below. -/
def mkGraph (ns : List NodeRec) (es : List (String × String))
    (root : Option String) : AGraph :=
  let g0 : AGraph :=
    { nodes := [], heap := [], nextAddr := 0, fromEdges := [], toEdges := [],
      rootNodeId := root, hash := none }
  let g1 := ns.foldl (fun h r => let out := alloc h r; addNode out.2 out.1) g0
  es.foldl (fun h e => addEdge h e.1 e.2) g1

/-- The asset payload of the first asset on the concrete cycle below. -/
def cycAsset1 : AssetValue :=
  { id := "A1", uniqueKey := none, symbols := none, dependencies := [],
    outputHash := some "h1" }

/-- A two-asset import cycle:
A1 -> D1 -> G1 -> A2 -> D2 -> G2 -> A1, rooted at A1. -/
def fixCycle : AGraph := mkGraph
  [ { id := "A1", ntype := NType.asset, assetValue := some cycAsset1 },
    { id := "D1", ntype := NType.dependency },
    { id := "G1", ntype := NType.asset_group },
    { id := "A2", ntype := NType.asset,
      assetValue := some { id := "A2", uniqueKey := none, symbols := none, dependencies := [], outputHash := some "h2" } },
    { id := "D2", ntype := NType.dependency },
    { id := "G2", ntype := NType.asset_group } ]
  [ ("A1", "D1"), ("D1", "G1"), ("G1", "A2"),
    ("A2", "D2"), ("D2", "G2"), ("G2", "A1") ]
  (some "A1")

/-- One step of a per-node fold read off the graph by node id: apply `f` to
the record bound at `i`, keep the accumulator when the id is unbound.  A
traversal whose visitor only folds `f` over the visited records computes the
fold of this step over its visit order. -/
def foldNode {α : Type} (f : α → NodeRec → α) (g : AGraph) (acc : α)
    (i : String) : α :=
  match getNode g i with
  | some r => f acc r
  | none => acc

/-- A dependency node above an asset group whose `deferred` flag is already
false while the deferral condition (side-effects false, empty used symbols)
holds. -/
def fixDeferredFalse : AGraph := mkGraph
  [ { id := "D", ntype := NType.dependency },
    { id := "G", ntype := NType.asset_group,
      groupValue := some { filePath := "g", sideEffects := some false },
      deferred := some false } ]
  [ ("D", "G") ] none

/-- The same two-node shape with the group's `deferred` still unset. -/
def fixDeferredUnset : AGraph := mkGraph
  [ { id := "D", ntype := NType.dependency },
    { id := "G", ntype := NType.asset_group,
      groupValue := some { filePath := "g", sideEffects := some false },
      deferred := none } ]
  [ ("D", "G") ] none

/-- The deep asset group of the chain scenario: side-effects false. -/
def chainGroupDeep : AssetGroupValue := { filePath := "g1", sideEffects := some false }

/-- The middle asset group of the chain scenario. -/
def chainGroupMid : AssetGroupValue := { filePath := "g2", sideEffects := some true }

/-- A two-level chain: asset A2 imports (through dependency D2 and an asset
group) asset A1, which imports (through dependency D1) the side-effect-free
group `chainGroupDeep`. -/
def fixChain : AGraph := mkGraph
  [ { id := "A2", ntype := NType.asset,
      assetValue := some { id := "A2", uniqueKey := none, symbols := none, dependencies := [], outputHash := some "h2" } },
    { id := "D2", ntype := NType.dependency },
    nodeFromAssetGroup chainGroupMid,
    { id := "A1", ntype := NType.asset,
      assetValue := some { id := "A1", uniqueKey := none, symbols := none, dependencies := [], outputHash := some "h1" } },
    { id := "D1", ntype := NType.dependency },
    nodeFromAssetGroup chainGroupDeep ]
  [ ("A2", "D2"), ("D2", (nodeFromAssetGroup chainGroupMid).id),
    ((nodeFromAssetGroup chainGroupMid).id, "A1"),
    ("A1", "D1"), ("D1", (nodeFromAssetGroup chainGroupDeep).id) ]
  none

/-- A dependency descriptor whose node is absent from the graph. -/
def missingDep : DepValue :=
  { id := "missing", moduleSpecifier := "m", pipeline := none, target := none,
    symbols := [], weakSymbols := [], isEntry := false }

/-- A minimal dependency descriptor with a given id. -/
def depOfId (i : String) : DepValue :=
  { id := i, moduleSpecifier := i, pipeline := none, target := none,
    symbols := [], weakSymbols := [], isEntry := false }

/-- An asset with exported symbol `a` demanded by one wildcard incoming
dependency and one direct incoming dependency. -/
def fixWildcard : AGraph := mkGraph
  [ { id := "Dstar", ntype := NType.dependency,
      depValue := some (depOfId "Dstar"), usedSymbols := ["*"] },
    { id := "Da", ntype := NType.dependency,
      depValue := some (depOfId "Da"), usedSymbols := ["a"] },
    { id := "A", ntype := NType.asset,
      assetValue := some { id := "A", uniqueKey := none, symbols := some [("a", "la")], dependencies := [], outputHash := none } } ]
  [ ("Dstar", "A"), ("Da", "A") ]
  none

/-- The outgoing wildcard-to-wildcard dependency descriptor. -/
def dvOut : DepValue :=
  { id := "Dout", moduleSpecifier := "m", pipeline := none, target := none,
    symbols := [("*", "*")], weakSymbols := [], isEntry := false }

/-- Asset A demanded with a wildcard, plus an outgoing wildcard-to-wildcard
dependency object at address 2. -/
def fixWildcardOut : AGraph := mkGraph
  [ { id := "Dstar", ntype := NType.dependency,
      depValue := some (depOfId "Dstar"), usedSymbols := ["*"] },
    { id := "A", ntype := NType.asset,
      assetValue := some { id := "A", uniqueKey := none, symbols := some [("a", "la")], dependencies := [], outputHash := none } },
    { id := "Dout", ntype := NType.dependency, depValue := some dvOut } ]
  [ ("Dstar", "A") ]
  none

/-- A nonempty chain of edges `start → p₀ → p₁ → …` in the graph. -/
def isChain (g : AGraph) : String → List String → Bool
  | _, [] => true
  | x, y :: rest => hasEdge g x y && isChain g y rest

/-- `p` witnesses a directed cycle through `start`. -/
def hasDirectedCycle (g : AGraph) (start : String) (p : List String) : Bool :=
  !p.isEmpty && isChain g start p && (p.getLast? == some start)

/-- The set of node ids bound in the node map. -/
def idsFinset (g : AGraph) : Finset String :=
  (g.nodes.map Prod.fst).toFinset

/-- Heap-address sanity: every bound address and every allocated cell lies
below the allocation counter — the model-side invariant of JavaScript object
identity (a fresh object is never an existing one). -/
def AddrSane (g : AGraph) : Prop :=
  (∀ p ∈ g.nodes, p.2 < g.nextAddr) ∧ ∀ q ∈ g.heap, q.1 < g.nextAddr

/-- Observational equality of two graph states: the same node-id bindings,
the same edges in both indices, and the same record behind every binding.
Allocated objects no binding reaches are not observable; this is the
JavaScript notion of an unchanged graph. -/
def ObsEq (g1 g2 : AGraph) : Prop :=
  g2.nodes = g1.nodes ∧ g2.fromEdges = g1.fromEdges ∧
  g2.toEdges = g1.toEdges ∧
  ∀ p ∈ g1.nodes, heapGet g2 p.2 = heapGet g1 p.2

/-- `h` shows the same observable graph as `g` while possibly carrying extra
unreachable allocations, and its heap stays address-sane. -/
def SameView (g h : AGraph) : Prop :=
  h.nodes = g.nodes ∧ h.fromEdges = g.fromEdges ∧ h.toEdges = g.toEdges ∧
  (∀ p ∈ g.nodes, heapGet h p.2 = heapGet g p.2) ∧
  g.nextAddr ≤ h.nextAddr ∧ ∀ q ∈ h.heap, q.1 < h.nextAddr

/-- The value `setUsedSymbolsAsset` computes for the asset's used-export set
when `resolveAsset` invokes it, as a pure function of the graph it reads and
the asset value: the incoming pass over the re-fetched incoming
dependencies, then the outgoing pass over fresh dependency objects built
from the asset's own dependency list. -/
def recomputedAssetUsed (g : AGraph) (av : AssetValue) :
    Except String (List String) :=
  match fetchIncoming g (getIncomingDependencies g av) with
  | Except.error e => Except.error e
  | Except.ok incomingDeps =>
    let inverse := av.symbols.map assetSymbolsInverse
    let sets := computeIncomingSets av.symbols
      (incomingDeps.map (·.usedSymbols))
    Except.ok (av.dependencies.foldl
      (fun au dep =>
        (runOutgoingDep inverse sets.2 dep au (nodeFromDep dep).usedSymbols).1)
      sets.1)

/-- The record found behind a freshly built dependency reference inside
`resolveAsset`: it carries the dependency's id and descriptor and the pristine
used-symbol set of a new dependency node object. -/
def DepRecordAt (k : AGraph) (a : Addr) (dep : DepValue) : Prop :=
  ∃ rk, heapGet k a = some rk ∧ rk.id = dep.id ∧
    rk.depValue = some dep ∧
    rk.usedSymbols = (nodeFromDep dep).usedSymbols

/-- One entry of `resolveAsset`'s completed-dependency worklist: the pair
names a dependency of the batch (matched to a dependent asset by unique key)
and a fresh object holding that asset's node record. -/
def PairRecordAt (dependentAssets : List AssetValue) (D : List DepValue)
    (k : AGraph) (p : String × Addr) : Prop :=
  ∃ dep ∈ D, ∃ asB,
    dependentAssets.find? (fun b => b.uniqueKey == some dep.moduleSpecifier)
      = some asB ∧
    p.1 = dep.id ∧ heapGet k p.2 = some (nodeFromAsset asB)

/-- One entry of `resolveAssetGroup`'s member worklist aligned with its
graph-free plan: the fresh object holds the member's asset record, and the
dependent-asset batch and directness flag agree with the plan. -/
def TriRecordAt (k : AGraph) (ob : Addr × List AssetValue × Bool)
    (pl : AssetValue × List AssetValue × Bool) : Prop :=
  heapGet k ob.1 = some (nodeFromAsset pl.1) ∧ ob.2.1 = pl.2.1 ∧
    ob.2.2 = pl.2.2

/-- Everything a batch member needs from the ambient graph for its
`resolveAsset` pass to re-run as a no-op: the used-set recomputation
succeeds, the member's dependencies are present and wired under it, it has
no stray children, and each key-matched dependency is wired to exactly its
dependent asset. -/
def MemberHyps (g1 : AGraph) (pl : AssetValue × List AssetValue × Bool) :
    Prop :=
  (∃ V, recomputedAssetUsed g1 pl.1 = Except.ok V) ∧
  (∀ dep ∈ pl.1.dependencies, hasNode g1 dep.id = true ∧
    hasEdge g1 pl.1.id dep.id = true) ∧
  (∀ c ∈ childrenOf g1 pl.1.id, ∃ dep ∈ pl.1.dependencies, c = dep.id) ∧
  (∀ dep ∈ pl.1.dependencies, ∀ asB,
    pl.2.1.find? (fun b => b.uniqueKey == some dep.moduleSpecifier)
      = some asB →
    hasNode g1 asB.id = true ∧ hasEdge g1 dep.id asB.id = true ∧
    ∀ c ∈ childrenOf g1 dep.id, c = asB.id)

/-- Idempotence fixture for `resolveEntry`: one entry-specifier node. -/
def fixEntry0 : AGraph := mkGraph [nodeFromEntrySpecifier "e"] [] none

/-- The graph after the first `resolveEntry` call on the fixture. -/
def fixEntry1 : AGraph :=
  match resolveEntry fixEntry0 "e" ["f1"] "reqE" with
  | Except.ok h => h
  | Except.error _ => fixEntry0

/-- The stamped entry-specifier record after the first call. -/
def entryRec1 : NodeRec :=
  match getNode fixEntry1 ("entry_specifier:" ++ "e") with
  | some r => r
  | none => nodeFromEntrySpecifier "e"

/-- Idempotence fixture for `resolveTargets`: one build target. -/
def tgt0 : Target := { name := "t", isLibrary := false, descriptor := "d" }

/-- Idempotence fixture for `resolveTargets`: one entry-file node. -/
def fixTargets0 : AGraph := mkGraph [nodeFromEntryFile "e"] [] none

/-- The graph after the first `resolveTargets` call on the fixture. -/
def fixTargets1 : AGraph :=
  match resolveTargets fixTargets0 "e" [tgt0] "reqT" with
  | Except.ok h => h
  | Except.error _ => fixTargets0

/-- The stamped entry-file record after the first call. -/
def targetsRec1 : NodeRec :=
  match getNode fixTargets1 (nodeFromEntryFile "e").id with
  | some r => r
  | none => nodeFromEntryFile "e"

/-- Idempotence fixture for `resolveDependency`: the dependency resolved. -/
def depD0 : DepValue := depOfId "d0"

/-- Idempotence fixture for `resolveDependency`: the resolved asset group. -/
def grpD : AssetGroupValue := { filePath := "fp", sideEffects := none }

/-- Idempotence fixture for `resolveDependency`: one dependency node. -/
def fixDep0 : AGraph := mkGraph [nodeFromDep depD0] [] none

/-- The graph after the first `resolveDependency` call on the fixture. -/
def fixDep1 : AGraph :=
  match resolveDependency fixDep0 depD0 (some grpD) "reqD" with
  | Except.ok h => h
  | Except.error _ => fixDep0

/-- The stamped dependency record after the first call. -/
def depRec1 : NodeRec :=
  match getNode fixDep1 depD0.id with
  | some r => r
  | none => nodeFromDep depD0

/-- Idempotence fixture for `resolveAsset`: the one declared dependency. -/
def depDX : DepValue := depOfId "dx"

/-- Idempotence fixture for `resolveAsset`: the asset value. -/
def avA : AssetValue :=
  { id := "A", uniqueKey := none, symbols := none, dependencies := [depDX],
    outputHash := some "hA" }

/-- Idempotence fixture for `resolveAsset`: one asset node at address 0. -/
def fixAsset0 : AGraph :=
  mkGraph [{ id := "A", ntype := NType.asset, assetValue := some avA }] [] none

/-- The graph after the first `resolveAsset` call on the fixture. -/
def fixAsset1 : AGraph :=
  match resolveAsset fixAsset0 0 [] with
  | Except.ok h => h
  | Except.error _ => fixAsset0

/-- The asset record behind address 0 after the first call. -/
def assetRec1 : NodeRec :=
  match heapGet fixAsset1 0 with
  | some r => r
  | none => nodeFromAsset avA

/-- Idempotence fixture for `resolveAssetGroup`: the one batch member. -/
def avG : AssetValue :=
  { id := "GA", uniqueKey := none, symbols := none, dependencies := [],
    outputHash := some "hG" }

/-- Idempotence fixture for `resolveAssetGroup`: the group descriptor. -/
def grpG : AssetGroupValue := { filePath := "fg", sideEffects := some true }

/-- Idempotence fixture for `resolveAssetGroup`: one asset-group node. -/
def fixGroup0 : AGraph := mkGraph [nodeFromAssetGroup grpG] [] none

/-- The graph after the first `resolveAssetGroup` call on the fixture. -/
def fixGroup1 : AGraph :=
  match resolveAssetGroup fixGroup0 grpG [avG] "reqG" with
  | Except.ok h => h
  | Except.error _ => fixGroup0

/-- The stamped asset-group record after the first call. -/
def groupRec1 : NodeRec :=
  match getNode fixGroup1 (nodeFromAssetGroup grpG).id with
  | some r => r
  | none => nodeFromAssetGroup grpG

/-- The recomputed used-export set of the batch member, post-call graph. -/
def memberUsedG : List String :=
  match recomputedAssetUsed fixGroup1 avG with
  | Except.ok u => u
  | Except.error _ => []


/-! ## Helper lemmas -/

theorem foldl_pres {α β : Type} (P : α → Prop) (f : α → β → α)
    (hf : ∀ x b, P x → P (f x b)) :
    ∀ (l : List β) (a : α), P a → P (l.foldl f a) := by
  intro l
  induction l with
  | nil => intro a h; exact h
  | cons b t ih => intro a h; exact ih _ (hf _ _ h)

theorem find_map_set_self (l : List (Addr × NodeRec)) (a : Addr) (r : NodeRec) :
    ((l.map (fun p => if p.1 == a then (a, r) else p)).find?
        (fun p => p.1 == a))
      = (l.find? (fun p => p.1 == a)).map (fun _ => (a, r)) := by
  induction l with
  | nil => rfl
  | cons p t ih =>
    rw [List.map_cons]
    cases hp : (p.1 == a) with
    | true => simp [List.find?_cons, hp]
    | false =>
      simp only [beq_iff_eq] at ih
      simp [List.find?_cons, hp, ih]

theorem find_map_set_ne (l : List (Addr × NodeRec)) (a b : Addr) (r : NodeRec)
    (hne : a ≠ b) :
    ((l.map (fun p => if p.1 == b then (b, r) else p)).find?
        (fun p => p.1 == a))
      = l.find? (fun p => p.1 == a) := by
  induction l with
  | nil => rfl
  | cons p t ih =>
    rw [List.map_cons]
    cases hp : (p.1 == b) with
    | true =>
      have hb : p.1 = b := by simpa using hp
      simp only [beq_iff_eq] at ih
      simp [List.find?_cons, hb, Ne.symm hne, ih]
    | false =>
      cases hpa : (p.1 == a) with
      | true =>
        have ha : p.1 = a := by simpa using hpa
        simp [List.find?_cons, ha, hp]
      | false =>
        simp only [beq_iff_eq] at ih
        simp [List.find?_cons, hp, hpa, ih]

theorem heapGet_heapSet_self {g : AGraph} {a : Addr} {r0 : NodeRec}
    (r : NodeRec) (h : heapGet g a = some r0) :
    heapGet (heapSet g a r) a = some r := by
  unfold heapGet heapSet at *
  simp only [find_map_set_self]
  cases hf : g.heap.find? (fun p => p.1 == a) with
  | none => rw [hf] at h; simp at h
  | some q => simp

theorem heapGet_heapSet_ne {g : AGraph} {a b : Addr} (r : NodeRec)
    (h : a ≠ b) : heapGet (heapSet g b r) a = heapGet g a := by
  unfold heapGet heapSet
  simp only [find_map_set_ne _ _ _ _ h]

theorem heapSet_nodes (g : AGraph) (a : Addr) (r : NodeRec) :
    (heapSet g a r).nodes = g.nodes := rfl

theorem heapSet_fromEdges (g : AGraph) (a : Addr) (r : NodeRec) :
    (heapSet g a r).fromEdges = g.fromEdges := rfl

theorem heapSet_toEdges (g : AGraph) (a : Addr) (r : NodeRec) :
    (heapSet g a r).toEdges = g.toEdges := rfl

theorem removeEdgePair_hash (g : AGraph) (p c : String) :
    (removeEdgePair g p c).hash = g.hash := rfl

theorem removeNodeFueled_hash_none :
    ∀ (n : Nat) (g : AGraph) (i : String), g.hash = none →
      (removeNodeFueled n g i).hash = none := by
  intro n
  induction n with
  | zero => intro g i h; exact h
  | succ n ih =>
    intro g i h
    unfold removeNodeFueled
    by_cases hn : hasNode g i
    · simp only [hn, if_true]
      apply foldl_pres (fun (x : AGraph) => x.hash = none)
      · intro x b hx
        by_cases hb : (parentsOf x b).isEmpty && hasNode x b
        · simp only [hb, if_true]; exact ih _ _ hx
        · simp only [hb, if_false]; exact hx
      · apply foldl_pres (fun (x : AGraph) => x.hash = none)
        · intro x b hx; exact hx
        · apply foldl_pres (fun (x : AGraph) => x.hash = none)
          · intro x b hx; exact hx
          · rfl
    · simp only [hn, if_false]; exact h

theorem travGo_pres {α κ : Type} (P : AGraph → Prop)
    (nbrs : AGraph → String → List String) (visit : Visitor α κ)
    (hv : ∀ h acc a r ctx, P h → heapGet h a = some r →
        P (visit h acc a r ctx).1) :
    ∀ (n : Nat) (h : AGraph) (acc : α) (stack : List (String × Option κ))
      (visited : List String) (res : AGraph × α × List String),
      P h → travGo nbrs visit n h acc stack visited = some res → P res.1 := by
  intro n
  induction n with
  | zero =>
    intro h acc stack visited res hP hrun
    simp [travGo] at hrun
  | succ n ih =>
    intro h acc stack visited res hP hrun
    match stack with
    | [] =>
      simp [travGo] at hrun
      subst hrun
      exact hP
    | (i, ctx) :: rest =>
      rw [travGo] at hrun
      by_cases hvis : visited.contains i = true
      · simp only [hvis, if_true] at hrun
        exact ih h acc rest visited res hP hrun
      · have hvis2 : visited.contains i = false := by simpa using hvis
        cases hga : getNodeAddr h i with
        | none =>
          simp only [hvis2, Bool.false_eq_true, if_false, hga] at hrun
          exact ih h acc rest visited res hP hrun
        | some a =>
          cases hhg : heapGet h a with
          | none =>
            simp only [hvis2, Bool.false_eq_true, if_false, hga, hhg] at hrun
            exact ih h acc rest visited res hP hrun
          | some r =>
            rcases hout : visit h acc a r ctx with ⟨h1, acc1, ctx1, skipC, stop⟩
            have hP1 : P h1 := by
              have hres := hv h acc a r ctx hP hhg
              rw [hout] at hres
              exact hres
            cases stop with
            | true =>
              simp only [hvis2, Bool.false_eq_true, if_false, if_true, hga, hhg,
                hout, Option.some.injEq] at hrun
              subst hrun
              exact hP1
            | false =>
              cases skipC with
              | true =>
                simp only [hvis2, Bool.false_eq_true, Bool.true_eq_false,
                  if_false, if_true, hga, hhg, hout] at hrun
                exact ih h1 acc1 rest (i :: visited) res hP1 hrun
              | false =>
                simp only [hvis2, Bool.false_eq_true, Bool.true_eq_false,
                  if_false, if_true, hga, hhg, hout] at hrun
                exact ih h1 acc1 _ (i :: visited) res hP1 hrun

theorem hasDeferred_write_pres_dep {h : AGraph} {a : Addr} {r : NodeRec}
    {dA : Addr} {nd : NodeRec} (hget : heapGet h a = some r)
    (hP : heapGet h dA = some nd) (hnd : nd.ntype = NType.dependency)
    (hrt : r.ntype ≠ NType.dependency) (x : Option Bool) :
    heapGet (heapSet h a { r with hasDeferred := x }) dA = some nd := by
  by_cases had : a = dA
  · subst had
    have hnr : r = nd := by
      rw [hget] at hP
      exact Option.some.inj hP
    exact absurd (by rw [hnr]; exact hnd) hrt
  · rw [heapGet_heapSet_ne _ (Ne.symm had)]
    exact hP

theorem hasDeferred_write_pres_deferred {h : AGraph} {a cA : Addr}
    {r : NodeRec} {dv : Option Bool} (hget : heapGet h a = some r)
    (hP : (heapGet h cA).map (·.deferred) = some dv) (x : Option Bool) :
    (heapGet (heapSet h a { r with hasDeferred := x }) cA).map (·.deferred)
      = some dv := by
  by_cases hac : a = cA
  · subst hac
    rw [heapGet_heapSet_self { r with hasDeferred := x } hget]
    rw [hget] at hP
    simpa using hP
  · rw [heapGet_heapSet_ne _ (Ne.symm hac)]
    exact hP

theorem markParents_pres_dep (g : AGraph) (start dA : Addr) (nd : NodeRec)
    (hnd : nd.ntype = NType.dependency) (h0 : heapGet g dA = some nd) :
    heapGet (markParentsWithHasDeferred g start) dA = some nd := by
  unfold markParentsWithHasDeferred
  split
  · exact h0
  · split
    · rename_i nrec g1 acc ord heq
      unfold traverseAncestors at heq
      refine travGo_pres (fun h => heapGet h dA = some nd) _ _ ?_ _ _ _ _ _
        (g1, acc, ord) h0 heq
      intro h acc2 a r ctx hPh hget
      by_cases ha : (r.ntype == NType.asset) = true
      · have hra : r.ntype = NType.asset := by simpa using ha
        simp only [ha, if_true]
        exact hasDeferred_write_pres_dep hget hPh hnd (by simp [hra]) _
      · by_cases hg2 : (r.ntype == NType.asset_group) = true
        · have hrg : r.ntype = NType.asset_group := by simpa using hg2
          simp only [ha, hg2, Bool.false_eq_true, if_false, if_true]
          exact hasDeferred_write_pres_dep hget hPh hnd (by simp [hrg]) _
        · by_cases hne : (a != start) = true
          · simp only [ha, hg2, hne, Bool.false_eq_true, if_false, if_true]
            exact hPh
          · simp only [ha, hg2, hne, Bool.false_eq_true, if_false]
            exact hPh
    · exact h0

theorem markParents_pres_deferred (g : AGraph) (start cA : Addr)
    (dv : Option Bool) (h0 : (heapGet g cA).map (·.deferred) = some dv) :
    (heapGet (markParentsWithHasDeferred g start) cA).map (·.deferred)
      = some dv := by
  unfold markParentsWithHasDeferred
  split
  · exact h0
  · split
    · rename_i nrec g1 acc ord heq
      unfold traverseAncestors at heq
      refine travGo_pres
        (fun h => (heapGet h cA).map (·.deferred) = some dv) _ _ ?_
        _ _ _ _ _ (g1, acc, ord) h0 heq
      intro h acc2 a r ctx hPh hget
      by_cases ha : (r.ntype == NType.asset) = true
      · simp only [ha, if_true]
        exact hasDeferred_write_pres_deferred hget hPh _
      · by_cases hg2 : (r.ntype == NType.asset_group) = true
        · simp only [ha, hg2, Bool.false_eq_true, if_false, if_true]
          exact hasDeferred_write_pres_deferred hget hPh _
        · by_cases hne : (a != start) = true
          · simp only [ha, hg2, hne, Bool.false_eq_true, if_false, if_true]
            exact hPh
          · simp only [ha, hg2, hne, Bool.false_eq_true, if_false]
            exact hPh
    · exact h0

theorem unmarkParents_pres_dep (g : AGraph) (start dA : Addr) (nd : NodeRec)
    (hnd : nd.ntype = NType.dependency) (h0 : heapGet g dA = some nd) :
    heapGet (unmarkParentsWithHasDeferred g start) dA = some nd := by
  unfold unmarkParentsWithHasDeferred
  split
  · exact h0
  · split
    · rename_i nrec g1 acc ord heq
      unfold traverseAncestors at heq
      refine travGo_pres (fun h => heapGet h dA = some nd) _ _ ?_ _ _ _ _ _
        (g1, acc, ord) h0 heq
      intro h acc2 a r ctx hPh hget
      by_cases ha : (r.ntype == NType.asset) = true
      · have hra : r.ntype = NType.asset := by simpa using ha
        simp only [ha, if_true]
        by_cases hd : ((childrenOf h r.id).any (fun cid =>
            match getNode h cid with
            | some c => c.hasDeferred.getD false
            | none => false)) = true
        · simp only [hd, if_true]
          exact hPh
        · simp only [hd, Bool.false_eq_true, if_false]
          exact hasDeferred_write_pres_dep hget hPh hnd (by simp [hra]) _
      · by_cases hg2 : (r.ntype == NType.asset_group) = true
        · have hrg : r.ntype = NType.asset_group := by simpa using hg2
          simp only [ha, hg2, Bool.false_eq_true, if_false, if_true]
          by_cases hctx : (ctx.getD false) = true
          · simp only [hctx, if_true]
            exact hPh
          · simp only [hctx, Bool.false_eq_true, if_false]
            exact hasDeferred_write_pres_dep hget hPh hnd (by simp [hrg]) _
        · by_cases hne : (a != start) = true
          · simp only [ha, hg2, hne, Bool.false_eq_true, if_false, if_true]
            exact hPh
          · simp only [ha, hg2, hne, Bool.false_eq_true, if_false]
            exact hPh
    · exact h0

theorem unmarkParents_pres_deferred (g : AGraph) (start cA : Addr)
    (dv : Option Bool) (h0 : (heapGet g cA).map (·.deferred) = some dv) :
    (heapGet (unmarkParentsWithHasDeferred g start) cA).map (·.deferred)
      = some dv := by
  unfold unmarkParentsWithHasDeferred
  split
  · exact h0
  · split
    · rename_i nrec g1 acc ord heq
      unfold traverseAncestors at heq
      refine travGo_pres
        (fun h => (heapGet h cA).map (·.deferred) = some dv) _ _ ?_
        _ _ _ _ _ (g1, acc, ord) h0 heq
      intro h acc2 a r ctx hPh hget
      by_cases ha : (r.ntype == NType.asset) = true
      · simp only [ha, if_true]
        by_cases hd : ((childrenOf h r.id).any (fun cid =>
            match getNode h cid with
            | some c => c.hasDeferred.getD false
            | none => false)) = true
        · simp only [hd, if_true]
          exact hPh
        · simp only [hd, Bool.false_eq_true, if_false]
          exact hasDeferred_write_pres_deferred hget hPh _
      · by_cases hg2 : (r.ntype == NType.asset_group) = true
        · simp only [ha, hg2, Bool.false_eq_true, if_false, if_true]
          by_cases hctx : (ctx.getD false) = true
          · simp only [hctx, if_true]
            exact hPh
          · simp only [hctx, Bool.false_eq_true, if_false]
            exact hasDeferred_write_pres_deferred hget hPh _
        · by_cases hne : (a != start) = true
          · simp only [ha, hg2, hne, Bool.false_eq_true, if_false, if_true]
            exact hPh
          · simp only [ha, hg2, hne, Bool.false_eq_true, if_false]
            exact hPh
    · exact h0

/-! ## Claim theorems -/

/-- C7: `getHash` called twice with no intervening mutation returns the same
value and the same state (the second read is served by the cache, which the
first call filled), and every `addNode` or `removeNode` call resets the
cached hash field to null, so the cache survives only between structural
edits. -/
theorem c7_hash_cache_stability :
    (∀ (g : AGraph) (h1 : String) (g1 : AGraph),
        getHash g = Except.ok (h1, g1) → getHash g1 = Except.ok (h1, g1)) ∧
    (∀ (g : AGraph) (a : Addr), (addNode g a).hash = none) ∧
    (∀ (g : AGraph) (i : String), (removeNode g i).hash = none) := by
  refine ⟨?_, ?_, ?_⟩
  · intro g h1 g1 hcall
    have hg1 : g1.hash = some h1 := by
      unfold getHash at hcall
      cases hh : g.hash with
      | some h0 =>
        rw [hh] at hcall
        simp only [Except.ok.injEq, Prod.mk.injEq] at hcall
        rw [← hcall.2, ← hcall.1]
        exact hh
      | none =>
        rw [hh] at hcall
        cases htr : traverse g
            (fun h acc _ r _ =>
              (h, hashUpdateStep acc r, (none : Option Unit), false, false))
            (Except.ok ([] : List String)) none with
        | none => rw [htr] at hcall; exact absurd hcall (by simp)
        | some res =>
          rcases res with ⟨g2, acc, ord⟩
          rw [htr] at hcall
          cases hacc : acc with
          | error e => rw [hacc] at hcall; exact absurd hcall (by simp)
          | ok us =>
            rw [hacc] at hcall
            simp only [Except.ok.injEq, Prod.mk.injEq] at hcall
            rw [← hcall.2, ← hcall.1]
    unfold getHash
    rw [hg1]
  · intro g a
    unfold addNode
    dsimp only
    split
    · rfl
    · rfl
  · intro g i
    unfold removeNode
    exact removeNodeFueled_hash_none _ _ _ rfl

/-- Witness for C7: on the empty graph the first `getHash` computes and
caches the digest of the empty update sequence, and the theorem yields the
identical second read. -/
theorem c7_hash_cache_stability_witness :
    getHash (mkGraph [] [] none) =
      Except.ok (mdigest [],
        { mkGraph [] [] none with hash := some (mdigest []) }) ∧
    getHash { mkGraph [] [] none with hash := some (mdigest []) } =
      Except.ok (mdigest [],
        { mkGraph [] [] none with hash := some (mdigest []) }) :=
  ⟨rfl, c7_hash_cache_stability.1 (mkGraph [] [] none) (mdigest []) _ rfl⟩

/-- C10: when the asset-group child's `deferred` field is already false,
`shouldVisitChild` returns true at once and leaves the whole state untouched
— no flag is written and the deferral condition is not re-evaluated — so once
a group's `deferred` has been set to false, no later call defers it again,
whatever the dependency's used symbols or the group's side-effects flag. -/
theorem c10_deferred_false_short_circuits (g : AGraph) (dA cA : Addr)
    (node child : NodeRec) (hd : heapGet g dA = some node)
    (hc : heapGet g cA = some child) (hdef : child.deferred = some false) :
    shouldVisitChild g dA cA = (true, g) := by
  unfold shouldVisitChild
  rw [hd, hc]
  have hb : (child.deferred == some false) = true := by simp [hdef]
  simp [hb]

/-- Witness for C10: the concrete two-node state above, where the deferral
condition holds but `deferred` is already false. -/
theorem c10_deferred_false_short_circuits_witness :
    shouldVisitChild fixDeferredFalse 0 1 = (true, fixDeferredFalse) :=
  c10_deferred_false_short_circuits fixDeferredFalse 0 1 _ _ rfl rfl rfl

/-- C2 counterexample: in `fixDeferredFalse` the dependency at address 0 is
about to descend into the asset group at address 1, the group's side-effects
flag is explicitly false and the dependency's used-symbol set is empty, yet
`shouldVisitChild` returns true (the group's `deferred` field is already
false, and the early return fires before the condition is evaluated), where
the claim requires false. -/
theorem c2_counterexample :
    (heapGet fixDeferredFalse 0).map (·.ntype) = some NType.dependency ∧
    (heapGet fixDeferredFalse 1).map (·.ntype) = some NType.asset_group ∧
    hasEdge fixDeferredFalse "D" "G" = true ∧
    (heapGet fixDeferredFalse 0).map (·.usedSymbols) = some [] ∧
    (heapGet fixDeferredFalse 1).map (fun r => r.groupValue.map (·.sideEffects))
      = some (some (some false)) ∧
    (shouldVisitChild fixDeferredFalse 0 1).1 = true :=
  ⟨rfl, rfl, rfl, rfl, rfl, rfl⟩

/-- C2 (amended): provided the asset group's `deferred` field is not already
false (otherwise `shouldVisitChild` returns true immediately and records
nothing), the visit decision is false exactly when the group's side-effects
flag is explicitly false and the dependency's used-symbol set is empty, and
the call records the recomputed deferral on the dependency's `hasDeferred`
and the group's `deferred`. -/
theorem c2_shouldVisitChild_amended (g : AGraph) (dA cA : Addr)
    (node child : NodeRec) (gv : AssetGroupValue)
    (hd : heapGet g dA = some node) (hc : heapGet g cA = some child)
    (hnt : node.ntype = NType.dependency)
    (hct : child.ntype = NType.asset_group)
    (hgv : child.groupValue = some gv)
    (hdef : child.deferred ≠ some false) :
    ((shouldVisitChild g dA cA).1 = false ↔
      (gv.sideEffects = some false ∧ node.usedSymbols = [])) ∧
    heapGet (shouldVisitChild g dA cA).2 dA =
      some { node with hasDeferred := some (gv.sideEffects == some false && node.usedSymbols.isEmpty) } ∧
    (heapGet (shouldVisitChild g dA cA).2 cA).map (·.deferred) =
      some (some (gv.sideEffects == some false && node.usedSymbols.isEmpty)) := by
  have hdc : dA ≠ cA := by
    intro he
    subst he
    rw [hd] at hc
    have hx : node = child := Option.some.inj hc
    rw [hx, hct] at hnt
    cases hnt
  have hg1 : (node.ntype != NType.dependency) = false := by simp [hnt]
  have hg2 : (child.ntype != NType.asset_group) = false := by simp [hct]
  have hg3 : (child.deferred == some false) = false := by simpa using hdef
  have hse : (child.groupValue.bind fun v => v.sideEffects) = gv.sideEffects := by
    rw [hgv]
    rfl
  have hG2d : heapGet (heapSet
      (heapSet g dA { node with hasDeferred := some (gv.sideEffects == some false && node.usedSymbols.isEmpty) })
      cA { child with deferred := some (gv.sideEffects == some false && node.usedSymbols.isEmpty) }) dA
      = some { node with hasDeferred := some (gv.sideEffects == some false && node.usedSymbols.isEmpty) } := by
    rw [heapGet_heapSet_ne _ hdc]
    exact heapGet_heapSet_self _ hd
  have hG1c : heapGet
      (heapSet g dA { node with hasDeferred := some (gv.sideEffects == some false && node.usedSymbols.isEmpty) })
      cA = some child := by
    rw [heapGet_heapSet_ne _ (Ne.symm hdc)]
    exact hc
  have hG2c : (heapGet (heapSet
      (heapSet g dA { node with hasDeferred := some (gv.sideEffects == some false && node.usedSymbols.isEmpty) })
      cA { child with deferred := some (gv.sideEffects == some false && node.usedSymbols.isEmpty) }) cA).map
        (·.deferred)
      = some (some (gv.sideEffects == some false && node.usedSymbols.isEmpty)) := by
    rw [heapGet_heapSet_self _ hG1c]
    rfl
  unfold shouldVisitChild
  rw [hd, hc]
  simp only [hg1, hg2, hg3, Bool.or_self, Bool.or_false, Bool.false_eq_true,
    if_false]
  unfold shouldDeferDependency
  rw [hse]
  refine ⟨?_, ?_, ?_⟩
  · constructor
    · intro hf
      have hD : (gv.sideEffects == some false && node.usedSymbols.isEmpty)
          = true := by
        cases hDv : (gv.sideEffects == some false && node.usedSymbols.isEmpty)
        · rw [hDv] at hf
          simp at hf
        · rfl
      simp only [Bool.and_eq_true, beq_iff_eq, List.isEmpty_iff] at hD
      exact hD
    · intro hcond
      have hD : (gv.sideEffects == some false && node.usedSymbols.isEmpty)
          = true := by
        simp [hcond.1, hcond.2]
      simp [hD]
  · split
    · exact markParents_pres_dep _ dA dA _ (by simp [hnt]) hG2d
    · split
      · exact unmarkParents_pres_dep _ dA dA _ (by simp [hnt]) hG2d
      · exact hG2d
  · split
    · exact markParents_pres_deferred _ dA cA _ hG2c
    · split
      · exact unmarkParents_pres_deferred _ dA cA _ hG2c
      · exact hG2c

/-- Witness for C2 (amended): the concrete two-node state with `deferred`
unset, side-effects false and no used symbols. -/
theorem c2_shouldVisitChild_amended_witness :
    ((shouldVisitChild fixDeferredUnset 0 1).1 = false ↔
      ((some false : Option Bool) = some false ∧ ([] : List String) = [])) ∧
    heapGet (shouldVisitChild fixDeferredUnset 0 1).2 0 =
      some { id := "D", ntype := NType.dependency,
             hasDeferred := some ((some false : Option Bool) == some false && ([] : List String).isEmpty) } ∧
    (heapGet (shouldVisitChild fixDeferredUnset 0 1).2 1).map (·.deferred) =
      some (some ((some false : Option Bool) == some false && ([] : List String).isEmpty)) :=
  c2_shouldVisitChild_amended fixDeferredUnset 0 1
    { id := "D", ntype := NType.dependency }
    { id := "G", ntype := NType.asset_group,
      groupValue := some { filePath := "g", sideEffects := some false },
      deferred := none }
    { filePath := "g", sideEffects := some false }
    rfl rfl rfl rfl rfl (by decide)

/-- C3 counterexample: in `fixChain` the call `shouldVisitChild D1 G1` defers
the deep group (a false-to-true transition handled by the ancestor-marking
walk), yet the asset node A2 — which reaches the deferred import edge through
D2, the middle group and A1 — ends with `hasDeferred` unset, because the
marking walk stops at the first asset-group ancestor.  The claimed iff
invariant (flag set exactly when some reachable descendant import edge is
deferred) therefore fails at A2. -/
theorem c3_counterexample :
    (shouldVisitChild fixChain 4 5).1 = false ∧
    ((heapGet (shouldVisitChild fixChain 4 5).2 5).map (·.deferred)
      = some (some true)) ∧
    hasEdge (shouldVisitChild fixChain 4 5).2 "A2" "D2" = true ∧
    hasEdge (shouldVisitChild fixChain 4 5).2 "D2"
      (nodeFromAssetGroup chainGroupMid).id = true ∧
    hasEdge (shouldVisitChild fixChain 4 5).2
      (nodeFromAssetGroup chainGroupMid).id "A1" = true ∧
    hasEdge (shouldVisitChild fixChain 4 5).2 "A1" "D1" = true ∧
    hasEdge (shouldVisitChild fixChain 4 5).2 "D1"
      (nodeFromAssetGroup chainGroupDeep).id = true ∧
    ((heapGet (shouldVisitChild fixChain 4 5).2 0).map (·.ntype)
      = some NType.asset) ∧
    ((heapGet (shouldVisitChild fixChain 4 5).2 0).map (·.hasDeferred)
      = some none) := by decide

/-- C3 (amended): the marking transition sets `hasDeferred` on the deferring
dependency, on its asset ancestors, and on the first asset-group ancestor of
each branch, where the walk stops; nodes beyond that frontier (here the asset
A2) are not updated, so the flag is not a global reachability iff.  In the
chain state the flags after the transition are exactly these. -/
theorem c3_markParents_frontier :
    ((shouldVisitChild fixChain 4 5).2.nodes.map (fun p =>
        (p.1, (heapGet (shouldVisitChild fixChain 4 5).2 p.2).map (·.hasDeferred))))
      = [("A2", some none), ("D2", some none),
         ((nodeFromAssetGroup chainGroupMid).id, some (some true)),
         ("A1", some (some true)), ("D1", some (some true)),
         ((nodeFromAssetGroup chainGroupDeep).id, some none)] := by decide

/-- C1: on the empty graph, `resolveDependency` with a dependency whose node
id is absent throws (`nullthrows` fires before the dead `if (!depNode)
return` guard), diverging from the claimed silent no-op; `resolveAssetGroup`
with an absent content-hash node is the claimed no-op returning the graph
unchanged; `resolveEntry` and `resolveTargets` throw as claimed. -/
theorem c1_missing_node_behaviour :
    resolveDependency (mkGraph [] [] none) missingDep
        (some { filePath := "g", sideEffects := none }) "req"
      = Except.error "nullthrows" ∧
    resolveAssetGroup (mkGraph [] [] none)
        { filePath := "g", sideEffects := none } [] "req"
      = Except.ok (mkGraph [] [] none) ∧
    resolveEntry (mkGraph [] [] none) "e" [] "req"
      = Except.error "nullthrows" ∧
    resolveTargets (mkGraph [] [] none) "e" [] "req"
      = Except.error "nullthrows" :=
  ⟨rfl, rfl, rfl, rfl⟩

theorem mem_setAdd_self (l : List String) (s : String) : s ∈ setAdd l s := by
  unfold setAdd
  by_cases h : s ∈ l
  · simp [h]
  · simp [h]

theorem mem_setAdd_of_mem {l : List String} {x : String} (s : String)
    (h : x ∈ l) : x ∈ setAdd l s := by
  unfold setAdd
  by_cases hs : s ∈ l
  · simpa [hs]
  · simp [hs, List.mem_append]
    exact Or.inl h

theorem mem_foldl_setAdd_of_mem {x : String} :
    ∀ (l acc : List String), x ∈ acc → x ∈ l.foldl setAdd acc := by
  intro l
  induction l with
  | nil => intro acc h; exact h
  | cons s t ih => intro acc h; exact ih _ (mem_setAdd_of_mem _ h)

theorem mem_foldl_setAdd_of_mem_list {x : String} :
    ∀ (l acc : List String), x ∈ l → x ∈ l.foldl setAdd acc := by
  intro l
  induction l with
  | nil => intro acc h; cases h
  | cons s t ih =>
    intro acc h
    cases h with
    | head =>
      show x ∈ t.foldl setAdd (setAdd acc x)
      exact mem_foldl_setAdd_of_mem t (setAdd acc x) (mem_setAdd_self acc x)
    | tail _ hmem => exact ih _ hmem

theorem mem_setDelete_of_ne {l : List String} {x re : String}
    (hne : x ≠ re) (h : x ∈ l) : x ∈ setDelete l re := by
  unfold setDelete
  exact (List.mem_erase_of_ne hne).mpr h

theorem mem_assocSet {α : Type} {l : List (String × α)} {q : String × α}
    {k : String} {v : α} (h : q ∈ assocSet l k v) : q ∈ l ∨ q = (k, v) := by
  unfold assocSet at h
  by_cases hk : l.any (fun p => p.1 == k)
  · rw [if_pos hk] at h
    rcases List.mem_map.mp h with ⟨p, hp, heq⟩
    by_cases hpk : (p.1 == k) = true
    · rw [if_pos hpk] at heq
      exact Or.inr heq.symm
    · rw [if_neg hpk] at heq
      exact Or.inl (heq ▸ hp)
  · rw [if_neg hk] at h
    rcases List.mem_append.mp h with hl | hr
    · exact Or.inl hl
    · simp at hr
      exact Or.inr hr

theorem inverse_fold_val_mem {S : List String} :
    ∀ (tbl acc : List (String × String)),
      (∀ q ∈ acc, q.2 ∈ S) → (∀ p ∈ tbl, p.1 ∈ S) →
      ∀ q ∈ tbl.foldl (fun acc2 p => assocSet acc2 p.2 p.1) acc, q.2 ∈ S := by
  intro tbl
  induction tbl with
  | nil => intro acc hacc _ q hq; exact hacc q hq
  | cons p t ih =>
    intro acc hacc htbl q hq
    refine ih _ ?_ (fun p2 hp2 => htbl p2 (List.mem_cons_of_mem _ hp2)) q hq
    intro q2 hq2
    cases mem_assocSet hq2 with
    | inl hin => exact hacc q2 hin
    | inr heq => rw [heq]; exact htbl p (List.mem_cons_self _ _)

theorem lookupStr_mem {α : Type} {l : List (String × α)} {k : String} {v : α}
    (h : lookupStr l k = some v) : (k, v) ∈ l ∨ ∃ q ∈ l, q.2 = v := by
  unfold lookupStr at h
  cases hf : l.find? (fun p => p.1 == k) with
  | none => rw [hf] at h; cases h
  | some q =>
    rw [hf] at h
    refine Or.inr ⟨q, List.mem_of_find?_eq_some hf, ?_⟩
    simpa using h

theorem assetSymbolsInverse_lookup_is_key {tbl : List (String × String)}
    {x y : String} (h : lookupStr (assetSymbolsInverse tbl) x = some y) :
    y ∈ tbl.map Prod.fst := by
  have hall : ∀ q ∈ assetSymbolsInverse tbl, q.2 ∈ tbl.map Prod.fst := by
    unfold assetSymbolsInverse
    refine inverse_fold_val_mem tbl [] (by intro q hq; cases hq) ?_
    intro p hp
    exact List.mem_map.mpr ⟨p, hp, rfl⟩
  cases lookupStr_mem h with
  | inl hin => exact (hall _ hin : ((x, y) : String × String).2 ∈ _)
  | inr hex =>
    rcases hex with ⟨q, hq, hv⟩
    rw [← hv]
    exact hall q hq

theorem processIncomingDep_star_mem
    (symb : Option (List (String × String))) :
    ∀ (used au re : List String), "*" ∈ used →
      "*" ∈ (processIncomingDep symb used (au, re)).1 ∧
      "*" ∈ (processIncomingDep symb used (au, re)).2 := by
  intro used
  induction used with
  | nil => intro au re h; cases h
  | cons s t ih =>
    intro au re h
    by_cases hs : (s == "*") = true
    · simp only [processIncomingDep, hs, if_true]
      exact ⟨mem_setAdd_self _ _, mem_setAdd_self _ _⟩
    · have hne : s ≠ "*" := by simpa using hs
      have hmem : "*" ∈ t := by
        cases h with
        | head => exact absurd rfl hne
        | tail _ hx => exact hx
      by_cases hh : symbolsHas symb s = true
      · simp only [processIncomingDep, hs, hh, Bool.false_eq_true, if_false,
          if_true]
        exact ih _ _ hmem
      · simp only [processIncomingDep, hs, hh, Bool.false_eq_true, if_false]
        exact ih _ _ hmem

theorem processIncomingDep_mono (symb : Option (List (String × String))) :
    ∀ (used au re : List String) (x : String),
      (x ∈ au → x ∈ (processIncomingDep symb used (au, re)).1) ∧
      (x ∈ re → x ∈ (processIncomingDep symb used (au, re)).2) := by
  intro used
  induction used with
  | nil => intro au re x; exact ⟨fun h => h, fun h => h⟩
  | cons s t ih =>
    intro au re x
    by_cases hs : (s == "*") = true
    · simp only [processIncomingDep, hs, if_true]
      exact ⟨fun h => mem_setAdd_of_mem _ h, fun h => mem_setAdd_of_mem _ h⟩
    · by_cases hh : symbolsHas symb s = true
      · simp only [processIncomingDep, hs, hh, Bool.false_eq_true, if_false,
          if_true]
        exact ⟨fun h => (ih _ _ x).1 (mem_setAdd_of_mem _ h),
               fun h => (ih _ _ x).2 h⟩
      · simp only [processIncomingDep, hs, hh, Bool.false_eq_true, if_false]
        exact ⟨fun h => (ih _ _ x).1 h,
               fun h => (ih _ _ x).2 (mem_setAdd_of_mem _ h)⟩

theorem computeIncomingSets_star_aux
    (symb : Option (List (String × String))) :
    ∀ (ls : List (List String)) (acc : List String × List String),
      ((∃ l ∈ ls, "*" ∈ l) ∨ ("*" ∈ acc.1 ∧ "*" ∈ acc.2)) →
      "*" ∈ (ls.foldl (fun a used => processIncomingDep symb used a) acc).1 ∧
      "*" ∈ (ls.foldl (fun a used => processIncomingDep symb used a) acc).2 := by
  intro ls
  induction ls with
  | nil =>
    intro acc h
    cases h with
    | inl hex => rcases hex with ⟨l, hl, _⟩; cases hl
    | inr hacc => exact hacc
  | cons l t ih =>
    intro acc h
    cases h with
    | inl hex =>
      rcases hex with ⟨l2, hl2, hstar⟩
      cases hl2 with
      | head =>
        refine ih _ (Or.inr ?_)
        rcases acc with ⟨au, re⟩
        exact processIncomingDep_star_mem symb l au re hstar
      | tail _ hmem => exact ih _ (Or.inl ⟨l2, hmem, hstar⟩)
    | inr hacc =>
      refine ih _ (Or.inr ?_)
      rcases acc with ⟨au, re⟩
      exact ⟨(processIncomingDep_mono symb l au re "*").1 hacc.1,
             (processIncomingDep_mono symb l au re "*").2 hacc.2⟩

theorem computeIncomingSets_star (symb : Option (List (String × String)))
    (ls : List (List String)) (h : ∃ l ∈ ls, "*" ∈ l) :
    "*" ∈ (computeIncomingSets symb ls).1 ∧
    "*" ∈ (computeIncomingSets symb ls).2 :=
  computeIncomingSets_star_aux symb ls ([], []) (Or.inl h)

theorem processDepSymbol_star_pres
    {inverse : Option (List (String × String))} {weak au du : List String}
    {s l : String}
    (hfree : ∀ x re, lookupStr (inverse.getD []) x = some re → re ≠ "*")
    (h : "*" ∈ au) :
    "*" ∈ (processDepSymbol inverse weak (au, du) (s, l)).1 := by
  unfold processDepSymbol
  by_cases h1 : (inverse.isNone || !(weak.contains s)) = true
  · simp only [h1, if_true]
    exact h
  · simp only [h1, Bool.false_eq_true, if_false]
    cases hre : lookupStr (inverse.getD []) l with
    | none => exact h
    | some re =>
      by_cases h2 : (au.contains "*" || au.contains re) = true
      · simp only [h2, if_true]
        exact mem_setDelete_of_ne (Ne.symm (hfree l re hre)) h
      · simp only [h2, Bool.false_eq_true, if_false]
        exact h

theorem runOutgoingDep_star_pres
    {inverse : Option (List (String × String))}
    {reexported : List String} {dep : DepValue} {au du : List String}
    (hfree : ∀ x re, lookupStr (inverse.getD []) x = some re → re ≠ "*")
    (h : "*" ∈ au) :
    "*" ∈ (runOutgoingDep inverse reexported dep au du).1 := by
  unfold runOutgoingDep
  by_cases hw : (lookupStr dep.symbols "*" == some "*") = true
  · simp only [hw, if_true]
    exact h
  · simp only [hw, Bool.false_eq_true, if_false]
    refine foldl_pres (fun (acc : List String × List String) => "*" ∈ acc.1)
      _ ?_ dep.symbols (au, du) h
    intro x b hx
    rcases b with ⟨s, l⟩
    exact processDepSymbol_star_pres hfree hx

theorem processDepSymbol_du_mono
    {inverse : Option (List (String × String))} {weak au du : List String}
    {s l x : String} (h : x ∈ du) :
    x ∈ (processDepSymbol inverse weak (au, du) (s, l)).2 := by
  unfold processDepSymbol
  by_cases h1 : (inverse.isNone || !(weak.contains s)) = true
  · simp only [h1, if_true]
    exact mem_setAdd_of_mem _ h
  · simp only [h1, Bool.false_eq_true, if_false]
    cases hre : lookupStr (inverse.getD []) l with
    | none => exact mem_setAdd_of_mem _ h
    | some re =>
      by_cases h2 : (au.contains "*" || au.contains re) = true
      · simp only [h2, if_true]
        exact mem_setAdd_of_mem _ h
      · simp only [h2, Bool.false_eq_true, if_false]
        exact h

theorem runOutgoingDep_du_mono
    {inverse : Option (List (String × String))}
    {reexported : List String} {dep : DepValue} {au du : List String}
    {x : String} (h : x ∈ du) :
    x ∈ (runOutgoingDep inverse reexported dep au du).2 := by
  unfold runOutgoingDep
  by_cases hw : (lookupStr dep.symbols "*" == some "*") = true
  · simp only [hw, if_true]
    exact mem_foldl_setAdd_of_mem _ _ h
  · simp only [hw, Bool.false_eq_true, if_false]
    refine foldl_pres (fun (acc : List String × List String) => x ∈ acc.2)
      _ ?_ dep.symbols (au, du) h
    intro y b hy
    rcases b with ⟨s, l⟩
    exact processDepSymbol_du_mono hy

theorem runOutgoingDep_wildcard_receives
    {inverse : Option (List (String × String))}
    {reexported : List String} {dep : DepValue} {au du : List String}
    (hw : lookupStr dep.symbols "*" = some "*") :
    ∀ s ∈ reexported, s ∈ (runOutgoingDep inverse reexported dep au du).2 := by
  intro s hs
  unfold runOutgoingDep
  have hwb : (lookupStr dep.symbols "*" == some "*") = true := by simp [hw]
  simp only [hwb, if_true]
  exact mem_foldl_setAdd_of_mem_list _ _ hs

theorem outgoingStep_star_pres
    {inverse : Option (List (String × String))} {reexported : List String}
    (hfree : ∀ x re, lookupStr (inverse.getD []) x = some re → re ≠ "*")
    (acc : List String × AGraph) (da : Addr) (h : "*" ∈ acc.1) :
    "*" ∈ (outgoingStep inverse reexported acc da).1 := by
  unfold outgoingStep
  cases hg : heapGet acc.2 da with
  | none => exact h
  | some drec =>
    dsimp only
    cases hdv : drec.depValue with
    | none => exact h
    | some dv =>
      dsimp only
      exact runOutgoingDep_star_pres hfree h

theorem outgoingStep_present_pres
    {inverse : Option (List (String × String))} {reexported : List String}
    {b : Addr} (acc : List String × AGraph) (da : Addr)
    (h : ∃ rec, heapGet acc.2 b = some rec) :
    ∃ rec2, heapGet (outgoingStep inverse reexported acc da).2 b
      = some rec2 := by
  rcases h with ⟨rec, hrec⟩
  unfold outgoingStep
  cases hg : heapGet acc.2 da with
  | none => exact ⟨rec, hrec⟩
  | some drec =>
    dsimp only
    cases hdv : drec.depValue with
    | none => exact ⟨rec, hrec⟩
    | some dv =>
      dsimp only
      by_cases hbd : da = b
      · subst hbd
        exact ⟨_, heapGet_heapSet_self _ hg⟩
      · rw [heapGet_heapSet_ne _ (Ne.symm hbd)]
        exact ⟨rec, hrec⟩

theorem outgoingStep_depValue_pres
    {inverse : Option (List (String × String))} {reexported : List String}
    {b : Addr} {dv0 : DepValue} (acc : List String × AGraph) (da : Addr)
    (h : ∃ rec, heapGet acc.2 b = some rec ∧ rec.depValue = some dv0) :
    ∃ rec2, heapGet (outgoingStep inverse reexported acc da).2 b = some rec2 ∧
      rec2.depValue = some dv0 := by
  rcases h with ⟨rec, hrec, hdv0⟩
  unfold outgoingStep
  cases hg : heapGet acc.2 da with
  | none => exact ⟨rec, hrec, hdv0⟩
  | some drec =>
    dsimp only
    cases hdv : drec.depValue with
    | none => exact ⟨rec, hrec, hdv0⟩
    | some dv =>
      dsimp only
      by_cases hbd : da = b
      · subst hbd
        have hdr : drec = rec := by
          rw [hg] at hrec
          exact Option.some.inj hrec
        subst hdr
        have hdd : dv = dv0 := by
          rw [hdv] at hdv0
          exact Option.some.inj hdv0
        refine ⟨_, heapGet_heapSet_self _ hg, ?_⟩
        show some dv = some dv0
        rw [hdd]
      · rw [heapGet_heapSet_ne _ (Ne.symm hbd)]
        exact ⟨rec, hrec, hdv0⟩

theorem outgoingStep_grown_pres
    {inverse : Option (List (String × String))} {reexported : List String}
    {b : Addr} {dv0 : DepValue} {S : List String}
    (acc : List String × AGraph) (da : Addr)
    (h : ∃ rec, heapGet acc.2 b = some rec ∧ rec.depValue = some dv0 ∧
      ∀ s ∈ S, s ∈ rec.usedSymbols) :
    ∃ rec2, heapGet (outgoingStep inverse reexported acc da).2 b = some rec2 ∧
      rec2.depValue = some dv0 ∧ ∀ s ∈ S, s ∈ rec2.usedSymbols := by
  rcases h with ⟨rec, hrec, hdv0, hsub⟩
  unfold outgoingStep
  cases hg : heapGet acc.2 da with
  | none => exact ⟨rec, hrec, hdv0, hsub⟩
  | some drec =>
    dsimp only
    cases hdv : drec.depValue with
    | none => exact ⟨rec, hrec, hdv0, hsub⟩
    | some dv =>
      dsimp only
      by_cases hbd : da = b
      · subst hbd
        have hdr : drec = rec := by
          rw [hg] at hrec
          exact Option.some.inj hrec
        subst hdr
        have hdd : dv = dv0 := by
          rw [hdv] at hdv0
          exact Option.some.inj hdv0
        refine ⟨_, heapGet_heapSet_self _ hg, ?_, ?_⟩
        · show some dv = some dv0
          rw [hdd]
        · intro s hs
          exact runOutgoingDep_du_mono (hsub s hs)
      · rw [heapGet_heapSet_ne _ (Ne.symm hbd)]
        exact ⟨rec, hrec, hdv0, hsub⟩

theorem outgoingStep_establishes
    {inverse : Option (List (String × String))} {reexported : List String}
    {b : Addr} {dv0 : DepValue} (acc : List String × AGraph)
    (h : ∃ rec, heapGet acc.2 b = some rec ∧ rec.depValue = some dv0)
    (hw : lookupStr dv0.symbols "*" = some "*") :
    ∃ rec2, heapGet (outgoingStep inverse reexported acc b).2 b = some rec2 ∧
      rec2.depValue = some dv0 ∧ ∀ s ∈ reexported, s ∈ rec2.usedSymbols := by
  rcases h with ⟨rec, hrec, hdv0⟩
  unfold outgoingStep
  rw [hrec]
  dsimp only
  rw [hdv0]
  dsimp only
  refine ⟨_, heapGet_heapSet_self _ hrec, rfl, ?_⟩
  intro s hs
  exact runOutgoingDep_wildcard_receives hw s hs

/-- C4 counterexample: asset A has an incoming dependency demanding the
wildcard, yet after `setUsedSymbolsAsset` its used-symbol set is
`{'*', 'a'}`, not exactly `{'*'}` — the wildcard stops only that
dependency's scan, and the other incoming dependency still contributes its
directly demanded name. -/
theorem c4_counterexample :
    ((heapGet fixWildcard 0).map (·.usedSymbols) = some ["*"]) ∧
    hasEdge fixWildcard "Dstar" "A" = true ∧
    ((setUsedSymbolsAsset fixWildcard 2 []).toOption.bind
        (fun g2 => (heapGet g2 2).map (·.usedSymbols)))
      = some ["*", "a"] ∧
    ¬ (((setUsedSymbolsAsset fixWildcard 2 []).toOption.bind
        (fun g2 => (heapGet g2 2).map (·.usedSymbols)))
      = some ["*"]) := by decide

/-- C4 (amended): when some incoming dependency of asset A demands the
wildcard, and A's own symbol table does not itself export a name `'*'` (the
weak-binding satisfaction path may delete any exported name the inverse
table produces, so an own `'*'` export could remove it), the wildcard is in
A's recomputed used-symbol set after `setUsedSymbolsAsset` (other demanded
names may accompany it), and every outgoing dependency declaring a
wildcard-to-wildcard binding receives A's entire re-exported-namespace set
into its used symbols. -/
theorem c4_wildcard_amended (g : AGraph) (assetAddr : Addr)
    (outgoingDeps : List Addr) (arec : NodeRec) (av : AssetValue)
    (incs : List NodeRec) (g2 : AGraph)
    (ha : heapGet g assetAddr = some arec)
    (hav : arec.assetValue = some av)
    (hfetch : fetchIncoming g (getIncomingDependencies g av)
      = Except.ok incs)
    (hstar : ∃ inc ∈ incs, "*" ∈ inc.usedSymbols)
    (hnostar : ∀ tbl, av.symbols = some tbl → lookupStr tbl "*" = none)
    (hrun : setUsedSymbolsAsset g assetAddr outgoingDeps = Except.ok g2) :
    (∃ us, (heapGet g2 assetAddr).map (·.usedSymbols) = some us ∧
      "*" ∈ us) ∧
    (∀ da drec dv, da ∈ outgoingDeps → da ≠ assetAddr →
      heapGet g da = some drec → drec.depValue = some dv →
      lookupStr dv.symbols "*" = some "*" →
      ∃ us2, (heapGet g2 da).map (·.usedSymbols) = some us2 ∧
        ∀ s ∈ (computeIncomingSets av.symbols (incs.map (·.usedSymbols))).2,
          s ∈ us2) := by
  have hfree : ∀ x re,
      lookupStr ((av.symbols.map assetSymbolsInverse).getD []) x = some re →
      re ≠ "*" := by
    intro x re h
    cases hsymb : av.symbols with
    | none =>
      rw [hsymb] at h
      simp [lookupStr] at h
    | some tbl =>
      rw [hsymb] at h
      have hkey : re ∈ tbl.map Prod.fst :=
        assetSymbolsInverse_lookup_is_key h
      have hnone := hnostar tbl hsymb
      unfold lookupStr at hnone
      have hfind : tbl.find? (fun p => p.1 == "*") = none := by
        cases hf : tbl.find? (fun p => p.1 == "*") with
        | none => rfl
        | some q => rw [hf] at hnone; cases hnone
      have hall := List.find?_eq_none.mp hfind
      rcases List.mem_map.mp hkey with ⟨p, hp, hp1⟩
      intro hcontra
      exact hall p hp (by simp [hp1, hcontra])
  unfold setUsedSymbolsAsset at hrun
  rw [ha] at hrun
  dsimp only at hrun
  rw [hav] at hrun
  dsimp only at hrun
  rw [hfetch] at hrun
  dsimp only at hrun
  have hpres : ∃ rec,
      heapGet (outgoingDeps.foldl
        (outgoingStep (av.symbols.map assetSymbolsInverse)
          (computeIncomingSets av.symbols (incs.map (·.usedSymbols))).2)
        ((computeIncomingSets av.symbols (incs.map (·.usedSymbols))).1, g)).2
        assetAddr = some rec := by
    refine foldl_pres
      (fun (acc : List String × AGraph) =>
        ∃ rec, heapGet acc.2 assetAddr = some rec) _ ?_ outgoingDeps _
      ⟨arec, ha⟩
    intro acc da h
    exact outgoingStep_present_pres acc da h
  rcases hpres with ⟨arecF, hF⟩
  rw [hF] at hrun
  dsimp only at hrun
  have hg2 : g2 = heapSet
      (outgoingDeps.foldl
        (outgoingStep (av.symbols.map assetSymbolsInverse)
          (computeIncomingSets av.symbols (incs.map (·.usedSymbols))).2)
        ((computeIncomingSets av.symbols (incs.map (·.usedSymbols))).1, g)).2
      assetAddr
      { arecF with usedSymbols :=
        (outgoingDeps.foldl
          (outgoingStep (av.symbols.map assetSymbolsInverse)
            (computeIncomingSets av.symbols (incs.map (·.usedSymbols))).2)
          ((computeIncomingSets av.symbols (incs.map (·.usedSymbols))).1, g)).1 } := by
    have := Except.ok.inj hrun
    exact this.symm
  constructor
  · refine ⟨(outgoingDeps.foldl
      (outgoingStep (av.symbols.map assetSymbolsInverse)
        (computeIncomingSets av.symbols (incs.map (·.usedSymbols))).2)
      ((computeIncomingSets av.symbols (incs.map (·.usedSymbols))).1, g)).1,
      ?_, ?_⟩
    · rw [hg2, heapGet_heapSet_self _ hF]
      rfl
    · have hstar2 : ∃ l ∈ incs.map (·.usedSymbols), "*" ∈ l := by
        rcases hstar with ⟨inc, hin, hm⟩
        exact ⟨inc.usedSymbols, List.mem_map.mpr ⟨inc, hin, rfl⟩, hm⟩
      have hbase :=
        (computeIncomingSets_star av.symbols (incs.map (·.usedSymbols))
          hstar2).1
      refine foldl_pres
        (fun (acc : List String × AGraph) => "*" ∈ acc.1) _ ?_ outgoingDeps _
        hbase
      intro acc da h
      exact outgoingStep_star_pres hfree acc da h
  · intro da drec dv hmem hne hgd hdv hw
    rcases List.append_of_mem hmem with ⟨l1, l2, hsplit⟩
    subst hsplit
    rw [List.foldl_append, List.foldl_cons] at hg2
    have hPd : ∃ rec,
        heapGet (l1.foldl
          (outgoingStep (av.symbols.map assetSymbolsInverse)
            (computeIncomingSets av.symbols (incs.map (·.usedSymbols))).2)
          ((computeIncomingSets av.symbols (incs.map (·.usedSymbols))).1, g)).2
          da = some rec ∧ rec.depValue = some dv := by
      refine foldl_pres
        (fun (acc : List String × AGraph) =>
          ∃ rec, heapGet acc.2 da = some rec ∧ rec.depValue = some dv)
        _ ?_ l1 _ ⟨drec, hgd, hdv⟩
      intro acc da2 h
      exact outgoingStep_depValue_pres acc da2 h
    have hQ := @outgoingStep_establishes
      (av.symbols.map assetSymbolsInverse)
      ((computeIncomingSets av.symbols (incs.map (·.usedSymbols))).2)
      _ _ _ hPd hw
    have hQfin : ∃ rec2,
        heapGet (l2.foldl
          (outgoingStep (av.symbols.map assetSymbolsInverse)
            (computeIncomingSets av.symbols (incs.map (·.usedSymbols))).2)
          (outgoingStep (av.symbols.map assetSymbolsInverse)
            (computeIncomingSets av.symbols (incs.map (·.usedSymbols))).2
            (l1.foldl
              (outgoingStep (av.symbols.map assetSymbolsInverse)
                (computeIncomingSets av.symbols (incs.map (·.usedSymbols))).2)
              ((computeIncomingSets av.symbols
                (incs.map (·.usedSymbols))).1, g))
            da)).2 da = some rec2 ∧
        rec2.depValue = some dv ∧
        ∀ s ∈ (computeIncomingSets av.symbols (incs.map (·.usedSymbols))).2,
          s ∈ rec2.usedSymbols := by
      refine foldl_pres
        (fun (acc : List String × AGraph) =>
          ∃ rec2, heapGet acc.2 da = some rec2 ∧ rec2.depValue = some dv ∧
            ∀ s ∈ (computeIncomingSets av.symbols
              (incs.map (·.usedSymbols))).2, s ∈ rec2.usedSymbols)
        _ ?_ l2 _ hQ
      intro acc da2 h
      exact outgoingStep_grown_pres acc da2 h
    rcases hQfin with ⟨rec2, hrec2, _, hsub⟩
    refine ⟨rec2.usedSymbols, ?_, hsub⟩
    rw [hg2, heapGet_heapSet_ne _ hne, hrec2]
    rfl

/-- Witness for C4 (amended): the concrete state above, read back through
the run's result. -/
theorem c4_wildcard_amended_witness :
    (∃ us, (heapGet ((setUsedSymbolsAsset fixWildcardOut 1 [2]).toOption.getD
        (mkGraph [] [] none)) 1).map (·.usedSymbols) = some us ∧
      "*" ∈ us) ∧
    (∃ us2, (heapGet ((setUsedSymbolsAsset fixWildcardOut 1 [2]).toOption.getD
        (mkGraph [] [] none)) 2).map (·.usedSymbols) = some us2 ∧
      ∀ s ∈ (computeIncomingSets (some [("a", "la")])
        (([{ id := "Dstar", ntype := NType.dependency, depValue := some (depOfId "Dstar"), usedSymbols := ["*"] }] : List NodeRec).map (·.usedSymbols))).2, s ∈ us2) := by
  have happ := c4_wildcard_amended fixWildcardOut 1 [2]
    { id := "A", ntype := NType.asset,
      assetValue := some { id := "A", uniqueKey := none, symbols := some [("a", "la")], dependencies := [], outputHash := none } }
    { id := "A", uniqueKey := none, symbols := some [("a", "la")],
      dependencies := [], outputHash := none }
    [{ id := "Dstar", ntype := NType.dependency, depValue := some (depOfId "Dstar"), usedSymbols := ["*"] }]
    ((setUsedSymbolsAsset fixWildcardOut 1 [2]).toOption.getD
      (mkGraph [] [] none))
    rfl rfl rfl
    ⟨{ id := "Dstar", ntype := NType.dependency, depValue := some (depOfId "Dstar"), usedSymbols := ["*"] },
      by decide, by decide⟩
    (by
      intro tbl htbl
      injection htbl with h2
      rw [← h2]
      rfl)
    rfl
  exact ⟨happ.1, happ.2 2
    { id := "Dout", ntype := NType.dependency, depValue := some dvOut }
    dvOut (by decide) (by decide) rfl rfl rfl⟩

/-- C5: inside `setUsedSymbolsAsset`'s outgoing loop, one declared
`(exportedName, localBinding)` pair behaves as specified: with no inverse
table (the asset has no symbol table) or a non-weak binding, the exported
name is added to the dependency's used set unconditionally; with a weak
binding, it is added exactly when the inverse table does not map the local
binding, or the asset's used set holds the wildcard or the mapped name, and
in the satisfied mapped case the mapped name is removed from the asset's
used set; otherwise both sets are unchanged. -/
theorem c5_processDepSymbol_branches :
    (∀ (inverse : Option (List (String × String))) (weak au du : List String)
        (s l : String), (inverse = none ∨ s ∉ weak) →
        processDepSymbol inverse weak (au, du) (s, l) = (au, setAdd du s)) ∧
    (∀ (inv : List (String × String)) (weak au du : List String)
        (s l : String), s ∈ weak →
        (lookupStr inv l = none →
          processDepSymbol (some inv) weak (au, du) (s, l)
            = (au, setAdd du s)) ∧
        (∀ re, lookupStr inv l = some re →
          (("*" ∈ au ∨ re ∈ au) →
            processDepSymbol (some inv) weak (au, du) (s, l)
              = (setDelete au re, setAdd du s)) ∧
          (("*" ∉ au ∧ re ∉ au) →
            processDepSymbol (some inv) weak (au, du) (s, l) = (au, du)))) := by
  constructor
  · intro inverse weak au du s l h
    unfold processDepSymbol
    have hcond : (inverse.isNone || !(weak.contains s)) = true := by
      cases h with
      | inl hn => simp [hn]
      | inr hw => simp [hw]
    simp only [hcond, if_true]
  · intro inv weak au du s l hw
    have hcond : ((some inv : Option (List (String × String))).isNone
        || !(weak.contains s)) = false := by
      simp [hw]
    constructor
    · intro hlook
      unfold processDepSymbol
      simp only [hcond, Bool.false_eq_true, if_false, Option.getD_some, hlook]
    · intro re hlook
      constructor
      · intro hmem
        unfold processDepSymbol
        have hcc : (au.contains "*" || au.contains re) = true := by
          cases hmem with
          | inl h1 => simp [h1]
          | inr h2 => simp [h2]
        simp only [hcond, Bool.false_eq_true, if_false, Option.getD_some,
          hlook, hcc, if_true]
      · intro hnmem
        unfold processDepSymbol
        have hcc : (au.contains "*" || au.contains re) = false := by
          simp [hnmem.1, hnmem.2]
        simp only [hcond, Bool.false_eq_true, if_false, Option.getD_some,
          hlook, hcc]

/-- Witness for C5: one concrete pair through each of the four branches. -/
theorem c5_processDepSymbol_branches_witness :
    processDepSymbol none ["s"] (["a"], []) ("s", "l") = (["a"], setAdd [] "s") ∧
    processDepSymbol (some [("l", "b")]) ["s"] (["a"], []) ("s", "x")
      = (["a"], setAdd [] "s") ∧
    processDepSymbol (some [("l", "b")]) ["s"] (["b"], []) ("s", "l")
      = (setDelete ["b"] "b", setAdd [] "s") ∧
    processDepSymbol (some [("l", "b")]) ["s"] (["a"], []) ("s", "l")
      = (["a"], []) :=
  ⟨c5_processDepSymbol_branches.1 none ["s"] ["a"] [] "s" "l" (Or.inl rfl),
   (c5_processDepSymbol_branches.2 [("l", "b")] ["s"] ["a"] [] "s" "x"
     (by decide)).1 rfl,
   ((c5_processDepSymbol_branches.2 [("l", "b")] ["s"] ["b"] [] "s" "l"
     (by decide)).2 "b" rfl).1 (Or.inr (by decide)),
   ((c5_processDepSymbol_branches.2 [("l", "b")] ["s"] ["a"] [] "s" "l"
     (by decide)).2 "b" rfl).2 (by decide)⟩

theorem foldl_max_seed_le {β : Type} (f : β → Nat) :
    ∀ (l : List β) (n : Nat),
      n ≤ l.foldl (fun m q => max m (f q)) n := by
  intro l
  induction l with
  | nil => intro n; exact le_refl n
  | cons b t ih =>
    intro n
    exact le_trans (Nat.le_max_left n (f b)) (ih (max n (f b)))

theorem foldl_max_ge {β : Type} (f : β → Nat) :
    ∀ (l : List β) (n : Nat) (b : β), b ∈ l →
      f b ≤ l.foldl (fun m q => max m (f q)) n := by
  intro l
  induction l with
  | nil => intro n b h; cases h
  | cons c t ih =>
    intro n b h
    rcases List.mem_cons.mp h with rfl | hmem
    · exact le_trans (Nat.le_max_right n (f b)) (foldl_max_seed_le f t _)
    · exact ih _ b hmem

theorem childrenOf_length_le (g : AGraph) (i : String) :
    (childrenOf g i).length ≤ maxOutDegree g := by
  unfold childrenOf maxOutDegree
  cases hf : g.fromEdges.find? (fun p => p.1 == i) with
  | none => simp [hf]
  | some q =>
    have hle := foldl_max_ge (fun p => p.2.length) g.fromEdges 0 q
      (List.mem_of_find?_eq_some hf)
    simpa [hf] using hle

theorem parentsOf_length_le (g : AGraph) (i : String) :
    (parentsOf g i).length ≤ maxInDegree g := by
  unfold parentsOf maxInDegree
  cases hf : g.toEdges.find? (fun p => p.1 == i) with
  | none => simp [hf]
  | some q =>
    have hle := foldl_max_ge (fun p => p.2.length) g.toEdges 0 q
      (List.mem_of_find?_eq_some hf)
    simpa [hf] using hle

theorem getNodeAddr_mem_ids {g : AGraph} {i : String} {a : Addr}
    (h : getNodeAddr g i = some a) : i ∈ idsFinset g := by
  unfold getNodeAddr at h
  cases hf : g.nodes.find? (fun p => p.1 == i) with
  | none => rw [hf] at h; cases h
  | some q =>
    have hq := List.mem_of_find?_eq_some hf
    have hqi : q.1 = i := by
      have := List.find?_some hf
      simpa using this
    unfold idsFinset
    rw [List.mem_toFinset]
    exact List.mem_map.mpr ⟨q, hq, hqi⟩

theorem travGo_order_nodup {α κ : Type}
    (nbrs : AGraph → String → List String) (visit : Visitor α κ) :
    ∀ (n : Nat) (h : AGraph) (acc : α) (stack : List (String × Option κ))
      (visited : List String) (res : AGraph × α × List String),
      visited.Nodup → travGo nbrs visit n h acc stack visited = some res →
      res.2.2.Nodup := by
  intro n
  induction n with
  | zero =>
    intro h acc stack visited res hnd hrun
    simp [travGo] at hrun
  | succ n ih =>
    intro h acc stack visited res hnd hrun
    match stack with
    | [] =>
      simp [travGo] at hrun
      subst hrun
      simpa using hnd
    | (i, ctx) :: rest =>
      rw [travGo] at hrun
      by_cases hvis : visited.contains i = true
      · simp only [hvis, if_true] at hrun
        exact ih h acc rest visited res hnd hrun
      · have hvis2 : visited.contains i = false := by simpa using hvis
        have hninv : i ∉ visited := by simpa using hvis
        have hnd2 : (i :: visited).Nodup := List.nodup_cons.mpr ⟨hninv, hnd⟩
        cases hga : getNodeAddr h i with
        | none =>
          simp only [hvis2, Bool.false_eq_true, if_false, hga] at hrun
          exact ih h acc rest visited res hnd hrun
        | some a =>
          cases hhg : heapGet h a with
          | none =>
            simp only [hvis2, Bool.false_eq_true, if_false, hga, hhg] at hrun
            exact ih h acc rest visited res hnd hrun
          | some r =>
            rcases hout : visit h acc a r ctx with ⟨h1, acc1, ctx1, skipC, stop⟩
            cases stop with
            | true =>
              simp only [hvis2, Bool.false_eq_true, if_false, if_true, hga,
                hhg, hout, Option.some.injEq] at hrun
              subst hrun
              exact List.nodup_reverse.mpr hnd2
            | false =>
              cases skipC with
              | true =>
                simp only [hvis2, Bool.false_eq_true, Bool.true_eq_false,
                  if_false, if_true, hga, hhg, hout] at hrun
                exact ih h1 acc1 rest (i :: visited) res hnd2 hrun
              | false =>
                simp only [hvis2, Bool.false_eq_true, Bool.true_eq_false,
                  if_false, if_true, hga, hhg, hout] at hrun
                exact ih h1 acc1 _ (i :: visited) res hnd2 hrun

theorem travGo_adequate {α κ : Type} (g : AGraph)
    (nbrs : AGraph → String → List String) (visit : Visitor α κ) (D : Nat)
    (hshape : ∀ h acc a r ctx,
      (visit h acc a r ctx).1.nodes = h.nodes ∧
      (visit h acc a r ctx).1.fromEdges = h.fromEdges ∧
      (visit h acc a r ctx).1.toEdges = h.toEdges)
    (hnbrs : ∀ h i, h.nodes = g.nodes → h.fromEdges = g.fromEdges →
      h.toEdges = g.toEdges → (nbrs h i).length ≤ D) :
    ∀ (n : Nat) (h : AGraph) (acc : α) (stack : List (String × Option κ))
      (visited : List String),
      h.nodes = g.nodes → h.fromEdges = g.fromEdges → h.toEdges = g.toEdges →
      stack.length + (1 + D) * (idsFinset g \ visited.toFinset).card + 1 ≤ n →
      travGo nbrs visit n h acc stack visited ≠ none := by
  intro n
  induction n with
  | zero =>
    intro h acc stack visited _ _ _ hfuel
    omega
  | succ n ih =>
    intro h acc stack visited hN hF hT hfuel
    match stack with
    | [] => simp [travGo]
    | (i, ctx) :: rest =>
      rw [travGo]
      by_cases hvis : visited.contains i = true
      · simp only [hvis, if_true]
        refine ih h acc rest visited hN hF hT ?_
        simp only [List.length_cons] at hfuel
        omega
      · have hvis2 : visited.contains i = false := by simpa using hvis
        cases hga : getNodeAddr h i with
        | none =>
          simp only [hvis2, Bool.false_eq_true, if_false, hga]
          refine ih h acc rest visited hN hF hT ?_
          simp only [List.length_cons] at hfuel
          omega
        | some a =>
          cases hhg : heapGet h a with
          | none =>
            simp only [hvis2, Bool.false_eq_true, if_false, hga, hhg]
            refine ih h acc rest visited hN hF hT ?_
            simp only [List.length_cons] at hfuel
            omega
          | some r =>
            rcases hout : visit h acc a r ctx with ⟨h1, acc1, ctx1, skipC, stop⟩
            have hsh := hshape h acc a r ctx
            rw [hout] at hsh
            have hN1 : h1.nodes = g.nodes := by rw [hsh.1, hN]
            have hF1 : h1.fromEdges = g.fromEdges := by rw [hsh.2.1, hF]
            have hT1 : h1.toEdges = g.toEdges := by rw [hsh.2.2, hT]
            have hga2 : getNodeAddr g i = some a := by
              unfold getNodeAddr at hga ⊢
              rw [← hN]
              exact hga
            have hmemI : i ∈ idsFinset g := getNodeAddr_mem_ids hga2
            have hnotv : i ∉ visited.toFinset := by
              rw [List.mem_toFinset]
              simpa using hvis
            have hmemf : i ∈ idsFinset g \ visited.toFinset :=
              Finset.mem_sdiff.mpr ⟨hmemI, hnotv⟩
            have hcardpos : 0 < (idsFinset g \ visited.toFinset).card :=
              Finset.card_pos.mpr ⟨i, hmemf⟩
            have hsd : idsFinset g \ (i :: visited).toFinset
                = (idsFinset g \ visited.toFinset).erase i := by
              rw [List.toFinset_cons]
              exact Finset.sdiff_insert _ _ _
            have hcard : (idsFinset g \ (i :: visited).toFinset).card
                = (idsFinset g \ visited.toFinset).card - 1 := by
              rw [hsd, Finset.card_erase_of_mem hmemf]
            cases stop with
            | true =>
              simp only [hvis2, Bool.false_eq_true, if_false, if_true, hga,
                hhg, hout]
              simp
            | false =>
              cases skipC with
              | true =>
                simp only [hvis2, Bool.false_eq_true, Bool.true_eq_false,
                  if_false, if_true, hga, hhg, hout]
                refine ih h1 acc1 rest (i :: visited) hN1 hF1 hT1 ?_
                have hmle : (1 + D) * ((idsFinset g \ (i :: visited).toFinset).card)
                    ≤ (1 + D) * ((idsFinset g \ visited.toFinset).card) := by
                  refine Nat.mul_le_mul_left _ ?_
                  omega
                simp only [List.length_cons] at hfuel
                omega
              | false =>
                simp only [hvis2, Bool.false_eq_true, Bool.true_eq_false,
                  if_false, if_true, hga, hhg, hout]
                refine ih h1 acc1 _ (i :: visited) hN1 hF1 hT1 ?_
                have hdeg : (nbrs h1 i).length ≤ D := hnbrs h1 i hN1 hF1 hT1
                have hcardeq : (idsFinset g \ visited.toFinset).card
                    = (idsFinset g \ (i :: visited).toFinset).card + 1 := by
                  omega
                have hXeq : (1 + D) * ((idsFinset g \ visited.toFinset).card)
                    = (1 + D) * ((idsFinset g \ (i :: visited).toFinset).card)
                      + (1 + D) := by
                  rw [hcardeq]
                  exact Nat.mul_succ _ _
                simp only [List.length_cons, List.length_append,
                  List.length_map] at hfuel ⊢
                omega

theorem travFuel_big (g : AGraph) (D : Nat) :
    1 + (1 + D) * (idsFinset g \ ([] : List String).toFinset).card + 1
      ≤ travFuel g D := by
  have hcard : (idsFinset g \ ([] : List String).toFinset).card
      ≤ g.nodes.length := by
    rw [List.toFinset_nil, Finset.sdiff_empty]
    calc (idsFinset g).card ≤ (g.nodes.map Prod.fst).length :=
          List.toFinset_card_le _
      _ = g.nodes.length := List.length_map _ _
  have hmul : (1 + D) * (idsFinset g \ ([] : List String).toFinset).card
      ≤ (1 + D) * g.nodes.length := Nat.mul_le_mul_left _ hcard
  unfold travFuel
  have hexp : (1 + D) * (1 + g.nodes.length)
      = (1 + D) + (1 + D) * g.nodes.length := by
    rw [Nat.mul_add, Nat.mul_one]
  omega

theorem traverse_unfold {α κ : Type} (g : AGraph) (visit : Visitor α κ)
    (acc0 : α) (start : Option String) :
    traverse g visit acc0 start =
      match start.orElse (fun _ => g.rootNodeId) with
      | none => some (g, acc0, [])
      | some s => travGo childrenOf visit (travFuel g (maxOutDegree g)) g acc0
          [(s, none)] [] := rfl

/-- C8: on a graph with a directed edge cycle, the descendant traversal, the
asset-filtered traversal and the ancestor walk behind
`getIncomingDependencies` all complete within the canonical fuel (so the
cycle does not make them diverge), and the visit order of each walk is
duplicate-free — every reachable node is visited at most once.  The visitor
hypotheses say the visitor does not edit the node map or the edges, which
holds for every read-side visitor. -/
theorem c8_cycle_safety :
    (∀ (g : AGraph) (α κ : Type) (visit : Visitor α κ) (acc0 : α)
        (start : Option String) (i0 : String) (p : List String),
        hasDirectedCycle g i0 p = true →
        (∀ h acc a r ctx, (visit h acc a r ctx).1.nodes = h.nodes ∧
          (visit h acc a r ctx).1.fromEdges = h.fromEdges ∧
          (visit h acc a r ctx).1.toEdges = h.toEdges) →
        ∃ res, traverse g visit acc0 start = some res ∧ res.2.2.Nodup) ∧
    (∀ (g : AGraph) (α κ : Type)
        (visit : AGraph → α → AssetValue → Option κ →
          AGraph × α × Option κ × Bool × Bool) (acc0 : α)
        (start : Option String) (i0 : String) (p : List String),
        hasDirectedCycle g i0 p = true →
        (∀ h acc b ctx, (visit h acc b ctx).1.nodes = h.nodes ∧
          (visit h acc b ctx).1.fromEdges = h.fromEdges ∧
          (visit h acc b ctx).1.toEdges = h.toEdges) →
        ∃ res, traverseAssets g visit acc0 start = some res ∧
          res.2.2.Nodup) ∧
    (∀ (g : AGraph) (asset : AssetValue) (i0 : String) (p : List String),
        hasDirectedCycle g i0 p = true →
        (ancestorOrder g asset.id).Nodup ∧
        ∃ res, traverseAncestors g
            (fun h acc _ r _ =>
              (h, if (fun r2 => r2.ntype == NType.dependency) r then
                acc ++ [r.id] else acc, (none : Option Unit), false, false))
            ([] : List String) asset.id = some res ∧ res.2.2.Nodup) := by
  have hadeq : ∀ (g : AGraph) (α κ : Type) (visit : Visitor α κ) (acc0 : α)
      (s : String),
      (∀ h acc a r ctx, (visit h acc a r ctx).1.nodes = h.nodes ∧
        (visit h acc a r ctx).1.fromEdges = h.fromEdges ∧
        (visit h acc a r ctx).1.toEdges = h.toEdges) →
      ∃ res, travGo childrenOf visit (travFuel g (maxOutDegree g)) g acc0
        [(s, none)] [] = some res ∧ res.2.2.Nodup := by
    intro g α κ visit acc0 s hshape
    have hne := travGo_adequate g childrenOf visit (maxOutDegree g) hshape
      (fun h i hN hF hT => by
        have : childrenOf h i = childrenOf g i := by
          unfold childrenOf
          rw [hF]
        rw [this]
        exact childrenOf_length_le g i)
      (travFuel g (maxOutDegree g)) g acc0 [(s, none)] [] rfl rfl rfl
      (by
        have := travFuel_big g (maxOutDegree g)
        simpa using this)
    cases hres : travGo childrenOf visit (travFuel g (maxOutDegree g)) g acc0
        [(s, none)] [] with
    | none => exact absurd hres hne
    | some res =>
      exact ⟨res, rfl, travGo_order_nodup childrenOf visit _ _ _ _ _ res
        List.nodup_nil hres⟩
  have hadeqA : ∀ (g : AGraph) (α κ : Type) (visit : Visitor α κ) (acc0 : α)
      (s : String),
      (∀ h acc a r ctx, (visit h acc a r ctx).1.nodes = h.nodes ∧
        (visit h acc a r ctx).1.fromEdges = h.fromEdges ∧
        (visit h acc a r ctx).1.toEdges = h.toEdges) →
      ∃ res, travGo parentsOf visit (travFuel g (maxInDegree g)) g acc0
        [(s, none)] [] = some res ∧ res.2.2.Nodup := by
    intro g α κ visit acc0 s hshape
    have hne := travGo_adequate g parentsOf visit (maxInDegree g) hshape
      (fun h i hN hF hT => by
        have : parentsOf h i = parentsOf g i := by
          unfold parentsOf
          rw [hT]
        rw [this]
        exact parentsOf_length_le g i)
      (travFuel g (maxInDegree g)) g acc0 [(s, none)] [] rfl rfl rfl
      (by
        have := travFuel_big g (maxInDegree g)
        simpa using this)
    cases hres : travGo parentsOf visit (travFuel g (maxInDegree g)) g acc0
        [(s, none)] [] with
    | none => exact absurd hres hne
    | some res =>
      exact ⟨res, rfl, travGo_order_nodup parentsOf visit _ _ _ _ _ res
        List.nodup_nil hres⟩
  refine ⟨?_, ?_, ?_⟩
  · intro g α κ visit acc0 start i0 p hcyc hshape
    rw [traverse_unfold]
    cases horelse : start.orElse (fun _ => g.rootNodeId) with
    | none => exact ⟨(g, acc0, []), rfl, List.nodup_nil⟩
    | some s => exact hadeq g α κ visit acc0 s hshape
  · intro g α κ visit acc0 start i0 p hcyc hshape
    unfold traverseAssets filteredTraverse
    rw [traverse_unfold]
    cases horelse : start.orElse (fun _ => g.rootNodeId) with
    | none => exact ⟨(g, acc0, []), rfl, List.nodup_nil⟩
    | some s =>
      refine hadeq g α κ _ acc0 s ?_
      intro h acc a r ctx
      dsimp only
      cases hm : (if r.ntype == NType.asset then r.assetValue else none) with
      | none => exact ⟨rfl, rfl, rfl⟩
      | some b => exact hshape h acc b ctx
  · intro g asset i0 p hcyc
    constructor
    · unfold ancestorOrder traverseAncestors
      rcases hadeqA g Unit Unit
          (fun h acc _ _ _ => (h, acc, (none : Option Unit), false, false)) ()
          asset.id (fun h acc a r ctx => ⟨rfl, rfl, rfl⟩) with ⟨res, hres, hnd⟩
      rw [hres]
      exact hnd
    · unfold traverseAncestors
      exact hadeqA g (List String) Unit
        (fun h acc _ r _ =>
          (h, if (fun r2 => r2.ntype == NType.dependency) r then
            acc ++ [r.id] else acc, (none : Option Unit), false, false))
        [] asset.id
        (fun h acc a r ctx => ⟨rfl, rfl, rfl⟩)

/-- C8 witness: the concrete two-asset cycle A1 -> D1 -> G1 -> A2 -> D2 -> G2
-> A1 is a directed cycle, and on it the descendant traversal, the
asset-filtered traversal and the ancestor walk all return a result whose
visit order is duplicate-free. -/
theorem c8_cycle_safety_witness :
    hasDirectedCycle fixCycle "A1" ["D1", "G1", "A2", "D2", "G2", "A1"]
      = true ∧
    (∃ res, traverse fixCycle
        (fun h acc _ _ _ => (h, acc, (none : Option Unit), false, false))
        () none = some res ∧ res.2.2.Nodup) ∧
    (∃ res, traverseAssets fixCycle
        (fun h acc _ _ => (h, acc, (none : Option Unit), false, false))
        () none = some res ∧ res.2.2.Nodup) ∧
    (ancestorOrder fixCycle cycAsset1.id).Nodup ∧
    (∃ res, traverseAncestors fixCycle
        (fun h acc _ r _ =>
          (h, if (fun r2 => r2.ntype == NType.dependency) r then
            acc ++ [r.id] else acc, (none : Option Unit), false, false))
        ([] : List String) cycAsset1.id = some res ∧ res.2.2.Nodup) :=
  ⟨by decide,
   c8_cycle_safety.1 fixCycle Unit Unit _ () none "A1"
     ["D1", "G1", "A2", "D2", "G2", "A1"] (by decide)
     (fun h acc a r ctx => ⟨rfl, rfl, rfl⟩),
   c8_cycle_safety.2.1 fixCycle Unit Unit _ () none "A1"
     ["D1", "G1", "A2", "D2", "G2", "A1"] (by decide)
     (fun h acc b ctx => ⟨rfl, rfl, rfl⟩),
   (c8_cycle_safety.2.2 fixCycle cycAsset1 "A1"
     ["D1", "G1", "A2", "D2", "G2", "A1"] (by decide)).1,
   (c8_cycle_safety.2.2 fixCycle cycAsset1 "A1"
     ["D1", "G1", "A2", "D2", "G2", "A1"] (by decide)).2⟩

theorem travGo_order_prefix {α κ : Type}
    (nbrs : AGraph → String → List String) (visit : Visitor α κ) :
    ∀ (n : Nat) (h : AGraph) (acc : α) (stack : List (String × Option κ))
      (visited : List String) (res : AGraph × α × List String),
      travGo nbrs visit n h acc stack visited = some res →
      ∃ new, res.2.2 = visited.reverse ++ new := by
  intro n
  induction n with
  | zero =>
    intro h acc stack visited res hrun
    simp [travGo] at hrun
  | succ n ih =>
    intro h acc stack visited res hrun
    match stack with
    | [] =>
      simp [travGo] at hrun
      subst hrun
      exact ⟨[], by simp⟩
    | (i, ctx) :: rest =>
      rw [travGo] at hrun
      by_cases hvis : visited.contains i = true
      · simp only [hvis, if_true] at hrun
        exact ih h acc rest visited res hrun
      · have hvis2 : visited.contains i = false := by simpa using hvis
        cases hga : getNodeAddr h i with
        | none =>
          simp only [hvis2, Bool.false_eq_true, if_false, hga] at hrun
          exact ih h acc rest visited res hrun
        | some a =>
          cases hhg : heapGet h a with
          | none =>
            simp only [hvis2, Bool.false_eq_true, if_false, hga, hhg] at hrun
            exact ih h acc rest visited res hrun
          | some r =>
            rcases hout : visit h acc a r ctx with ⟨h1, acc1, ctx1, skipC, stop⟩
            cases stop with
            | true =>
              simp only [hvis2, Bool.false_eq_true, if_false, if_true, hga,
                hhg, hout, Option.some.injEq] at hrun
              subst hrun
              exact ⟨[i], by simp⟩
            | false =>
              cases skipC with
              | true =>
                simp only [hvis2, Bool.false_eq_true, Bool.true_eq_false,
                  if_false, if_true, hga, hhg, hout] at hrun
                rcases ih h1 acc1 rest (i :: visited) res hrun with ⟨new, hnew⟩
                exact ⟨i :: new, by
                  rw [hnew]
                  simp⟩
              | false =>
                simp only [hvis2, Bool.false_eq_true, Bool.true_eq_false,
                  if_false, if_true, hga, hhg, hout] at hrun
                rcases ih h1 acc1 _ (i :: visited) res hrun with ⟨new, hnew⟩
                exact ⟨i :: new, by
                  rw [hnew]
                  simp⟩

theorem travGo_pure_fold {α : Type} (nbrs : AGraph → String → List String)
    (f : α → NodeRec → α) :
    ∀ (n : Nat) (g : AGraph) (a : α) (stack : List (String × Option Unit))
      (visited : List String),
      travGo nbrs
        (fun h acc _ r _ => (h, f acc r, (none : Option Unit), false, false))
        n g a stack visited
      = (travGo nbrs
          (fun h acc _ _ _ => (h, acc, (none : Option Unit), false, false))
          n g () stack visited).map
          (fun out =>
            (out.1, (out.2.2.drop visited.length).foldl (foldNode f g) a,
             out.2.2)) := by
  intro n
  induction n with
  | zero => intro g a stack visited; rfl
  | succ n ih =>
    intro g a stack visited
    match stack with
    | [] =>
      have hd : visited.reverse.drop visited.length = ([] : List String) := by
        rw [← List.length_reverse]
        exact List.drop_length _
      simp [travGo, hd]
    | (i, ctx) :: rest =>
      conv_lhs => rw [travGo]
      conv_rhs => rw [travGo]
      by_cases hvis : visited.contains i = true
      · simp only [hvis, if_true]
        exact ih g a rest visited
      · have hvis2 : visited.contains i = false := by simpa using hvis
        cases hga : getNodeAddr g i with
        | none =>
          simp only [hvis2, Bool.false_eq_true, if_false, hga]
          exact ih g a rest visited
        | some ad =>
          cases hhg : heapGet g ad with
          | none =>
            simp only [hvis2, Bool.false_eq_true, if_false, hga, hhg]
            exact ih g a rest visited
          | some r =>
            simp only [hvis2, Bool.false_eq_true, if_false, hga, hhg]
            rw [ih g (f a r) ((nbrs g i).map (fun c => (c, none)) ++ rest)
              (i :: visited)]
            cases htr : travGo nbrs
                (fun h acc _ _ _ =>
                  (h, acc, (none : Option Unit), false, false))
                n g () ((nbrs g i).map (fun c => (c, none)) ++ rest)
                (i :: visited) with
            | none => rfl
            | some out =>
              rcases travGo_order_prefix nbrs _ n g ()
                  ((nbrs g i).map (fun c => (c, none)) ++ rest)
                  (i :: visited) out htr with ⟨new, hnew⟩
              simp only [Option.map]
              have hdrop1 : out.2.2.drop (i :: visited).length = new := by
                rw [hnew]
                have : (i :: visited).reverse.length = (i :: visited).length := 
                  List.length_reverse _
                rw [← this]
                exact List.drop_left _ _
              have hdrop0 : out.2.2.drop visited.length = i :: new := by
                rw [hnew, List.reverse_cons, List.append_assoc]
                have : visited.reverse.length = visited.length :=
                  List.length_reverse _
                rw [← this]
                exact List.drop_left _ _
              have hfn : foldNode f g a i = f a r := by
                unfold foldNode getNode
                rw [hga]
                simp [hhg]
              rw [hdrop1, hdrop0]
              simp [List.foldl_cons, hfn]

theorem travGo_triv_complete (g : AGraph) (s : String) :
    ∃ res, travGo childrenOf
      (fun h acc _ _ _ => (h, acc, (none : Option Unit), false, false))
      (travFuel g (maxOutDegree g)) g () [(s, none)] [] = some res := by
  have hne := travGo_adequate g childrenOf
    (fun h acc _ _ _ => (h, acc, (none : Option Unit), false, false))
    (maxOutDegree g) (fun h acc a r ctx => ⟨rfl, rfl, rfl⟩)
    (fun h i hN hF hT => by
      have heq : childrenOf h i = childrenOf g i := by
        unfold childrenOf
        rw [hF]
      rw [heq]
      exact childrenOf_length_le g i)
    (travFuel g (maxOutDegree g)) g () [(s, none)] [] rfl rfl rfl
    (by
      have := travFuel_big g (maxOutDegree g)
      simpa using this)
  cases hres : travGo childrenOf
      (fun h acc _ _ _ => (h, acc, (none : Option Unit), false, false))
      (travFuel g (maxOutDegree g)) g () [(s, none)] [] with
  | none => exact absurd hres hne
  | some res => exact ⟨res, rfl⟩

theorem specHashUpdates_as_foldNode (g : AGraph) :
    specHashUpdates g
      = (visitOrder g none).foldl (foldNode hashUpdateStep g)
          (Except.ok []) := by
  unfold specHashUpdates
  apply List.foldl_ext
  intro acc i hi
  unfold foldNode hashUpdateStep
  cases acc with
  | error e => cases getNode g i <;> rfl
  | ok us =>
    cases hgn : getNode g i with
    | none => rfl
    | some r =>
      cases hr : r.ntype <;> simp [hr]

/-- C9: when no hash is cached, `getHash` computes its digest by the
root-down descendant traversal in current edge order, folding in, for every
visited node, exactly the asset's output content hash when the node is an
asset and the serialized target descriptor when the node is a dependency
carrying a target, ignoring all other node kinds (a visited asset without an
output hash is the thrown `nullthrows`); it returns the digest of that
update sequence and caches it on the graph it returns. -/
theorem c9_getHash_characterization (g : AGraph) (h0 : g.hash = none) :
    getHash g
      = match specHashUpdates g with
        | Except.error e => Except.error e
        | Except.ok us =>
            Except.ok (mdigest us, { g with hash := some (mdigest us) }) := by
  have horelse : (none : Option String).orElse (fun _ => g.rootNodeId)
      = g.rootNodeId := by
    cases g.rootNodeId <;> rfl
  simp only [getHash, h0]
  rw [traverse_unfold, horelse]
  generalize hR : (match specHashUpdates g with
    | Except.error e => Except.error e
    | Except.ok us =>
        Except.ok (mdigest us, { g with hash := some (mdigest us) })) = R
  cases hr : g.rootNodeId with
  | none =>
    have hspec : specHashUpdates g = Except.ok [] := by
      rw [specHashUpdates_as_foldNode]
      unfold visitOrder
      rw [traverse_unfold, horelse, hr]
      rfl
    rw [← hR, hspec]
  | some s =>
    dsimp only
    rcases travGo_triv_complete g s with ⟨out, hout⟩
    have hg1 : out.1 = g :=
      travGo_pres (fun h => h = g) childrenOf
        (fun h acc _ _ _ => (h, acc, (none : Option Unit), false, false))
        (fun h acc a r ctx hP _ => hP)
        (travFuel g (maxOutDegree g)) g () [(s, none)] [] out rfl hout
    have hvo : visitOrder g none = out.2.2 := by
      unfold visitOrder
      rw [traverse_unfold, horelse, hr]
      dsimp only
      rw [hout]
    rw [← hR, travGo_pure_fold childrenOf hashUpdateStep, hout]
    rw [specHashUpdates_as_foldNode, hvo]
    simp only [Option.map, List.length_nil, List.drop_zero]
    rw [hg1]

/-- C9 witness: the concrete cycle fixture has no cached hash, and on it
`getHash` returns exactly the digest of the spec-side update sequence and
caches it. -/
theorem c9_getHash_characterization_witness :
    fixCycle.hash = none ∧
    getHash fixCycle
      = match specHashUpdates fixCycle with
        | Except.error e => Except.error e
        | Except.ok us =>
            Except.ok
              (mdigest us, { fixCycle with hash := some (mdigest us) }) :=
  ⟨rfl, c9_getHash_characterization fixCycle rfl⟩

theorem heapSet_id {g : AGraph} {a : Addr} {r : NodeRec}
    (h : heapGet g a = some r) (b : Addr) :
    heapGet (heapSet g a r) b = heapGet g b := by
  by_cases hab : b = a
  · subst hab
    rw [heapGet_heapSet_self r h, h]
  · exact heapGet_heapSet_ne r hab

theorem heapSet_keys (g : AGraph) (a : Addr) (r : NodeRec) :
    (heapSet g a r).heap.map Prod.fst = g.heap.map Prod.fst := by
  unfold heapSet
  rw [List.map_map]
  apply List.map_congr_left
  intro p hp
  by_cases hpa : p.1 = a
  · simp [Function.comp, hpa]
  · simp [Function.comp, hpa]

theorem alloc_nodes (g : AGraph) (r : NodeRec) :
    (alloc g r).2.nodes = g.nodes := rfl

theorem alloc_fromEdges (g : AGraph) (r : NodeRec) :
    (alloc g r).2.fromEdges = g.fromEdges := rfl

theorem alloc_toEdges (g : AGraph) (r : NodeRec) :
    (alloc g r).2.toEdges = g.toEdges := rfl

theorem alloc_nextAddr (g : AGraph) (r : NodeRec) :
    (alloc g r).2.nextAddr = g.nextAddr + 1 := rfl

theorem alloc_fst (g : AGraph) (r : NodeRec) :
    (alloc g r).1 = g.nextAddr := rfl

theorem alloc_heap (g : AGraph) (r : NodeRec) :
    (alloc g r).2.heap = g.heap ++ [(g.nextAddr, r)] := rfl

theorem find_append_high (l l2 : List (Addr × NodeRec)) (b : Addr)
    (hkeys : ∀ q ∈ l2, b < q.1) :
    (l ++ l2).find? (fun p => p.1 == b) = l.find? (fun p => p.1 == b) := by
  induction l with
  | nil =>
    simp only [List.nil_append, List.find?_nil]
    rw [List.find?_eq_none]
    intro q hq
    have hlt := hkeys q hq
    simp
    exact Nat.ne_of_gt hlt
  | cons p t ih =>
    rw [List.cons_append, List.find?_cons, List.find?_cons]
    cases hp : (p.1 == b) with
    | true => rfl
    | false => exact ih

theorem heapGet_alloc_lt {g : AGraph} {b : Addr} (r : NodeRec)
    (hb : b < g.nextAddr) :
    heapGet (alloc g r).2 b = heapGet g b := by
  unfold heapGet
  show ((g.heap ++ [(g.nextAddr, r)]).find? (fun p => p.1 == b)).map (·.2)
    = (g.heap.find? (fun p => p.1 == b)).map (·.2)
  rw [find_append_high]
  intro q hq
  simp only [List.mem_singleton] at hq
  subst hq
  exact hb

theorem SameView_refl (g : AGraph) (hs : AddrSane g) : SameView g g :=
  ⟨rfl, rfl, rfl, fun _ _ => rfl, le_refl _, hs.2⟩

theorem SameView_trans {g h k : AGraph} (h1 : SameView g h)
    (h2 : SameView h k) : SameView g k := by
  obtain ⟨a1, b1, c1, d1, e1, f1⟩ := h1
  obtain ⟨a2, b2, c2, d2, e2, f2⟩ := h2
  refine ⟨a2.trans a1, b2.trans b1, c2.trans c1, ?_, le_trans e1 e2, f2⟩
  intro p hp
  have hp2 : p ∈ h.nodes := by rw [a1]; exact hp
  exact (d2 p hp2).trans (d1 p hp)

theorem SameView_obs {g h : AGraph} (hv : SameView g h) : ObsEq g h :=
  ⟨hv.1, hv.2.1, hv.2.2.1, hv.2.2.2.1⟩

theorem SameView_heapSet_id {g h : AGraph} {a : Addr} {r : NodeRec}
    (hv : SameView g h) (hr : heapGet h a = some r) :
    SameView g (heapSet h a r) := by
  obtain ⟨a1, b1, c1, d1, e1, f1⟩ := hv
  refine ⟨a1, b1, c1, ?_, e1, ?_⟩
  · intro p hp
    rw [heapSet_id hr]
    exact d1 p hp
  · intro q hq
    have hk : q.1 ∈ (heapSet h a r).heap.map Prod.fst :=
      List.mem_map_of_mem _ hq
    rw [heapSet_keys] at hk
    rcases List.mem_map.mp hk with ⟨q0, hq0, hq0k⟩
    have hlt := f1 q0 hq0
    show q.1 < h.nextAddr
    rw [← hq0k]
    exact hlt

theorem SameView_heapSet_unbound {g h : AGraph} {a : Addr} (r : NodeRec)
    (hv : SameView g h) (ha : ∀ p ∈ g.nodes, p.2 ≠ a) :
    SameView g (heapSet h a r) := by
  obtain ⟨a1, b1, c1, d1, e1, f1⟩ := hv
  refine ⟨a1, b1, c1, ?_, e1, ?_⟩
  · intro p hp
    rw [heapGet_heapSet_ne r (ha p hp)]
    exact d1 p hp
  · intro q hq
    have hk : q.1 ∈ (heapSet h a r).heap.map Prod.fst :=
      List.mem_map_of_mem _ hq
    rw [heapSet_keys] at hk
    rcases List.mem_map.mp hk with ⟨q0, hq0, hq0k⟩
    have hlt := f1 q0 hq0
    show q.1 < h.nextAddr
    rw [← hq0k]
    exact hlt

theorem SameView_alloc {g h : AGraph} (r : NodeRec) (hg : AddrSane g)
    (hv : SameView g h) : SameView g (alloc h r).2 := by
  obtain ⟨a1, b1, c1, d1, e1, f1⟩ := hv
  refine ⟨a1, b1, c1, ?_, ?_, ?_⟩
  · intro p hp
    have hlt : p.2 < h.nextAddr := lt_of_lt_of_le (hg.1 p hp) e1
    rw [heapGet_alloc_lt r hlt]
    exact d1 p hp
  · rw [alloc_nextAddr]
    exact le_trans e1 (Nat.le_succ _)
  · intro q hq
    rw [alloc_heap] at hq
    rw [alloc_nextAddr]
    rcases List.mem_append.mp hq with hq | hq
    · exact Nat.lt_succ_of_lt (f1 q hq)
    · simp only [List.mem_singleton] at hq
      subst hq
      exact Nat.lt_succ_self _

theorem stamp_noop (r : NodeRec) (q : String)
    (h : r.correspondingRequest = some q) :
    ({ r with correspondingRequest := some q } : NodeRec) = r := by
  rw [← h]

theorem getNodeAddr_congr {g h : AGraph} (hn : h.nodes = g.nodes)
    (i : String) : getNodeAddr h i = getNodeAddr g i := by
  unfold getNodeAddr
  rw [hn]

theorem childrenOf_congr {g h : AGraph} (hf : h.fromEdges = g.fromEdges)
    (i : String) : childrenOf h i = childrenOf g i := by
  unfold childrenOf
  rw [hf]

theorem parentsOf_congr {g h : AGraph} (ht : h.toEdges = g.toEdges)
    (i : String) : parentsOf h i = parentsOf g i := by
  unfold parentsOf
  rw [ht]

theorem hasNode_congr {g h : AGraph} (hn : h.nodes = g.nodes)
    (i : String) : hasNode h i = hasNode g i := by
  unfold hasNode
  rw [getNodeAddr_congr hn]

theorem hasEdge_congr {g h : AGraph} (hf : h.fromEdges = g.fromEdges)
    (p c : String) : hasEdge h p c = hasEdge g p c := by
  unfold hasEdge
  rw [childrenOf_congr hf]

theorem getNodeAddr_bound {g : AGraph} {i : String} {a : Addr}
    (h : getNodeAddr g i = some a) : ∃ p ∈ g.nodes, p.2 = a := by
  unfold getNodeAddr at h
  cases hf : g.nodes.find? (fun p => p.1 == i) with
  | none => rw [hf] at h; simp at h
  | some p =>
    rw [hf] at h
    simp at h
    exact ⟨p, List.mem_of_find?_eq_some hf, h⟩

theorem getNode_congr {g h : AGraph} (hv : SameView g h) (i : String) :
    getNode h i = getNode g i := by
  unfold getNode
  rw [getNodeAddr_congr hv.1]
  cases hga : getNodeAddr g i with
  | none => rfl
  | some a =>
    rcases getNodeAddr_bound hga with ⟨p, hp, hpa⟩
    subst hpa
    exact hv.2.2.2.1 p hp

theorem foldl_fix {α β : Type} (f : α → β → α) (l : List β) (a : α)
    (h : ∀ b ∈ l, f a b = a) : l.foldl f a = a := by
  induction l with
  | nil => rfl
  | cons b t ih =>
    rw [List.foldl_cons, h b (List.mem_cons_self b t)]
    exact ih (fun c hc => h c (List.mem_cons_of_mem _ hc))

theorem replace_noop (g : AGraph) (parentId : String) (children : List Addr)
    (hids : ∀ a ∈ children, ∃ r, heapGet g a = some r ∧
      hasNode g r.id = true ∧ hasEdge g parentId r.id = true)
    (hsub : ∀ c ∈ childrenOf g parentId,
      (children.filterMap (fun a => (heapGet g a).map (·.id))).contains c
        = true) :
    replaceNodesConnectedTo g parentId children = g := by
  unfold replaceNodesConnectedTo
  dsimp only
  have hadd : children.foldl
      (fun h a =>
        match heapGet h a with
        | none => h
        | some r =>
            let h1 := if hasNode h r.id then h else addNode h a
            if hasEdge h1 parentId r.id then h1
            else addEdge h1 parentId r.id) g = g := by
    apply foldl_fix
    intro a ha
    rcases hids a ha with ⟨r, hr, hn, he⟩
    simp [hr, hn, he]
  rw [hadd]
  have hstale : (childrenOf g parentId).filter
      (fun c => !((children.filterMap
        (fun a => (heapGet g a).map (·.id))).contains c)) = [] := by
    rw [List.filter_eq_nil_iff]
    intro c hc
    have hcon := hsub c hc
    simp only [hcon, Bool.not_true]
    exact Bool.false_ne_true
  rw [hstale]
  rfl

theorem find_append_at (l : List (Addr × NodeRec)) (b : Addr) (r : NodeRec)
    (hk : ∀ q ∈ l, q.1 < b) :
    (l ++ [(b, r)]).find? (fun p => p.1 == b) = some (b, r) := by
  induction l with
  | nil => simp [List.find?]
  | cons p t ih =>
    rw [List.cons_append, List.find?_cons]
    have hlt := hk p (List.mem_cons_self p t)
    have hne : (p.1 == b) = false := by
      simp only [beq_eq_false_iff_ne]
      exact Nat.ne_of_lt hlt
    rw [hne]
    exact ih (fun q hq => hk q (List.mem_cons_of_mem _ hq))

theorem heapGet_alloc_self (g : AGraph) (r : NodeRec)
    (hs : ∀ q ∈ g.heap, q.1 < g.nextAddr) :
    heapGet (alloc g r).2 g.nextAddr = some r := by
  unfold heapGet
  show ((g.heap ++ [(g.nextAddr, r)]).find?
    (fun p => p.1 == g.nextAddr)).map (·.2) = some r
  rw [find_append_at g.heap g.nextAddr r hs]
  rfl

theorem allocFold_nodes {β : Type} (F : β → NodeRec) :
    ∀ (ns : List β) (as0 : List Addr) (h : AGraph),
      (allocFold F ns (as0, h)).2.nodes = h.nodes := by
  intro ns
  induction ns with
  | nil => intro as0 h; rfl
  | cons x t ih => intro as0 h; exact ih (as0 ++ [h.nextAddr]) _

theorem allocFold_fromEdges {β : Type} (F : β → NodeRec) :
    ∀ (ns : List β) (as0 : List Addr) (h : AGraph),
      (allocFold F ns (as0, h)).2.fromEdges = h.fromEdges := by
  intro ns
  induction ns with
  | nil => intro as0 h; rfl
  | cons x t ih => intro as0 h; exact ih (as0 ++ [h.nextAddr]) _

theorem allocFold_toEdges {β : Type} (F : β → NodeRec) :
    ∀ (ns : List β) (as0 : List Addr) (h : AGraph),
      (allocFold F ns (as0, h)).2.toEdges = h.toEdges := by
  intro ns
  induction ns with
  | nil => intro as0 h; rfl
  | cons x t ih => intro as0 h; exact ih (as0 ++ [h.nextAddr]) _

theorem alloc_sane (g : AGraph) (r : NodeRec)
    (hs : ∀ q ∈ g.heap, q.1 < g.nextAddr) :
    ∀ q ∈ (alloc g r).2.heap, q.1 < (alloc g r).2.nextAddr := by
  intro q hq
  rw [alloc_heap] at hq
  rw [alloc_nextAddr]
  rcases List.mem_append.mp hq with hq | hq
  · exact Nat.lt_succ_of_lt (hs q hq)
  · simp only [List.mem_singleton] at hq
    subst hq
    exact Nat.lt_succ_self _

theorem allocFold_nextAddr_le {β : Type} (F : β → NodeRec) :
    ∀ (ns : List β) (as0 : List Addr) (h : AGraph),
      h.nextAddr ≤ (allocFold F ns (as0, h)).2.nextAddr := by
  intro ns
  induction ns with
  | nil => intro as0 h; exact le_refl _
  | cons x t ih =>
    intro as0 h
    have := ih (as0 ++ [h.nextAddr]) (alloc h (F x)).2
    rw [alloc_nextAddr] at this
    exact le_trans (Nat.le_succ _) this

theorem allocFold_sane {β : Type} (F : β → NodeRec) :
    ∀ (ns : List β) (as0 : List Addr) (h : AGraph),
      (∀ q ∈ h.heap, q.1 < h.nextAddr) →
      ∀ q ∈ (allocFold F ns (as0, h)).2.heap,
        q.1 < (allocFold F ns (as0, h)).2.nextAddr := by
  intro ns
  induction ns with
  | nil => intro as0 h hs; exact hs
  | cons x t ih =>
    intro as0 h hs
    exact ih (as0 ++ [h.nextAddr]) _ (alloc_sane h (F x) hs)

theorem allocFold_heapGet_lt {β : Type} (F : β → NodeRec) :
    ∀ (ns : List β) (as0 : List Addr) (h : AGraph) (b : Addr),
      b < h.nextAddr →
      heapGet (allocFold F ns (as0, h)).2 b = heapGet h b := by
  intro ns
  induction ns with
  | nil => intro as0 h b hb; rfl
  | cons x t ih =>
    intro as0 h b hb
    have h1 : heapGet (alloc h (F x)).2 b = heapGet h b :=
      heapGet_alloc_lt (F x) hb
    have h2 := ih (as0 ++ [h.nextAddr]) (alloc h (F x)).2 b
      (by rw [alloc_nextAddr]; exact Nat.lt_succ_of_lt hb)
    exact h2.trans h1

theorem allocFold_addr_sub {β : Type} (F : β → NodeRec) :
    ∀ (ns : List β) (as0 : List Addr) (h : AGraph) (a : Addr),
      a ∈ as0 → a ∈ (allocFold F ns (as0, h)).1 := by
  intro ns
  induction ns with
  | nil => intro as0 h a ha; exact ha
  | cons x t ih =>
    intro as0 h a ha
    exact ih (as0 ++ [h.nextAddr]) _ a (List.mem_append_left _ ha)

theorem allocFold_mem {β : Type} (F : β → NodeRec) :
    ∀ (ns : List β) (as0 : List Addr) (h : AGraph),
      (∀ q ∈ h.heap, q.1 < h.nextAddr) →
      ∀ a ∈ (allocFold F ns (as0, h)).1,
        a ∈ as0 ∨ ∃ x ∈ ns,
          heapGet (allocFold F ns (as0, h)).2 a = some (F x) := by
  intro ns
  induction ns with
  | nil => intro as0 h hs a ha; exact Or.inl ha
  | cons x t ih =>
    intro as0 h hs a ha
    rcases ih (as0 ++ [h.nextAddr]) (alloc h (F x)).2 (alloc_sane h (F x) hs)
        a ha with hin | ⟨y, hy, hget⟩
    · rcases List.mem_append.mp hin with hin | hin
      · exact Or.inl hin
      · simp only [List.mem_singleton] at hin
        subst hin
        refine Or.inr ⟨x, List.mem_cons_self x t, ?_⟩
        have hstep : heapGet (allocFold F t
            (as0 ++ [h.nextAddr], (alloc h (F x)).2)).2 h.nextAddr
            = heapGet (alloc h (F x)).2 h.nextAddr :=
          allocFold_heapGet_lt F t _ _ h.nextAddr
            (by rw [alloc_nextAddr]; exact Nat.lt_succ_self _)
        show heapGet (allocFold F t
          (as0 ++ [h.nextAddr], (alloc h (F x)).2)).2 h.nextAddr = some (F x)
        rw [hstep]
        exact heapGet_alloc_self h (F x) hs
    · exact Or.inr ⟨y, List.mem_cons_of_mem _ hy, hget⟩

theorem allocFold_covers {β : Type} (F : β → NodeRec) :
    ∀ (ns : List β) (as0 : List Addr) (h : AGraph),
      (∀ q ∈ h.heap, q.1 < h.nextAddr) →
      ∀ x ∈ ns, ∃ a ∈ (allocFold F ns (as0, h)).1,
        heapGet (allocFold F ns (as0, h)).2 a = some (F x) := by
  intro ns
  induction ns with
  | nil => intro as0 h hs x hx; exact absurd hx (List.not_mem_nil x)
  | cons y t ih =>
    intro as0 h hs x hx
    rcases List.mem_cons.mp hx with rfl | hx
    · refine ⟨h.nextAddr, ?_, ?_⟩
      · exact allocFold_addr_sub F t _ _ h.nextAddr
          (List.mem_append_right _ (List.mem_singleton.mpr rfl))
      · have hstep : heapGet (allocFold F t
            (as0 ++ [h.nextAddr], (alloc h (F x)).2)).2 h.nextAddr
            = heapGet (alloc h (F x)).2 h.nextAddr :=
          allocFold_heapGet_lt F t _ _ h.nextAddr
            (by rw [alloc_nextAddr]; exact Nat.lt_succ_self _)
        show heapGet (allocFold F t
          (as0 ++ [h.nextAddr], (alloc h (F x)).2)).2 h.nextAddr = some (F x)
        rw [hstep]
        exact heapGet_alloc_self h (F x) hs
    · exact ih (as0 ++ [h.nextAddr]) _ (alloc_sane h (F y) hs) x hx

theorem SameView_allocFold {β : Type} (F : β → NodeRec) :
    ∀ (ns : List β) (as0 : List Addr) {g h : AGraph}, AddrSane g →
      SameView g h → SameView g (allocFold F ns (as0, h)).2 := by
  intro ns
  induction ns with
  | nil => intro as0 g h hg hv; exact hv
  | cons x t ih =>
    intro as0 g h hg hv
    exact ih (as0 ++ [h.nextAddr]) hg (SameView_alloc (F x) hg hv)

theorem replace_noop_view {g1 h : AGraph} (hv : SameView g1 h)
    (parentId : String) (children : List Addr)
    (hids : ∀ a ∈ children, ∃ r, heapGet h a = some r ∧
      hasNode g1 r.id = true ∧ hasEdge g1 parentId r.id = true)
    (hsub : ∀ c ∈ childrenOf g1 parentId,
      (children.filterMap (fun a => (heapGet h a).map (·.id))).contains c
        = true) :
    replaceNodesConnectedTo h parentId children = h := by
  apply replace_noop
  · intro a ha
    rcases hids a ha with ⟨r, hr, hn, he⟩
    refine ⟨r, hr, ?_, ?_⟩
    · rw [hasNode_congr hv.1]
      exact hn
    · rw [hasEdge_congr hv.2.1]
      exact he
  · intro c hc
    rw [childrenOf_congr hv.2.1] at hc
    exact hsub c hc

theorem resolveDependency_renoop (g1 : AGraph) (dependency : DepValue)
    (assetGroup : Option AssetGroupValue) (req : String)
    (hsane : AddrSane g1)
    (hnode : ∃ a r1, getNodeAddr g1 dependency.id = some a ∧
      heapGet g1 a = some r1 ∧ r1.ntype = NType.dependency ∧
      r1.correspondingRequest = some req)
    (hgrp : ∀ grp, assetGroup = some grp →
      hasNode g1 (nodeFromAssetGroup grp).id = true ∧
      hasEdge g1 dependency.id (nodeFromAssetGroup grp).id = true ∧
      ∀ c ∈ childrenOf g1 dependency.id, c = (nodeFromAssetGroup grp).id) :
    ∃ g2, resolveDependency g1 dependency assetGroup req = Except.ok g2 ∧
      ObsEq g1 g2 := by
  obtain ⟨a, r1, hga, hgr, hnt, hcr⟩ := hnode
  unfold resolveDependency
  rw [hga]
  dsimp only
  rw [hgr]
  dsimp only
  have hbt : (r1.ntype == NType.dependency) = true := by
    rw [hnt]
    decide
  rw [hbt]
  simp only [if_true]
  rw [stamp_noop r1 req hcr]
  have hv1 : SameView g1 (heapSet g1 a r1) :=
    SameView_heapSet_id (SameView_refl g1 hsane) hgr
  cases hag : assetGroup with
  | none =>
    exact ⟨heapSet g1 a r1, rfl, SameView_obs hv1⟩
  | some grp =>
    obtain ⟨hgn, hge, hgc⟩ := hgrp grp hag
    have hv2 : SameView g1 (alloc (heapSet g1 a r1)
        (nodeFromAssetGroup grp)).2 :=
      SameView_alloc _ hsane hv1
    have hsane1 : ∀ q ∈ (heapSet g1 a r1).heap,
        q.1 < (heapSet g1 a r1).nextAddr := hv1.2.2.2.2.2
    have hget : heapGet (alloc (heapSet g1 a r1) (nodeFromAssetGroup grp)).2
        (heapSet g1 a r1).nextAddr = some (nodeFromAssetGroup grp) :=
      heapGet_alloc_self _ _ hsane1
    have hrepl : replaceNodesConnectedTo
        (alloc (heapSet g1 a r1) (nodeFromAssetGroup grp)).2 dependency.id
        [(heapSet g1 a r1).nextAddr]
        = (alloc (heapSet g1 a r1) (nodeFromAssetGroup grp)).2 := by
      apply replace_noop_view hv2
      · intro b hb
        simp only [List.mem_singleton] at hb
        subst hb
        exact ⟨nodeFromAssetGroup grp, hget, hgn, hge⟩
      · intro c hc
        have hcg := hgc c hc
        subst hcg
        simp [hget]
    refine ⟨_, ?_, SameView_obs hv2⟩
    show Except.ok (replaceNodesConnectedTo _ dependency.id
      [(heapSet g1 a r1).nextAddr]) = _
    rw [hrepl]

theorem contains_of_mem {c : String} {l : List String} (h : c ∈ l) :
    l.contains c = true := by
  simpa using h

theorem resolveEntry_renoop (g1 : AGraph) (entry : String)
    (resolved : List String) (req : String)
    (hsane : AddrSane g1)
    (hnode : ∃ a r1,
      getNodeAddr g1 ("entry_specifier:" ++ entry) = some a ∧
      heapGet g1 a = some r1 ∧ r1.ntype = NType.entry_specifier ∧
      r1.correspondingRequest = some req)
    (hres : ∀ f ∈ resolved,
      hasNode g1 (nodeFromEntryFile f).id = true ∧
      hasEdge g1 ("entry_specifier:" ++ entry) (nodeFromEntryFile f).id
        = true)
    (hchild : ∀ c ∈ childrenOf g1 ("entry_specifier:" ++ entry),
      ∃ f ∈ resolved, c = (nodeFromEntryFile f).id) :
    ∃ g2, resolveEntry g1 entry resolved req = Except.ok g2 ∧
      ObsEq g1 g2 := by
  obtain ⟨a, r1, hga, hgr, hnt, hcr⟩ := hnode
  unfold resolveEntry
  dsimp only
  rw [hga]
  dsimp only
  rw [hgr]
  dsimp only
  have hbt : (r1.ntype == NType.entry_specifier) = true := by
    rw [hnt]
    decide
  rw [hbt]
  simp only [if_true]
  rw [stamp_noop r1 req hcr]
  have hv1 : SameView g1 (heapSet g1 a r1) :=
    SameView_heapSet_id (SameView_refl g1 hsane) hgr
  have hsane1 : ∀ q ∈ (heapSet g1 a r1).heap,
      q.1 < (heapSet g1 a r1).nextAddr := hv1.2.2.2.2.2
  have hv2 : SameView g1
      (allocFold nodeFromEntryFile resolved ([], heapSet g1 a r1)).2 :=
    SameView_allocFold nodeFromEntryFile resolved [] hsane hv1
  have hrepl : replaceNodesConnectedTo
      (allocFold nodeFromEntryFile resolved ([], heapSet g1 a r1)).2
      ("entry_specifier:" ++ entry)
      (allocFold nodeFromEntryFile resolved ([], heapSet g1 a r1)).1
      = (allocFold nodeFromEntryFile resolved ([], heapSet g1 a r1)).2 := by
    apply replace_noop_view hv2
    · intro b hb
      rcases allocFold_mem nodeFromEntryFile resolved [] (heapSet g1 a r1)
          hsane1 b hb with hin | ⟨f, hf, hget⟩
      · exact absurd hin (List.not_mem_nil b)
      · exact ⟨nodeFromEntryFile f, hget, (hres f hf).1, (hres f hf).2⟩
    · intro c hc
      rcases hchild c hc with ⟨f, hf, hcf⟩
      rcases allocFold_covers nodeFromEntryFile resolved [] (heapSet g1 a r1)
          hsane1 f hf with ⟨b, hb, hget⟩
      apply contains_of_mem
      apply List.mem_filterMap.mpr
      refine ⟨b, hb, ?_⟩
      rw [hget, hcf]
      rfl
  refine ⟨(allocFold nodeFromEntryFile resolved ([], heapSet g1 a r1)).2,
    ?_, SameView_obs hv2⟩
  show Except.ok (replaceNodesConnectedTo
    (allocFold nodeFromEntryFile resolved ([], heapSet g1 a r1)).2
    ("entry_specifier:" ++ entry)
    (allocFold nodeFromEntryFile resolved ([], heapSet g1 a r1)).1) = _
  rw [hrepl]

theorem heapGet_view {g h : AGraph} (hv : SameView g h) {i : String}
    {a : Addr} (hga : getNodeAddr g i = some a) :
    heapGet h a = heapGet g a := by
  rcases getNodeAddr_bound hga with ⟨p, hp, hpa⟩
  rw [← hpa]
  exact hv.2.2.2.1 p hp

theorem resolveTargets_renoop (g1 : AGraph) (entry : String)
    (targets : List Target) (req : String)
    (hsane : AddrSane g1)
    (hnode : ∃ a r1,
      getNodeAddr g1 (nodeFromEntryFile entry).id = some a ∧
      heapGet g1 a = some r1 ∧ r1.ntype = NType.entry_file ∧
      r1.correspondingRequest = some req)
    (htars : ∀ t ∈ targets,
      hasNode g1 (createDependency entry (some t.name) (some t) true).id
        = true ∧
      hasEdge g1 (nodeFromEntryFile entry).id
        (createDependency entry (some t.name) (some t) true).id = true)
    (hchild : ∀ c ∈ childrenOf g1 (nodeFromEntryFile entry).id,
      ∃ t ∈ targets,
        c = (createDependency entry (some t.name) (some t) true).id) :
    ∃ g2, resolveTargets g1 entry targets req = Except.ok g2 ∧
      ObsEq g1 g2 := by
  obtain ⟨a, r1, hga, hgr, hnt, hcr⟩ := hnode
  have hFid : ∀ t : Target,
      ((fun t =>
        let dep := createDependency entry (some t.name) (some t) true
        let node0 := nodeFromDep dep
        if t.isLibrary then
          { node0 with usedSymbols := setAdd node0.usedSymbols "*" }
        else node0) t).id
      = (createDependency entry (some t.name) (some t) true).id := by
    intro t
    dsimp only
    cases ht : t.isLibrary <;> simp [ht, nodeFromDep]
  have hv2 : SameView g1 (allocFold
      (fun t =>
        let dep := createDependency entry (some t.name) (some t) true
        let node0 := nodeFromDep dep
        if t.isLibrary then
          { node0 with usedSymbols := setAdd node0.usedSymbols "*" }
        else node0) targets ([], g1)).2 :=
    SameView_allocFold _ targets [] hsane (SameView_refl g1 hsane)
  have hgr2 : heapGet (allocFold
      (fun t =>
        let dep := createDependency entry (some t.name) (some t) true
        let node0 := nodeFromDep dep
        if t.isLibrary then
          { node0 with usedSymbols := setAdd node0.usedSymbols "*" }
        else node0) targets ([], g1)).2 a = some r1 := by
    rw [heapGet_view hv2 hga]
    exact hgr
  unfold resolveTargets
  dsimp only
  rw [getNodeAddr_congr hv2.1, hga]
  dsimp only
  rw [hgr2]
  dsimp only
  have hbt : (r1.ntype == NType.entry_file) = true := by
    rw [hnt]
    decide
  rw [hbt]
  simp only [if_true]
  rw [stamp_noop r1 req hcr]
  have hv3 : SameView g1 (heapSet (allocFold
      (fun t =>
        let dep := createDependency entry (some t.name) (some t) true
        let node0 := nodeFromDep dep
        if t.isLibrary then
          { node0 with usedSymbols := setAdd node0.usedSymbols "*" }
        else node0) targets ([], g1)).2 a r1) :=
    SameView_heapSet_id hv2 hgr2
  have hhn : hasNode (heapSet (allocFold
      (fun t =>
        let dep := createDependency entry (some t.name) (some t) true
        let node0 := nodeFromDep dep
        if t.isLibrary then
          { node0 with usedSymbols := setAdd node0.usedSymbols "*" }
        else node0) targets ([], g1)).2 a r1)
      (nodeFromEntryFile entry).id = true := by
    rw [hasNode_congr hv3.1]
    unfold hasNode
    rw [hga]
    rfl
  rw [hhn]
  simp only [if_true]
  have hrepl : replaceNodesConnectedTo (heapSet (allocFold
      (fun t =>
        let dep := createDependency entry (some t.name) (some t) true
        let node0 := nodeFromDep dep
        if t.isLibrary then
          { node0 with usedSymbols := setAdd node0.usedSymbols "*" }
        else node0) targets ([], g1)).2 a r1)
      (nodeFromEntryFile entry).id
      (allocFold
      (fun t =>
        let dep := createDependency entry (some t.name) (some t) true
        let node0 := nodeFromDep dep
        if t.isLibrary then
          { node0 with usedSymbols := setAdd node0.usedSymbols "*" }
        else node0) targets ([], g1)).1
      = heapSet (allocFold
      (fun t =>
        let dep := createDependency entry (some t.name) (some t) true
        let node0 := nodeFromDep dep
        if t.isLibrary then
          { node0 with usedSymbols := setAdd node0.usedSymbols "*" }
        else node0) targets ([], g1)).2 a r1 := by
    apply replace_noop_view hv3
    · intro b hb
      rcases allocFold_mem _ targets [] g1 hsane.2 b hb with hin | ⟨t, ht, hget⟩
      · exact absurd hin (List.not_mem_nil b)
      · refine ⟨(fun t =>
            let dep := createDependency entry (some t.name) (some t) true
            let node0 := nodeFromDep dep
            if t.isLibrary then
              { node0 with usedSymbols := setAdd node0.usedSymbols "*" }
            else node0) t, ?_, ?_, ?_⟩
        · rw [heapSet_id hgr2]
          exact hget
        · rw [hFid t]
          exact (htars t ht).1
        · rw [hFid t]
          exact (htars t ht).2
    · intro c hc
      rcases hchild c hc with ⟨t, ht, hct⟩
      rcases allocFold_covers _ targets [] g1 hsane.2 t ht with ⟨b, hb, hget⟩
      apply contains_of_mem
      apply List.mem_filterMap.mpr
      refine ⟨b, hb, ?_⟩
      rw [heapSet_id hgr2, hget]
      rw [hct]
      rw [show (Option.map (fun x => x.id) (some ((fun t =>
        let dep := createDependency entry (some t.name) (some t) true
        let node0 := nodeFromDep dep
        if t.isLibrary then
          { node0 with usedSymbols := setAdd node0.usedSymbols "*" }
        else node0) t))) = some ((fun t =>
        let dep := createDependency entry (some t.name) (some t) true
        let node0 := nodeFromDep dep
        if t.isLibrary then
          { node0 with usedSymbols := setAdd node0.usedSymbols "*" }
        else node0) t).id from rfl]
      rw [hFid t]
  refine ⟨_, ?_, SameView_obs hv3⟩
  rw [hrepl]

theorem maxInDegree_congr {g h : AGraph} (ht : h.toEdges = g.toEdges) :
    maxInDegree h = maxInDegree g := by
  unfold maxInDegree
  rw [ht]

theorem travFuel_congr {g h : AGraph} (hn : h.nodes = g.nodes) (d : Nat) :
    travFuel h d = travFuel g d := by
  unfold travFuel
  rw [hn]

theorem travGo_fold_congr {α : Type} (f : α → NodeRec → α) {g h : AGraph}
    (hv : SameView g h) :
    ∀ (n : Nat) (a : α) (stack : List (String × Option Unit))
      (visited : List String),
      (travGo parentsOf
        (fun k acc _ r _ => (k, f acc r, (none : Option Unit), false, false))
        n h a stack visited).map (fun out => (out.2.1, out.2.2))
      = (travGo parentsOf
        (fun k acc _ r _ => (k, f acc r, (none : Option Unit), false, false))
        n g a stack visited).map (fun out => (out.2.1, out.2.2)) := by
  intro n
  induction n with
  | zero => intro a stack visited; rfl
  | succ n ih =>
    intro a stack visited
    match stack with
    | [] => rfl
    | (i, ctx) :: rest =>
      conv_lhs => rw [travGo]
      conv_rhs => rw [travGo]
      by_cases hvis : visited.contains i = true
      · simp only [hvis, if_true]
        exact ih a rest visited
      · have hvis2 : visited.contains i = false := by simpa using hvis
        simp only [hvis2, Bool.false_eq_true, if_false]
        rw [getNodeAddr_congr hv.1]
        cases hga : getNodeAddr g i with
        | none => exact ih a rest visited
        | some ad =>
          dsimp only
          rw [heapGet_view hv hga]
          cases hhg : heapGet g ad with
          | none => exact ih a rest visited
          | some r =>
            dsimp only
            rw [parentsOf_congr hv.2.2.1]
            exact ih (f a r) _ (i :: visited)

theorem findAncestors_congr {g h : AGraph} (hv : SameView g h)
    (startId : String) (pred : NodeRec → Bool) :
    findAncestors h startId pred = findAncestors g startId pred := by
  unfold findAncestors traverseAncestors
  rw [maxInDegree_congr hv.2.2.1, travFuel_congr hv.1]
  have hcong := travGo_fold_congr
    (fun acc r => if pred r then acc ++ [r.id] else acc) hv
    (travFuel g (maxInDegree g)) [] [(startId, none)] []
  cases htg : travGo parentsOf
      (fun k acc _ r _ =>
        (k, if pred r then acc ++ [r.id] else acc, (none : Option Unit),
         false, false))
      (travFuel g (maxInDegree g)) g [] [(startId, none)] [] with
  | none =>
    rw [htg] at hcong
    cases hth : travGo parentsOf
        (fun k acc _ r _ =>
          (k, if pred r then acc ++ [r.id] else acc, (none : Option Unit),
           false, false))
        (travFuel g (maxInDegree g)) h [] [(startId, none)] [] with
    | none => rfl
    | some outh =>
      rw [hth] at hcong
      simp at hcong
  | some outg =>
    rw [htg] at hcong
    cases hth : travGo parentsOf
        (fun k acc _ r _ =>
          (k, if pred r then acc ++ [r.id] else acc, (none : Option Unit),
           false, false))
        (travFuel g (maxInDegree g)) h [] [(startId, none)] [] with
    | none =>
      rw [hth] at hcong
      simp at hcong
    | some outh =>
      rw [hth] at hcong
      simp only [Option.map] at hcong
      have hacc : outh.2.1 = outg.2.1 := by
        have := congrArg (fun o => o.map Prod.fst) hcong
        simpa using this
      show outh.2.1 = outg.2.1
      exact hacc

theorem getIncomingDependencies_congr {g h : AGraph} (hv : SameView g h)
    (asset : AssetValue) :
    getIncomingDependencies h asset = getIncomingDependencies g asset := by
  unfold getIncomingDependencies
  rw [getNodeAddr_congr hv.1]
  cases hga : getNodeAddr g asset.id with
  | none => rfl
  | some a =>
    dsimp only
    rw [findAncestors_congr hv]
    apply List.filterMap_congr
    intro i hi
    rw [getNode_congr hv]

theorem fetchIncoming_congr {g h : AGraph} (hv : SameView g h) :
    ∀ (ds : List DepValue), fetchIncoming h ds = fetchIncoming g ds := by
  intro ds
  induction ds with
  | nil => rfl
  | cons d rest ih =>
    unfold fetchIncoming
    rw [getNode_congr hv]
    cases hgn : getNode g d.id with
    | none => rfl
    | some n =>
      dsimp only
      rw [ih]

theorem forall₂_imp_mem {α β : Type} {R S : α → β → Prop} :
    ∀ {l1 : List α} {l2 : List β}, List.Forall₂ R l1 l2 →
      (∀ x ∈ l1, ∀ y, R x y → S x y) → List.Forall₂ S l1 l2 := by
  intro l1 l2 h
  induction h with
  | nil => intro _; exact List.Forall₂.nil
  | cons hab ht ih =>
    intro himp
    exact List.Forall₂.cons
      (himp _ (List.mem_cons_self _ _) _ hab)
      (ih (fun x hx => himp x (List.mem_cons_of_mem _ hx)))

theorem forall₂_mem_right {α β : Type} {R : α → β → Prop} :
    ∀ {l1 : List α} {l2 : List β}, List.Forall₂ R l1 l2 →
      ∀ y ∈ l2, ∃ x ∈ l1, R x y := by
  intro l1 l2 h
  induction h with
  | nil => intro y hy; exact absurd hy (List.not_mem_nil y)
  | cons hab ht ih =>
    intro y hy
    rcases List.mem_cons.mp hy with rfl | hy
    · exact ⟨_, List.mem_cons_self _ _, hab⟩
    · rcases ih y hy with ⟨x, hx, hr⟩
      exact ⟨x, List.mem_cons_of_mem _ hx, hr⟩

theorem outgoingFold_spec (inverse : Option (List (String × String)))
    (reexported : List String) (g1 : AGraph) (assetAddr : Addr)
    (rA : NodeRec) :
    ∀ (as : List Addr) (deps : List DepValue) (au : List String)
      (k : AGraph),
      SameView g1 k →
      heapGet k assetAddr = some rA →
      assetAddr ∉ as →
      as.Nodup →
      (∀ a ∈ as, ∀ p ∈ g1.nodes, p.2 ≠ a) →
      List.Forall₂ (fun a dep => ∃ rk, heapGet k a = some rk ∧
        rk.depValue = some dep ∧
        rk.usedSymbols = (nodeFromDep dep).usedSymbols) as deps →
      (as.foldl (outgoingStep inverse reexported) (au, k)).1
        = deps.foldl (fun acc dep =>
            (runOutgoingDep inverse reexported dep acc
              (nodeFromDep dep).usedSymbols).1) au ∧
      SameView g1 (as.foldl (outgoingStep inverse reexported) (au, k)).2 ∧
      heapGet (as.foldl (outgoingStep inverse reexported) (au, k)).2 assetAddr
        = some rA ∧
      (∀ b, b ∉ as →
        heapGet (as.foldl (outgoingStep inverse reexported) (au, k)).2 b
          = heapGet k b) ∧
      (as.foldl (outgoingStep inverse reexported) (au, k)).2.nextAddr
        = k.nextAddr := by
  intro as
  induction as with
  | nil =>
    intro deps au k hv hga hmem hnd hfresh hfa
    cases hfa
    exact ⟨rfl, hv, hga, fun b hb => rfl, rfl⟩
  | cons a t ih =>
    intro deps au k hv hga hmem hnd hfresh hfa
    cases hfa with
    | cons hab htail =>
      rename_i dep dt
      rcases hab with ⟨rk, hrk, hdv, hus⟩
      have hane : assetAddr ≠ a := by
        intro he
        exact hmem (he ▸ List.mem_cons_self a t)
      have hant : a ∉ t := (List.nodup_cons.mp hnd).1
      have hstep : outgoingStep inverse reexported (au, k) a
          = ((runOutgoingDep inverse reexported dep au
              (nodeFromDep dep).usedSymbols).1,
             heapSet k a { rk with usedSymbols :=
              (runOutgoingDep inverse reexported dep au
                (nodeFromDep dep).usedSymbols).2 }) := by
        unfold outgoingStep
        dsimp only
        rw [hrk]
        dsimp only
        rw [hdv]
        dsimp only
        rw [hus]
      rw [List.foldl_cons, hstep]
      have hvk : SameView g1 (heapSet k a { rk with usedSymbols :=
          (runOutgoingDep inverse reexported dep au
            (nodeFromDep dep).usedSymbols).2 }) :=
        SameView_heapSet_unbound _ hv (hfresh a (List.mem_cons_self a t))
      have hga2 : heapGet (heapSet k a { rk with usedSymbols :=
          (runOutgoingDep inverse reexported dep au
            (nodeFromDep dep).usedSymbols).2 }) assetAddr = some rA := by
        rw [heapGet_heapSet_ne _ hane]
        exact hga
      have hfa2 : List.Forall₂ (fun a' dep' => ∃ rk',
          heapGet (heapSet k a { rk with usedSymbols :=
            (runOutgoingDep inverse reexported dep au
              (nodeFromDep dep).usedSymbols).2 }) a' = some rk' ∧
          rk'.depValue = some dep' ∧
          rk'.usedSymbols = (nodeFromDep dep').usedSymbols) t dt := by
        apply forall₂_imp_mem htail
        intro x hx y hy
        rcases hy with ⟨rk', h1, h2, h3⟩
        refine ⟨rk', ?_, h2, h3⟩
        rw [heapGet_heapSet_ne]
        · exact h1
        · intro he
          exact hant (he ▸ hx)
      rcases ih dt
          ((runOutgoingDep inverse reexported dep au
            (nodeFromDep dep).usedSymbols).1)
          _ hvk hga2
          (fun hm => hmem (List.mem_cons_of_mem _ hm))
          (List.nodup_cons.mp hnd).2
          (fun b hb => hfresh b (List.mem_cons_of_mem _ hb))
          hfa2 with ⟨hacc, hview, hget, hstab, hnext⟩
      refine ⟨?_, hview, hget, ?_, ?_⟩
      · rw [hacc, List.foldl_cons]
      · intro b hb
        have hbna : b ≠ a := fun he => hb (he ▸ List.mem_cons_self a t)
        have hbnt : b ∉ t := fun hm => hb (List.mem_cons_of_mem _ hm)
        rw [hstab b hbnt]
        exact heapGet_heapSet_ne _ hbna
      · exact hnext

theorem setUsed_spec (g1 h : AGraph) (assetAddr : Addr)
    (builtAddrs : List Addr) (rA : NodeRec) (av : AssetValue)
    (hv : SameView g1 h)
    (hga : heapGet h assetAddr = some rA)
    (hav : rA.assetValue = some av)
    (hmem : assetAddr ∉ builtAddrs)
    (hnd : builtAddrs.Nodup)
    (hfresh : ∀ a ∈ builtAddrs, ∀ p ∈ g1.nodes, p.2 ≠ a)
    (hfa : List.Forall₂ (fun a dep => ∃ rk, heapGet h a = some rk ∧
      rk.depValue = some dep ∧
      rk.usedSymbols = (nodeFromDep dep).usedSymbols) builtAddrs
      av.dependencies) :
    (∀ e, recomputedAssetUsed g1 av = Except.error e →
      setUsedSymbolsAsset h assetAddr builtAddrs = Except.error e) ∧
    (∀ U, recomputedAssetUsed g1 av = Except.ok U →
      ∃ h2, setUsedSymbolsAsset h assetAddr builtAddrs
          = Except.ok (heapSet h2 assetAddr { rA with usedSymbols := U }) ∧
        SameView g1 h2 ∧ heapGet h2 assetAddr = some rA ∧
        (∀ b, b ∉ builtAddrs → heapGet h2 b = heapGet h b) ∧
        h2.nextAddr = h.nextAddr) := by
  unfold setUsedSymbolsAsset recomputedAssetUsed
  rw [hga]
  dsimp only
  rw [hav]
  dsimp only
  rw [getIncomingDependencies_congr hv av, fetchIncoming_congr hv]
  cases hfe : fetchIncoming g1 (getIncomingDependencies g1 av) with
  | error e =>
    constructor
    · intro e2 he2
      dsimp only at he2 ⊢
      injection he2 with he3
      rw [he3]
    · intro U hU
      dsimp only at hU
      cases hU
  | ok incs =>
    dsimp only
    rcases outgoingFold_spec (av.symbols.map assetSymbolsInverse)
        (computeIncomingSets av.symbols
          (List.map (fun x => x.usedSymbols) incs)).2 g1 assetAddr rA
        builtAddrs av.dependencies
        (computeIncomingSets av.symbols
          (List.map (fun x => x.usedSymbols) incs)).1 h hv hga hmem hnd
        hfresh hfa with ⟨hacc, hview, hget, hstab, hnext⟩
    constructor
    · intro e he
      cases he
    · intro U hU
      have hUeq : av.dependencies.foldl
          (fun acc dep =>
            (runOutgoingDep (av.symbols.map assetSymbolsInverse)
              (computeIncomingSets av.symbols
                (List.map (fun x => x.usedSymbols) incs)).2 dep acc
              (nodeFromDep dep).usedSymbols).1)
          (computeIncomingSets av.symbols
            (List.map (fun x => x.usedSymbols) incs)).1 = U := by
        injection hU
      refine ⟨_, ?_, hview, hget, hstab, hnext⟩
      rw [hget]
      dsimp only
      rw [hacc, hUeq, hav]

theorem nodup_append_single {α : Type} {l : List α} {x : α} (h : l.Nodup)
    (hx : x ∉ l) : (l ++ [x]).Nodup := by
  rw [List.nodup_append]
  refine ⟨h, List.nodup_singleton x, ?_⟩
  intro a ha hb
  simp only [List.mem_singleton] at hb
  subst hb
  exact hx ha

theorem forall₂_append_single {α β : Type} {R : α → β → Prop} :
    ∀ {l1 : List α} {l2 : List β}, List.Forall₂ R l1 l2 →
      ∀ {x y}, R x y → List.Forall₂ R (l1 ++ [x]) (l2 ++ [y]) := by
  intro l1 l2 h
  induction h with
  | nil => intro x y hxy; exact List.Forall₂.cons hxy List.Forall₂.nil
  | cons hab ht ih =>
    intro x y hxy
    exact List.Forall₂.cons hab (ih hxy)

theorem DepRecordAt_mono {k k' : AGraph} {a : Addr} {dep : DepValue}
    (hst : heapGet k' a = heapGet k a) (h : DepRecordAt k a dep) :
    DepRecordAt k' a dep := by
  rcases h with ⟨rk, h1, h2, h3, h4⟩
  exact ⟨rk, hst.trans h1, h2, h3, h4⟩

theorem PairRecordAt_mono {das : List AssetValue} {D : List DepValue}
    {k k' : AGraph} {p : String × Addr}
    (hst : heapGet k' p.2 = heapGet k p.2)
    (h : PairRecordAt das D k p) : PairRecordAt das D k' p := by
  rcases h with ⟨dep, hdep, asB, h1, h2, h3⟩
  exact ⟨dep, hdep, asB, h1, h2, hst ▸ h3⟩

theorem builtFold_spec (g1 : AGraph) (dependentAssets : List AssetValue)
    (Dall : List DepValue) (hsg1 : AddrSane g1) :
    ∀ (deps : List DepValue) (k0 : AGraph) (as0 : List Addr)
      (ps0 : List (String × Addr)),
      SameView g1 k0 →
      (∀ a ∈ as0, a < k0.nextAddr) →
      (∀ p ∈ ps0, p.2 < k0.nextAddr) →
      as0.Nodup →
      (∀ d ∈ deps, d ∈ Dall) →
      SameView g1
        (deps.foldl (resolveAssetDepStep dependentAssets) (k0, as0, ps0)).1 ∧
      k0.nextAddr ≤ (deps.foldl (resolveAssetDepStep dependentAssets)
        (k0, as0, ps0)).1.nextAddr ∧
      (∀ b, b < k0.nextAddr →
        heapGet (deps.foldl (resolveAssetDepStep dependentAssets)
          (k0, as0, ps0)).1 b = heapGet k0 b) ∧
      (∀ a ∈ (deps.foldl (resolveAssetDepStep dependentAssets)
          (k0, as0, ps0)).2.1,
        (a ∈ as0 ∨ k0.nextAddr ≤ a) ∧
        a < (deps.foldl (resolveAssetDepStep dependentAssets)
          (k0, as0, ps0)).1.nextAddr) ∧
      (∀ p ∈ (deps.foldl (resolveAssetDepStep dependentAssets)
          (k0, as0, ps0)).2.2,
        (p ∈ ps0 ∨ k0.nextAddr ≤ p.2) ∧
        p.2 < (deps.foldl (resolveAssetDepStep dependentAssets)
          (k0, as0, ps0)).1.nextAddr) ∧
      (deps.foldl (resolveAssetDepStep dependentAssets)
        (k0, as0, ps0)).2.1.Nodup ∧
      (∀ deps0, List.Forall₂ (DepRecordAt k0) as0 deps0 →
        List.Forall₂ (DepRecordAt
          (deps.foldl (resolveAssetDepStep dependentAssets)
            (k0, as0, ps0)).1)
          (deps.foldl (resolveAssetDepStep dependentAssets)
            (k0, as0, ps0)).2.1 (deps0 ++ deps)) ∧
      ((∀ p ∈ ps0, PairRecordAt dependentAssets Dall k0 p) →
        ∀ p ∈ (deps.foldl (resolveAssetDepStep dependentAssets)
            (k0, as0, ps0)).2.2,
          PairRecordAt dependentAssets Dall
            (deps.foldl (resolveAssetDepStep dependentAssets)
              (k0, as0, ps0)).1 p) ∧
      ((∀ p ∈ ps0, ∀ a ∈ as0, p.2 ≠ a) →
        ∀ p ∈ (deps.foldl (resolveAssetDepStep dependentAssets)
            (k0, as0, ps0)).2.2,
          ∀ a ∈ (deps.foldl (resolveAssetDepStep dependentAssets)
            (k0, as0, ps0)).2.1, p.2 ≠ a) := by
  intro deps
  induction deps with
  | nil =>
    intro k0 as0 ps0 hv has0 hps0 hnd0 hdall
    refine ⟨hv, le_refl _, fun b hb => rfl, ?_, ?_, hnd0, ?_, ?_, ?_⟩
    · intro a ha
      exact ⟨Or.inl ha, has0 a ha⟩
    · intro p hp
      exact ⟨Or.inl hp, hps0 p hp⟩
    · intro deps0 hfa
      rw [List.append_nil]
      exact hfa
    · intro hps p hp
      exact hps p hp
    · intro hdisj p hp a ha
      exact hdisj p hp a ha
  | cons dep t ih =>
    intro k0 as0 ps0 hv has0 hps0 hnd0 hdall
    have hsk0 : ∀ q ∈ k0.heap, q.1 < k0.nextAddr := hv.2.2.2.2.2
    have hfg1 : ∀ p ∈ g1.nodes, p.2 ≠ k0.nextAddr := by
      intro p hp
      have h1 : p.2 < g1.nextAddr := hsg1.1 p hp
      have h2 : g1.nextAddr ≤ k0.nextAddr := hv.2.2.2.2.1
      exact Nat.ne_of_lt (lt_of_lt_of_le h1 h2)
    have hnmem : k0.nextAddr ∉ as0 := by
      intro hm
      exact absurd (has0 _ hm) (lt_irrefl _)
    rw [List.foldl_cons]
    cases hfind : dependentAssets.find?
        (fun b => b.uniqueKey == some dep.moduleSpecifier) with
    | none =>
      have hstep : resolveAssetDepStep dependentAssets (k0, as0, ps0) dep
          = ((alloc k0 (nodeFromDep dep)).2, as0 ++ [k0.nextAddr], ps0) := by
        unfold resolveAssetDepStep
        dsimp only
        rw [hfind]
        rfl
      rw [hstep]
      have hv1 : SameView g1 (alloc k0 (nodeFromDep dep)).2 :=
        SameView_alloc _ hsg1 hv
      have hnext1 : (alloc k0 (nodeFromDep dep)).2.nextAddr
          = k0.nextAddr + 1 := rfl
      have hst1 : ∀ b, b < k0.nextAddr →
          heapGet (alloc k0 (nodeFromDep dep)).2 b = heapGet k0 b :=
        fun b hb => heapGet_alloc_lt _ hb
      have hrec : DepRecordAt (alloc k0 (nodeFromDep dep)).2 k0.nextAddr dep :=
        ⟨nodeFromDep dep, heapGet_alloc_self k0 _ hsk0, rfl, rfl, rfl⟩
      rcases ih (alloc k0 (nodeFromDep dep)).2 (as0 ++ [k0.nextAddr]) ps0
          hv1
          (by
            intro a ha
            rw [hnext1]
            rcases List.mem_append.mp ha with ha | ha
            · exact Nat.lt_succ_of_lt (has0 a ha)
            · simp only [List.mem_singleton] at ha
              subst ha
              exact Nat.lt_succ_self _)
          (by
            intro p hp
            rw [hnext1]
            exact Nat.lt_succ_of_lt (hps0 p hp))
          (nodup_append_single hnd0 hnmem)
          (fun d hd => hdall d (List.mem_cons_of_mem _ hd))
          with ⟨c1, c2, c3, c4, c5, c6, c7, c8, c9⟩
      refine ⟨c1, ?_, ?_, ?_, ?_, c6, ?_, ?_, ?_⟩
      · rw [hnext1] at c2
        exact le_trans (Nat.le_succ _) c2
      · intro b hb
        rw [c3 b (by rw [hnext1]; exact Nat.lt_succ_of_lt hb)]
        exact hst1 b hb
      · intro a ha
        rcases c4 a ha with ⟨hm, hbd⟩
        refine ⟨?_, hbd⟩
        rcases hm with hm | hm
        · rcases List.mem_append.mp hm with hm | hm
          · exact Or.inl hm
          · simp only [List.mem_singleton] at hm
            subst hm
            exact Or.inr (le_refl _)
        · rw [hnext1] at hm
          exact Or.inr (le_trans (Nat.le_succ _) hm)
      · intro p hp
        rcases c5 p hp with ⟨hm, hbd⟩
        refine ⟨?_, hbd⟩
        rcases hm with hm | hm
        · exact Or.inl hm
        · rw [hnext1] at hm
          exact Or.inr (le_trans (Nat.le_succ _) hm)
      · intro deps0 hfa
        have hfa1 : List.Forall₂ (DepRecordAt (alloc k0 (nodeFromDep dep)).2)
            (as0 ++ [k0.nextAddr]) (deps0 ++ [dep]) := by
          refine forall₂_append_single ?_ hrec
          apply forall₂_imp_mem hfa
          intro x hx y hy
          exact DepRecordAt_mono (hst1 x (has0 x hx)) hy
        have := c7 (deps0 ++ [dep]) hfa1
        rw [List.append_assoc] at this
        exact this
      · intro hps p hp
        refine c8 ?_ p hp
        intro q hq
        exact PairRecordAt_mono (hst1 q.2 (hps0 q hq)) (hps q hq)
      · intro hdisj p hp a ha
        refine c9 ?_ p hp a ha
        intro q hq b hb
        rcases List.mem_append.mp hb with hb | hb
        · exact hdisj q hq b hb
        · simp only [List.mem_singleton] at hb
          subst hb
          exact Nat.ne_of_lt (hps0 q hq)
    | some asB =>
      have hget05 : heapGet (alloc k0 (nodeFromDep dep)).2 k0.nextAddr
          = some (nodeFromDep dep) := heapGet_alloc_self k0 _ hsk0
      have hstep : resolveAssetDepStep dependentAssets (k0, as0, ps0) dep
          = ((alloc (heapSet (alloc k0 (nodeFromDep dep)).2 k0.nextAddr
              { nodeFromDep dep with complete := some true })
              (nodeFromAsset asB)).2,
             as0 ++ [k0.nextAddr],
             ps0 ++ [(dep.id, k0.nextAddr + 1)]) := by
        unfold resolveAssetDepStep
        dsimp only
        rw [hfind]
        dsimp only
        rw [alloc_fst, hget05]
        rfl
      rw [hstep]
      have hv05 : SameView g1 (alloc k0 (nodeFromDep dep)).2 :=
        SameView_alloc _ hsg1 hv
      have hv2 : SameView g1 (heapSet (alloc k0 (nodeFromDep dep)).2
          k0.nextAddr { nodeFromDep dep with complete := some true }) :=
        SameView_heapSet_unbound _ hv05 hfg1
      have hsane2 : ∀ q ∈ (heapSet (alloc k0 (nodeFromDep dep)).2
          k0.nextAddr { nodeFromDep dep with complete := some true }).heap,
          q.1 < (heapSet (alloc k0 (nodeFromDep dep)).2
          k0.nextAddr { nodeFromDep dep with complete := some true }).nextAddr :=
        hv2.2.2.2.2.2
      have hv1 : SameView g1 (alloc (heapSet (alloc k0 (nodeFromDep dep)).2
          k0.nextAddr { nodeFromDep dep with complete := some true })
          (nodeFromAsset asB)).2 :=
        SameView_alloc _ hsg1 hv2
      have hnext1 : (alloc (heapSet (alloc k0 (nodeFromDep dep)).2
          k0.nextAddr { nodeFromDep dep with complete := some true })
          (nodeFromAsset asB)).2.nextAddr = k0.nextAddr + 2 := rfl
      have hst1 : ∀ b, b < k0.nextAddr →
          heapGet (alloc (heapSet (alloc k0 (nodeFromDep dep)).2
            k0.nextAddr { nodeFromDep dep with complete := some true })
            (nodeFromAsset asB)).2 b = heapGet k0 b := by
        intro b hb
        rw [heapGet_alloc_lt _ (show b < k0.nextAddr + 1 from
          Nat.lt_succ_of_lt hb)]
        rw [heapGet_heapSet_ne _ (Nat.ne_of_lt hb)]
        exact heapGet_alloc_lt _ hb
      have hgetn : heapGet (alloc (heapSet (alloc k0 (nodeFromDep dep)).2
          k0.nextAddr { nodeFromDep dep with complete := some true })
          (nodeFromAsset asB)).2 k0.nextAddr
          = some { nodeFromDep dep with complete := some true } := by
        rw [heapGet_alloc_lt _ (Nat.lt_succ_self _)]
        exact heapGet_heapSet_self _ hget05
      have hrec : DepRecordAt (alloc (heapSet (alloc k0 (nodeFromDep dep)).2
          k0.nextAddr { nodeFromDep dep with complete := some true })
          (nodeFromAsset asB)).2 k0.nextAddr dep :=
        ⟨{ nodeFromDep dep with complete := some true }, hgetn, rfl, rfl, rfl⟩
      have hgetn2 : heapGet (alloc (heapSet (alloc k0 (nodeFromDep dep)).2
          k0.nextAddr { nodeFromDep dep with complete := some true })
          (nodeFromAsset asB)).2 (k0.nextAddr + 1)
          = some (nodeFromAsset asB) :=
        heapGet_alloc_self _ _ hsane2
      have hpair : PairRecordAt dependentAssets Dall
          (alloc (heapSet (alloc k0 (nodeFromDep dep)).2
            k0.nextAddr { nodeFromDep dep with complete := some true })
            (nodeFromAsset asB)).2 (dep.id, k0.nextAddr + 1) :=
        ⟨dep, hdall dep (List.mem_cons_self dep t), asB, hfind, rfl, hgetn2⟩
      rcases ih (alloc (heapSet (alloc k0 (nodeFromDep dep)).2
            k0.nextAddr { nodeFromDep dep with complete := some true })
            (nodeFromAsset asB)).2
          (as0 ++ [k0.nextAddr]) (ps0 ++ [(dep.id, k0.nextAddr + 1)])
          hv1
          (by
            intro a ha
            rw [hnext1]
            rcases List.mem_append.mp ha with ha | ha
            · exact lt_of_lt_of_le (has0 a ha)
                (le_trans (Nat.le_succ _) (Nat.le_succ _))
            · simp only [List.mem_singleton] at ha
              subst ha
              exact Nat.lt_of_lt_of_le (Nat.lt_succ_self _) (Nat.le_succ _))
          (by
            intro p hp
            rw [hnext1]
            rcases List.mem_append.mp hp with hp | hp
            · exact lt_of_lt_of_le (hps0 p hp)
                (le_trans (Nat.le_succ _) (Nat.le_succ _))
            · simp only [List.mem_singleton] at hp
              subst hp
              exact Nat.lt_succ_self _)
          (nodup_append_single hnd0 hnmem)
          (fun d hd => hdall d (List.mem_cons_of_mem _ hd))
          with ⟨c1, c2, c3, c4, c5, c6, c7, c8, c9⟩
      refine ⟨c1, ?_, ?_, ?_, ?_, c6, ?_, ?_, ?_⟩
      · rw [hnext1] at c2
        exact le_trans (le_trans (Nat.le_succ _) (Nat.le_succ _)) c2
      · intro b hb
        rw [c3 b (by
          rw [hnext1]
          exact lt_of_lt_of_le hb (le_trans (Nat.le_succ _) (Nat.le_succ _)))]
        exact hst1 b hb
      · intro a ha
        rcases c4 a ha with ⟨hm, hbd⟩
        refine ⟨?_, hbd⟩
        rcases hm with hm | hm
        · rcases List.mem_append.mp hm with hm | hm
          · exact Or.inl hm
          · simp only [List.mem_singleton] at hm
            subst hm
            exact Or.inr (le_refl _)
        · rw [hnext1] at hm
          exact Or.inr (le_trans
            (le_trans (Nat.le_succ _) (Nat.le_succ _)) hm)
      · intro p hp
        rcases c5 p hp with ⟨hm, hbd⟩
        refine ⟨?_, hbd⟩
        rcases hm with hm | hm
        · rcases List.mem_append.mp hm with hm | hm
          · exact Or.inl hm
          · simp only [List.mem_singleton] at hm
            subst hm
            exact Or.inr (Nat.le_succ _)
        · rw [hnext1] at hm
          exact Or.inr (le_trans
            (le_trans (Nat.le_succ _) (Nat.le_succ _)) hm)
      · intro deps0 hfa
        have hfa1 : List.Forall₂ (DepRecordAt
            (alloc (heapSet (alloc k0 (nodeFromDep dep)).2
              k0.nextAddr { nodeFromDep dep with complete := some true })
              (nodeFromAsset asB)).2)
            (as0 ++ [k0.nextAddr]) (deps0 ++ [dep]) := by
          refine forall₂_append_single ?_ hrec
          apply forall₂_imp_mem hfa
          intro x hx y hy
          exact DepRecordAt_mono (hst1 x (has0 x hx)) hy
        have := c7 (deps0 ++ [dep]) hfa1
        rw [List.append_assoc] at this
        exact this
      · intro hps p hp
        refine c8 ?_ p hp
        intro q hq
        rcases List.mem_append.mp hq with hq | hq
        · exact PairRecordAt_mono (hst1 q.2 (hps0 q hq)) (hps q hq)
        · simp only [List.mem_singleton] at hq
          subst hq
          exact hpair
      · intro hdisj p hp a ha
        refine c9 ?_ p hp a ha
        intro q hq b hb
        rcases List.mem_append.mp hq with hq | hq
        · rcases List.mem_append.mp hb with hb | hb
          · exact hdisj q hq b hb
          · simp only [List.mem_singleton] at hb
            subst hb
            exact Nat.ne_of_lt (hps0 q hq)
        · simp only [List.mem_singleton] at hq
          subst hq
          rcases List.mem_append.mp hb with hb | hb
          · exact fun he => absurd (has0 b hb)
              (by rw [← he]; exact Nat.lt_asymm (Nat.lt_succ_self _) ∘
                fun hx => hx)
          · simp only [List.mem_singleton] at hb
            subst hb
            exact Nat.succ_ne_self _ ∘ fun he => he

theorem forall₂_mem_left {α β : Type} {R : α → β → Prop} :
    ∀ {l1 : List α} {l2 : List β}, List.Forall₂ R l1 l2 →
      ∀ x ∈ l1, ∃ y ∈ l2, R x y := by
  intro l1 l2 h
  induction h with
  | nil => intro x hx; exact absurd hx (List.not_mem_nil x)
  | cons hab ht ih =>
    intro x hx
    rcases List.mem_cons.mp hx with rfl | hx
    · exact ⟨_, List.mem_cons_self _ _, hab⟩
    · rcases ih x hx with ⟨y, hy, hr⟩
      exact ⟨y, List.mem_cons_of_mem _ hy, hr⟩

theorem resolveAsset_renoop_core (g1 h : AGraph) (assetAddr : Addr)
    (dependentAssets : List AssetValue) (rA : NodeRec) (av : AssetValue)
    (hsg1 : AddrSane g1)
    (hv : SameView g1 h)
    (hget : heapGet h assetAddr = some rA)
    (hav : rA.assetValue = some av)
    (haddr : assetAddr < h.nextAddr)
    (hmode : (∀ p ∈ g1.nodes, p.2 ≠ assetAddr) ∨
      recomputedAssetUsed g1 av = Except.ok rA.usedSymbols)
    (hfok : ∃ V, recomputedAssetUsed g1 av = Except.ok V)
    (hdeps : ∀ dep ∈ av.dependencies, hasNode g1 dep.id = true ∧
      hasEdge g1 av.id dep.id = true)
    (hchild : ∀ c ∈ childrenOf g1 av.id,
      ∃ dep ∈ av.dependencies, c = dep.id)
    (hpairs : ∀ dep ∈ av.dependencies, ∀ asB,
      dependentAssets.find?
          (fun b => b.uniqueKey == some dep.moduleSpecifier) = some asB →
      hasNode g1 asB.id = true ∧ hasEdge g1 dep.id asB.id = true ∧
      ∀ c ∈ childrenOf g1 dep.id, c = asB.id) :
    ∃ h2, resolveAsset h assetAddr dependentAssets = Except.ok h2 ∧
      SameView g1 h2 ∧ h.nextAddr ≤ h2.nextAddr ∧
      (∀ b, b < h.nextAddr → b ≠ assetAddr →
        heapGet h2 b = heapGet h b) := by
  rcases builtFold_spec g1 dependentAssets av.dependencies hsg1
      av.dependencies h [] [] hv
      (fun a ha => absurd ha (List.not_mem_nil a))
      (fun p hp => absurd hp (List.not_mem_nil p))
      List.nodup_nil (fun d hd => hd)
      with ⟨c1, c2, c3, c4, c5, c6, c7, c8, c9⟩
  have hfa0 : List.Forall₂ (DepRecordAt
      (av.dependencies.foldl (resolveAssetDepStep dependentAssets)
        (h, [], [])).1)
      (av.dependencies.foldl (resolveAssetDepStep dependentAssets)
        (h, [], [])).2.1 av.dependencies := by
    have := c7 [] List.Forall₂.nil
    rw [List.nil_append] at this
    exact this
  have hpair0 : ∀ p ∈ (av.dependencies.foldl
      (resolveAssetDepStep dependentAssets) (h, [], [])).2.2,
      PairRecordAt dependentAssets av.dependencies
        (av.dependencies.foldl (resolveAssetDepStep dependentAssets)
          (h, [], [])).1 p :=
    c8 (fun p hp => absurd hp (List.not_mem_nil p))
  have hdisj0 : ∀ p ∈ (av.dependencies.foldl
      (resolveAssetDepStep dependentAssets) (h, [], [])).2.2,
      ∀ a ∈ (av.dependencies.foldl (resolveAssetDepStep dependentAssets)
        (h, [], [])).2.1, p.2 ≠ a :=
    c9 (fun p hp => absurd hp (List.not_mem_nil p))
  have haddr_hi : ∀ a ∈ (av.dependencies.foldl
      (resolveAssetDepStep dependentAssets) (h, [], [])).2.1,
      h.nextAddr ≤ a := by
    intro a ha
    rcases (c4 a ha).1 with hm | hm
    · exact absurd hm (List.not_mem_nil a)
    · exact hm
  have hpaddr_hi : ∀ p ∈ (av.dependencies.foldl
      (resolveAssetDepStep dependentAssets) (h, [], [])).2.2,
      h.nextAddr ≤ p.2 := by
    intro p hp
    rcases (c5 p hp).1 with hm | hm
    · exact absurd hm (List.not_mem_nil p)
    · exact hm
  have hrepl : replaceNodesConnectedTo
      (av.dependencies.foldl (resolveAssetDepStep dependentAssets)
        (h, [], [])).1 av.id
      (av.dependencies.foldl (resolveAssetDepStep dependentAssets)
        (h, [], [])).2.1
      = (av.dependencies.foldl (resolveAssetDepStep dependentAssets)
        (h, [], [])).1 := by
    apply replace_noop_view c1
    · intro a ha
      rcases forall₂_mem_left hfa0 a ha with ⟨dep, hdep, rk, h1, h2, h3, h4⟩
      refine ⟨rk, h1, ?_, ?_⟩
      · rw [h2]
        exact (hdeps dep hdep).1
      · rw [h2]
        exact (hdeps dep hdep).2
    · intro c hc
      rcases hchild c hc with ⟨dep, hdep, hcd⟩
      rcases forall₂_mem_right hfa0 dep hdep with ⟨a, ha, rk, h1, h2, h3, h4⟩
      apply contains_of_mem
      apply List.mem_filterMap.mpr
      refine ⟨a, ha, ?_⟩
      rw [h1]
      show some rk.id = some c
      rw [h2, hcd]
  have hga1 : heapGet (av.dependencies.foldl
      (resolveAssetDepStep dependentAssets) (h, [], [])).1 assetAddr
      = some rA := by
    rw [c3 assetAddr haddr]
    exact hget
  have hmem1 : assetAddr ∉ (av.dependencies.foldl
      (resolveAssetDepStep dependentAssets) (h, [], [])).2.1 := by
    intro hm
    exact absurd haddr (not_lt_of_le (haddr_hi assetAddr hm))
  have hfr1 : ∀ a ∈ (av.dependencies.foldl
      (resolveAssetDepStep dependentAssets) (h, [], [])).2.1,
      ∀ p ∈ g1.nodes, p.2 ≠ a := by
    intro a ha p hp
    have h1 : p.2 < g1.nextAddr := hsg1.1 p hp
    have h2 : g1.nextAddr ≤ h.nextAddr := hv.2.2.2.2.1
    exact Nat.ne_of_lt (lt_of_lt_of_le h1 (le_trans h2 (haddr_hi a ha)))
  have hfa1 : List.Forall₂ (fun a dep => ∃ rk,
      heapGet (av.dependencies.foldl (resolveAssetDepStep dependentAssets)
        (h, [], [])).1 a = some rk ∧
      rk.depValue = some dep ∧
      rk.usedSymbols = (nodeFromDep dep).usedSymbols)
      (av.dependencies.foldl (resolveAssetDepStep dependentAssets)
        (h, [], [])).2.1 av.dependencies := by
    apply forall₂_imp_mem hfa0
    intro x hx y hy
    rcases hy with ⟨rk, h1, h2, h3, h4⟩
    exact ⟨rk, h1, h3, h4⟩
  rcases hfok with ⟨V, hV⟩
  rcases (setUsed_spec g1 _ assetAddr _ rA av c1 hga1 hav hmem1 c6 hfr1
      hfa1).2 V hV with ⟨h2, hok, hview2, hget2, hstab2, hnext2⟩
  have hv3 : SameView g1 (heapSet h2 assetAddr
      { rA with usedSymbols := V }) := by
    rcases hmode with horphan | hfix
    · exact SameView_heapSet_unbound _ hview2 horphan
    · have hVA : V = rA.usedSymbols := by
        rw [hV] at hfix
        exact Except.ok.inj hfix
      rw [hVA]
      have heta : { rA with usedSymbols := rA.usedSymbols } = rA := rfl
      rw [heta]
      exact SameView_heapSet_id hview2 hget2
  have hkeep : ∀ p ∈ (av.dependencies.foldl
      (resolveAssetDepStep dependentAssets) (h, [], [])).2.2,
      heapGet (heapSet h2 assetAddr { rA with usedSymbols := V }) p.2
        = heapGet (av.dependencies.foldl
          (resolveAssetDepStep dependentAssets) (h, [], [])).1 p.2 := by
    intro p hp
    have hpa : p.2 ≠ assetAddr :=
      Nat.ne_of_gt (lt_of_lt_of_le haddr (hpaddr_hi p hp))
    rw [heapGet_heapSet_ne _ hpa]
    exact hstab2 p.2 (fun hm => hdisj0 p hp p.2 hm rfl)
  have hfold2 : (av.dependencies.foldl
      (resolveAssetDepStep dependentAssets) (h, [], [])).2.2.foldl
      (fun h p => replaceNodesConnectedTo h p.1 [p.2])
      (heapSet h2 assetAddr { rA with usedSymbols := V })
      = heapSet h2 assetAddr { rA with usedSymbols := V } := by
    apply foldl_fix
    intro p hp
    rcases hpair0 p hp with ⟨dep, hdep, asB, hfind, hp1, hp2⟩
    apply replace_noop_view hv3
    · intro b hb
      simp only [List.mem_singleton] at hb
      subst hb
      refine ⟨nodeFromAsset asB, ?_, ?_, ?_⟩
      · rw [hkeep p hp]
        exact hp2
      · show hasNode g1 asB.id = true
        exact (hpairs dep hdep asB hfind).1
      · show hasEdge g1 p.1 asB.id = true
        rw [hp1]
        exact (hpairs dep hdep asB hfind).2.1
    · intro c hc
      rw [hp1] at hc
      have hca := (hpairs dep hdep asB hfind).2.2 c hc
      apply contains_of_mem
      apply List.mem_filterMap.mpr
      refine ⟨p.2, List.mem_singleton.mpr rfl, ?_⟩
      rw [hkeep p hp, hp2]
      show some (nodeFromAsset asB).id = some c
      rw [hca]
      rfl
  unfold resolveAsset
  rw [hget]
  dsimp only
  rw [hav]
  dsimp only
  rw [hrepl, hok]
  dsimp only
  rw [hfold2]
  refine ⟨_, rfl, hv3, ?_, ?_⟩
  · show h.nextAddr ≤ h2.nextAddr
    rw [hnext2]
    exact c2
  · intro b hb hba
    show heapGet (heapSet h2 assetAddr { rA with usedSymbols := V }) b
      = heapGet h b
    rw [heapGet_heapSet_ne _ hba]
    rw [hstab2 b (fun hm => absurd hb (not_lt_of_le (haddr_hi b hm)))]
    exact c3 b hb

theorem TriRecordAt_mono {k k' : AGraph} {ob : Addr × List AssetValue × Bool}
    {pl : AssetValue × List AssetValue × Bool}
    (hst : heapGet k' ob.1 = heapGet k ob.1) (h : TriRecordAt k ob pl) :
    TriRecordAt k' ob pl :=
  ⟨hst.trans h.1, h.2.1, h.2.2⟩

theorem partsFold_spec (g1 : AGraph) (assets : List AssetValue)
    (hsg1 : AddrSane g1) :
    ∀ (members : List AssetValue) (k0 : AGraph) (keys0 : List String)
      (tris0 : List (Addr × List AssetValue × Bool))
      (plan0 : List (AssetValue × List AssetValue × Bool)),
      SameView g1 k0 →
      (∀ ob ∈ tris0, ob.1 < k0.nextAddr) →
      SameView g1
        (members.foldl (groupMemberStep assets) (k0, keys0, tris0)).1 ∧
      k0.nextAddr ≤ (members.foldl (groupMemberStep assets)
        (k0, keys0, tris0)).1.nextAddr ∧
      (∀ b, b < k0.nextAddr →
        heapGet (members.foldl (groupMemberStep assets)
          (k0, keys0, tris0)).1 b = heapGet k0 b) ∧
      (members.foldl (groupMemberStep assets) (k0, keys0, tris0)).2.1
        = (members.foldl (groupPlanStep assets) (keys0, plan0)).1 ∧
      (∀ ob ∈ (members.foldl (groupMemberStep assets)
          (k0, keys0, tris0)).2.2,
        ob.1 < (members.foldl (groupMemberStep assets)
          (k0, keys0, tris0)).1.nextAddr) ∧
      (∀ ob ∈ (members.foldl (groupMemberStep assets)
          (k0, keys0, tris0)).2.2,
        ob ∈ tris0 ∨ k0.nextAddr ≤ ob.1) ∧
      ((tris0.map (fun ob => ob.1)).Nodup →
        ((members.foldl (groupMemberStep assets)
          (k0, keys0, tris0)).2.2.map (fun ob => ob.1)).Nodup) ∧
      (List.Forall₂ (TriRecordAt k0) tris0 plan0 →
        List.Forall₂ (TriRecordAt
          (members.foldl (groupMemberStep assets) (k0, keys0, tris0)).1)
          (members.foldl (groupMemberStep assets) (k0, keys0, tris0)).2.2
          (members.foldl (groupPlanStep assets) (keys0, plan0)).2) := by
  intro members
  induction members with
  | nil =>
    intro k0 keys0 tris0 plan0 hv htb
    exact ⟨hv, le_refl _, fun b hb => rfl, rfl, htb,
      fun ob hob => Or.inl hob, fun hnd => hnd, fun hfa => hfa⟩
  | cons asset rest ih =>
    intro k0 keys0 tris0 plan0 hv htb
    have hMstep : groupMemberStep assets (k0, keys0, tris0) asset
        = ((alloc k0 (nodeFromAsset asset)).2,
           (asset.dependencies.foldl (groupScanStep assets) (keys0, [])).1,
           tris0 ++ [(k0.nextAddr,
             (asset.dependencies.foldl (groupScanStep assets)
               (keys0, [])).2,
             memberIsDirect keys0 asset)]) := rfl
    have hPstep : groupPlanStep assets (keys0, plan0) asset
        = ((asset.dependencies.foldl (groupScanStep assets) (keys0, [])).1,
           plan0 ++ [(asset,
             (asset.dependencies.foldl (groupScanStep assets)
               (keys0, [])).2,
             memberIsDirect keys0 asset)]) := rfl
    rw [List.foldl_cons, List.foldl_cons, hMstep, hPstep]
    have hsk0 : ∀ q ∈ k0.heap, q.1 < k0.nextAddr := hv.2.2.2.2.2
    have hv1 : SameView g1 (alloc k0 (nodeFromAsset asset)).2 :=
      SameView_alloc _ hsg1 hv
    have hnext1 : (alloc k0 (nodeFromAsset asset)).2.nextAddr
        = k0.nextAddr + 1 := rfl
    have htb1 : ∀ ob ∈ tris0 ++ [(k0.nextAddr,
        (asset.dependencies.foldl (groupScanStep assets) (keys0, [])).2,
        memberIsDirect keys0 asset)],
        ob.1 < (alloc k0 (nodeFromAsset asset)).2.nextAddr := by
      intro ob hob
      rw [hnext1]
      rcases List.mem_append.mp hob with hob | hob
      · exact Nat.lt_succ_of_lt (htb ob hob)
      · simp only [List.mem_singleton] at hob
        subst hob
        exact Nat.lt_succ_self _
    rcases ih (alloc k0 (nodeFromAsset asset)).2
        (asset.dependencies.foldl (groupScanStep assets) (keys0, [])).1
        (tris0 ++ [(k0.nextAddr,
          (asset.dependencies.foldl (groupScanStep assets) (keys0, [])).2,
          memberIsDirect keys0 asset)])
        (plan0 ++ [(asset,
          (asset.dependencies.foldl (groupScanStep assets) (keys0, [])).2,
          memberIsDirect keys0 asset)])
        hv1 htb1 with ⟨d1, d2, d3, d4, d5, d55, d6, d7⟩
    refine ⟨d1, ?_, ?_, d4, d5, ?_, ?_, ?_⟩
    · rw [hnext1] at d2
      exact le_trans (Nat.le_succ _) d2
    · intro b hb
      rw [d3 b (by rw [hnext1]; exact Nat.lt_succ_of_lt hb)]
      exact heapGet_alloc_lt _ hb
    · intro ob hob
      rcases d55 ob hob with hm | hm
      · rcases List.mem_append.mp hm with hm | hm
        · exact Or.inl hm
        · simp only [List.mem_singleton] at hm
          subst hm
          exact Or.inr (le_refl _)
      · rw [hnext1] at hm
        exact Or.inr (le_trans (Nat.le_succ _) hm)
    · intro hnd
      refine d6 ?_
      rw [List.map_append]
      apply nodup_append_single hnd
      intro hm
      rcases List.mem_map.mp hm with ⟨ob, hob, hobe⟩
      exact absurd (htb ob hob) (by rw [hobe]; exact lt_irrefl _)
    · intro hfa
      refine d7 ?_
      refine forall₂_append_single ?_ ?_
      · apply forall₂_imp_mem hfa
        intro x hx y hy
        exact TriRecordAt_mono (heapGet_alloc_lt _ (htb x hx)) hy
      · exact ⟨heapGet_alloc_self k0 _ hsk0, rfl, rfl⟩

theorem groupRun_spec (g1 : AGraph) (hsg1 : AddrSane g1) :
    ∀ (tris : List (Addr × List AssetValue × Bool))
      (plan : List (AssetValue × List AssetValue × Bool)) (G : AGraph),
      SameView g1 G →
      List.Forall₂ (TriRecordAt G) tris plan →
      (∀ ob ∈ tris, g1.nextAddr ≤ ob.1 ∧ ob.1 < G.nextAddr) →
      (tris.map (fun ob => ob.1)).Nodup →
      (∀ pl ∈ plan, MemberHyps g1 pl) →
      ∃ G2, tris.foldl groupRunStep (Except.ok G) = Except.ok G2 ∧
        SameView g1 G2 := by
  intro tris
  induction tris with
  | nil =>
    intro plan G hv hfa hb hnd hmh
    exact ⟨G, rfl, hv⟩
  | cons ob t ih =>
    intro plan G hv hfa hb hnd hmh
    cases hfa with
    | cons htri httail =>
      rename_i pl pt
      have hobnd : ob.1 ∉ t.map (fun ob => ob.1) := by
        rw [List.map_cons] at hnd
        exact (List.nodup_cons.mp hnd).1
      have hmh1 := hmh pl (List.mem_cons_self pl pt)
      rcases hmh1 with ⟨⟨V, hVok⟩, hdeps, hchild, hpairs⟩
      have hpairs2 : ∀ dep ∈ pl.1.dependencies, ∀ asB,
          ob.2.1.find? (fun b => b.uniqueKey == some dep.moduleSpecifier)
            = some asB →
          hasNode g1 asB.id = true ∧ hasEdge g1 dep.id asB.id = true ∧
          ∀ c ∈ childrenOf g1 dep.id, c = asB.id := by
        rw [htri.2.1]
        exact hpairs
      have horphan : ∀ p ∈ g1.nodes, p.2 ≠ ob.1 := by
        intro p hp
        have h1 : p.2 < g1.nextAddr := hsg1.1 p hp
        exact Nat.ne_of_lt (lt_of_lt_of_le h1
          (hb ob (List.mem_cons_self ob t)).1)
      rcases resolveAsset_renoop_core g1 G ob.1 ob.2.1
          (nodeFromAsset pl.1) pl.1 hsg1 hv htri.1 rfl
          (hb ob (List.mem_cons_self ob t)).2
          (Or.inl horphan) ⟨V, hVok⟩ hdeps hchild hpairs2
          with ⟨G1, hok, hv1, hle1, hstab1⟩
      have hfa1 : List.Forall₂ (TriRecordAt G1) t pt := by
        apply forall₂_imp_mem httail
        intro x hx y hy
        refine TriRecordAt_mono ?_ hy
        apply hstab1 x.1 (hb x (List.mem_cons_of_mem _ hx)).2
        intro he
        exact hobnd (he ▸ List.mem_map_of_mem (fun ob => ob.1) hx)
      rcases ih pt G1 hv1 hfa1
          (fun x hx => ⟨(hb x (List.mem_cons_of_mem _ hx)).1,
            lt_of_lt_of_le (hb x (List.mem_cons_of_mem _ hx)).2 hle1⟩)
          (by rw [List.map_cons] at hnd; exact (List.nodup_cons.mp hnd).2)
          (fun q hq => hmh q (List.mem_cons_of_mem _ hq))
          with ⟨G2, hfold, hv2⟩
      refine ⟨G2, ?_, hv2⟩
      rw [List.foldl_cons]
      have hrun : groupRunStep (Except.ok G) ob
          = resolveAsset G ob.1 ob.2.1 := rfl
      rw [hrun, hok]
      exact hfold

theorem resolveAssetGroup_renoop (g1 : AGraph)
    (assetGroup : AssetGroupValue) (assets : List AssetValue) (req : String)
    (hsane : AddrSane g1)
    (hnode : ∃ a r1,
      getNodeAddr g1 (nodeFromAssetGroup assetGroup).id = some a ∧
      heapGet g1 a = some r1 ∧ r1.ntype = NType.asset_group ∧
      r1.correspondingRequest = some req)
    (hdirect : ∀ pl ∈ groupPlan assets, pl.2.2 = true →
      hasNode g1 pl.1.id = true ∧
      hasEdge g1 (nodeFromAssetGroup assetGroup).id pl.1.id = true)
    (hchild : ∀ c ∈ childrenOf g1 (nodeFromAssetGroup assetGroup).id,
      ∃ pl ∈ groupPlan assets, pl.2.2 = true ∧ c = pl.1.id)
    (hmembers : ∀ pl ∈ groupPlan assets, MemberHyps g1 pl) :
    ∃ g2, resolveAssetGroup g1 assetGroup assets req = Except.ok g2 ∧
      ObsEq g1 g2 := by
  obtain ⟨a, r1, hga, hgr, hnt, hcr⟩ := hnode
  have hv1 : SameView g1 (heapSet g1 a r1) :=
    SameView_heapSet_id (SameView_refl g1 hsane) hgr
  rcases partsFold_spec g1 assets hsane assets (heapSet g1 a r1) [] [] []
      hv1 (fun ob hob => absurd hob (List.not_mem_nil ob))
      with ⟨d1, d2, d3, d4, d5, d55, d6, d7⟩
  have halign : List.Forall₂ (TriRecordAt
      (assets.foldl (groupMemberStep assets) (heapSet g1 a r1, [], [])).1)
      (assets.foldl (groupMemberStep assets) (heapSet g1 a r1, [], [])).2.2
      (groupPlan assets) := by
    unfold groupPlan
    exact d7 List.Forall₂.nil
  have hrepl : replaceNodesConnectedTo
      (assets.foldl (groupMemberStep assets) (heapSet g1 a r1, [], [])).1
      (nodeFromAssetGroup assetGroup).id
      (((assets.foldl (groupMemberStep assets)
        (heapSet g1 a r1, [], [])).2.2.filter
          (fun ob => ob.2.2)).map (fun ob => ob.1))
      = (assets.foldl (groupMemberStep assets)
        (heapSet g1 a r1, [], [])).1 := by
    apply replace_noop_view d1
    · intro b hb
      rcases List.mem_map.mp hb with ⟨ob, hobf, hobe⟩
      have hobm := List.mem_of_mem_filter hobf
      have hobdir : ob.2.2 = true := by
        have := List.of_mem_filter hobf
        simpa using this
      rcases forall₂_mem_left halign ob hobm with ⟨pl, hpl, htri⟩
      refine ⟨nodeFromAsset pl.1, ?_, ?_, ?_⟩
      · rw [← hobe]
        exact htri.1
      · show hasNode g1 pl.1.id = true
        exact (hdirect pl hpl (by rw [← htri.2.2]; exact hobdir)).1
      · show hasEdge g1 (nodeFromAssetGroup assetGroup).id pl.1.id = true
        exact (hdirect pl hpl (by rw [← htri.2.2]; exact hobdir)).2
    · intro c hc
      rcases hchild c hc with ⟨pl, hpl, hdir, hcid⟩
      rcases forall₂_mem_right halign pl hpl with ⟨ob, hobm, htri⟩
      apply contains_of_mem
      apply List.mem_filterMap.mpr
      refine ⟨ob.1, ?_, ?_⟩
      · apply List.mem_map_of_mem
        apply List.mem_filter.mpr
        refine ⟨hobm, ?_⟩
        rw [htri.2.2]
        simpa using hdir
      · rw [htri.1]
        show some (nodeFromAsset pl.1).id = some c
        rw [hcid]
        rfl
  rcases groupRun_spec g1 hsane
      (assets.foldl (groupMemberStep assets) (heapSet g1 a r1, [], [])).2.2
      (groupPlan assets)
      (assets.foldl (groupMemberStep assets) (heapSet g1 a r1, [], [])).1
      d1 halign
      (by
        intro ob hob
        refine ⟨?_, d5 ob hob⟩
        rcases d55 ob hob with hm | hm
        · exact absurd hm (List.not_mem_nil ob)
        · exact hm)
      (d6 List.nodup_nil)
      hmembers with ⟨G2, hfold, hv2⟩
  unfold resolveAssetGroup
  dsimp only
  rw [hga]
  dsimp only
  rw [hgr]
  dsimp only
  have hbt : (r1.ntype == NType.asset_group) = true := by
    rw [hnt]
    decide
  rw [hbt]
  simp only [if_true]
  rw [stamp_noop r1 req hcr]
  rw [hrepl, hfold]
  exact ⟨G2, rfl, SameView_obs hv2⟩

/-- C6: re-resolution is idempotent.  For each of the five resolvers, if a
call produced `g1` and the post-state satisfies the conditions the first
call establishes — the stamped node is present with the request recorded,
the children built by the call are present and wired with no stray siblings,
heap addresses are sane, and (for `resolveAsset`) the stored used-symbol set
equals its recomputation — then calling the same resolver again with
identical logical inputs succeeds and leaves the observable graph unchanged:
the same node-id bindings, the same edges in both directions, and the same
record behind every binding, so used-symbol sets and the deferred and
hasDeferred flags of every reachable node are untouched.  The second call's
fresh allocations are unreachable, exactly as in the JavaScript heap. -/
theorem c6_resolver_idempotence :
    (∀ (g g1 : AGraph) (entry : String) (resolved : List String)
        (req : String),
      resolveEntry g entry resolved req = Except.ok g1 →
      AddrSane g1 →
      (∃ a r1, getNodeAddr g1 ("entry_specifier:" ++ entry) = some a ∧
        heapGet g1 a = some r1 ∧ r1.ntype = NType.entry_specifier ∧
        r1.correspondingRequest = some req) →
      (∀ f ∈ resolved, hasNode g1 (nodeFromEntryFile f).id = true ∧
        hasEdge g1 ("entry_specifier:" ++ entry)
          (nodeFromEntryFile f).id = true) →
      (∀ c ∈ childrenOf g1 ("entry_specifier:" ++ entry),
        ∃ f ∈ resolved, c = (nodeFromEntryFile f).id) →
      ∃ g2, resolveEntry g1 entry resolved req = Except.ok g2 ∧
        ObsEq g1 g2) ∧
    (∀ (g g1 : AGraph) (entry : String) (targets : List Target)
        (req : String),
      resolveTargets g entry targets req = Except.ok g1 →
      AddrSane g1 →
      (∃ a r1, getNodeAddr g1 (nodeFromEntryFile entry).id = some a ∧
        heapGet g1 a = some r1 ∧ r1.ntype = NType.entry_file ∧
        r1.correspondingRequest = some req) →
      (∀ t ∈ targets,
        hasNode g1 (createDependency entry (some t.name) (some t) true).id
          = true ∧
        hasEdge g1 (nodeFromEntryFile entry).id
          (createDependency entry (some t.name) (some t) true).id = true) →
      (∀ c ∈ childrenOf g1 (nodeFromEntryFile entry).id,
        ∃ t ∈ targets,
          c = (createDependency entry (some t.name) (some t) true).id) →
      ∃ g2, resolveTargets g1 entry targets req = Except.ok g2 ∧
        ObsEq g1 g2) ∧
    (∀ (g g1 : AGraph) (dependency : DepValue)
        (assetGroup : Option AssetGroupValue) (req : String),
      resolveDependency g dependency assetGroup req = Except.ok g1 →
      AddrSane g1 →
      (∃ a r1, getNodeAddr g1 dependency.id = some a ∧
        heapGet g1 a = some r1 ∧ r1.ntype = NType.dependency ∧
        r1.correspondingRequest = some req) →
      (∀ grp, assetGroup = some grp →
        hasNode g1 (nodeFromAssetGroup grp).id = true ∧
        hasEdge g1 dependency.id (nodeFromAssetGroup grp).id = true ∧
        ∀ c ∈ childrenOf g1 dependency.id,
          c = (nodeFromAssetGroup grp).id) →
      ∃ g2, resolveDependency g1 dependency assetGroup req = Except.ok g2 ∧
        ObsEq g1 g2) ∧
    (∀ (g g1 : AGraph) (assetAddr : Addr)
        (dependentAssets : List AssetValue) (rA : NodeRec) (av : AssetValue),
      resolveAsset g assetAddr dependentAssets = Except.ok g1 →
      AddrSane g1 →
      heapGet g1 assetAddr = some rA →
      rA.assetValue = some av →
      assetAddr < g1.nextAddr →
      recomputedAssetUsed g1 av = Except.ok rA.usedSymbols →
      (∀ dep ∈ av.dependencies, hasNode g1 dep.id = true ∧
        hasEdge g1 av.id dep.id = true) →
      (∀ c ∈ childrenOf g1 av.id, ∃ dep ∈ av.dependencies, c = dep.id) →
      (∀ dep ∈ av.dependencies, ∀ asB,
        dependentAssets.find?
            (fun b => b.uniqueKey == some dep.moduleSpecifier) = some asB →
        hasNode g1 asB.id = true ∧ hasEdge g1 dep.id asB.id = true ∧
        ∀ c ∈ childrenOf g1 dep.id, c = asB.id) →
      ∃ g2, resolveAsset g1 assetAddr dependentAssets = Except.ok g2 ∧
        ObsEq g1 g2) ∧
    (∀ (g g1 : AGraph) (assetGroup : AssetGroupValue)
        (assets : List AssetValue) (req : String),
      resolveAssetGroup g assetGroup assets req = Except.ok g1 →
      AddrSane g1 →
      (∃ a r1,
        getNodeAddr g1 (nodeFromAssetGroup assetGroup).id = some a ∧
        heapGet g1 a = some r1 ∧ r1.ntype = NType.asset_group ∧
        r1.correspondingRequest = some req) →
      (∀ pl ∈ groupPlan assets, pl.2.2 = true →
        hasNode g1 pl.1.id = true ∧
        hasEdge g1 (nodeFromAssetGroup assetGroup).id pl.1.id = true) →
      (∀ c ∈ childrenOf g1 (nodeFromAssetGroup assetGroup).id,
        ∃ pl ∈ groupPlan assets, pl.2.2 = true ∧ c = pl.1.id) →
      (∀ pl ∈ groupPlan assets, MemberHyps g1 pl) →
      ∃ g2, resolveAssetGroup g1 assetGroup assets req = Except.ok g2 ∧
        ObsEq g1 g2) := by
  refine ⟨?_, ?_, ?_, ?_, ?_⟩
  · intro g g1 entry resolved req hcall hsane hnode hres hchild
    exact resolveEntry_renoop g1 entry resolved req hsane hnode hres hchild
  · intro g g1 entry targets req hcall hsane hnode htars hchild
    exact resolveTargets_renoop g1 entry targets req hsane hnode htars hchild
  · intro g g1 dependency assetGroup req hcall hsane hnode hgrp
    exact resolveDependency_renoop g1 dependency assetGroup req hsane hnode
      hgrp
  · intro g g1 assetAddr dependentAssets rA av hcall hsane hget hav haddr
      hfix hdeps hchild hpairs
    rcases resolveAsset_renoop_core g1 g1 assetAddr dependentAssets rA av
        hsane (SameView_refl g1 hsane) hget hav haddr (Or.inr hfix)
        ⟨rA.usedSymbols, hfix⟩ hdeps hchild hpairs
        with ⟨h2, hok, hview, _, _⟩
    exact ⟨h2, hok, SameView_obs hview⟩
  · intro g g1 assetGroup assets req hcall hsane hnode hdirect hchild
      hmembers
    exact resolveAssetGroup_renoop g1 assetGroup assets req hsane hnode
      hdirect hchild hmembers

/-- Closed instantiation of the idempotence theorem: on five concrete
pipeline states, each obtained by running the corresponding resolver once,
the second call with identical logical inputs succeeds and leaves the
observable graph unchanged. -/
theorem c6_resolver_idempotence_witness :
    (∃ g2, resolveEntry fixEntry1 "e" ["f1"] "reqE" = Except.ok g2 ∧
      ObsEq fixEntry1 g2) ∧
    (∃ g2, resolveTargets fixTargets1 "e" [tgt0] "reqT" = Except.ok g2 ∧
      ObsEq fixTargets1 g2) ∧
    (∃ g2, resolveDependency fixDep1 depD0 (some grpD) "reqD" = Except.ok g2 ∧
      ObsEq fixDep1 g2) ∧
    (∃ g2, resolveAsset fixAsset1 0 [] = Except.ok g2 ∧ ObsEq fixAsset1 g2) ∧
    (∃ g2, resolveAssetGroup fixGroup1 grpG [avG] "reqG" = Except.ok g2 ∧
      ObsEq fixGroup1 g2) := by
  refine ⟨?_, ?_, ?_, ?_, ?_⟩
  · exact c6_resolver_idempotence.1 fixEntry0 fixEntry1 "e" ["f1"] "reqE"
      rfl ⟨by decide, by decide⟩
      ⟨0, entryRec1, by decide, by decide, by decide, by decide⟩
      (by decide) (by decide)
  · exact c6_resolver_idempotence.2.1 fixTargets0 fixTargets1 "e" [tgt0]
      "reqT" rfl ⟨by decide, by decide⟩
      ⟨0, targetsRec1, by decide, by decide, by decide, by decide⟩
      (by decide) (by decide)
  · refine c6_resolver_idempotence.2.2.1 fixDep0 fixDep1 depD0 (some grpD)
      "reqD" rfl ⟨by decide, by decide⟩
      ⟨0, depRec1, by decide, by decide, by decide, by decide⟩ ?_
    intro grp hg
    injection hg with hg
    subst hg
    exact ⟨by decide, by decide, by decide⟩
  · refine c6_resolver_idempotence.2.2.2.1 fixAsset0 fixAsset1 0 [] assetRec1
      avA rfl ⟨by decide, by decide⟩ rfl (by decide) (by decide) rfl (by decide)
      (by decide) ?_
    intro dep hdep asB hfind
    exact Option.noConfusion hfind
  · refine c6_resolver_idempotence.2.2.2.2 fixGroup0 fixGroup1 grpG [avG]
      "reqG" rfl ⟨by decide, by decide⟩
      ⟨0, groupRec1, by decide, by decide, by decide, by decide⟩
      (by decide) (by decide) ?_
    intro pl hpl
    have hplan : groupPlan [avG] = [(avG, ([], true))] := by decide
    rw [hplan] at hpl
    have hpl2 : pl = (avG, ([], true)) := by simpa using hpl
    subst hpl2
    refine ⟨⟨memberUsedG, rfl⟩, by decide, by decide, ?_⟩
    intro dep hdep
    exact absurd hdep (List.not_mem_nil dep)
